import Mathlib

/-!
# 9cc: a one-pass compiler for `N (+|- M)*`

A shallow embedding of `9cc.c`.  The C program keeps two globals (`token`, the
cursor into the linked list of tokens, and `user_input`) and writes to the two
standard streams; here they are the four fields of `State`, threaded explicitly.
A `char *` into the input is the suffix of the input it points at, so that
`p[0]` is the head of the suffix and `p - user_input` is a difference of
lengths.  The linked list of tokens is a `List Token`; the `next` field of a
token is the tail of the list at that token, and `NULL` is `[]`.

The input is the content of `argv[1]` up to its terminating NUL, one `Char` per
byte.  `long` has 64 bits and `int` 32, as on the x86-64 target the emitted
assembly is for; the conversion from `long` to `int` wraps.  The locale is the
"C" locale, since the program never calls `setlocale`.  The offset
`loc - user_input` is taken as a natural number: no argument is long enough to
overflow an `int`.
-/

set_option maxRecDepth 4000

namespace NineCC

/-! ## Data model -/

/-- The enum `TokenKind`. -/
inductive TokenKind
  | TK_RESERVED
  | TK_NUM
  | TK_EOF
  deriving DecidableEq, Repr

/-- The struct `Token` without its `next` field, which is the tail of the list
the token sits in.  `val` is a C `int`; `str` is the suffix of the input that
begins at the token. -/
structure Token where
  kind : TokenKind
  val : Int
  str : List Char
  deriving DecidableEq, Repr

/-- The globals `token` and `user_input` and the contents of the two streams. -/
structure State where
  token : List Token
  user_input : List Char
  stdout : List Char
  stderr : List Char
  deriving DecidableEq, Repr

/-- How a C function called in state `s` can end: it returns a value, the process
exits with a status, the behaviour is undefined (a null pointer is dereferenced
or a format string does not match its arguments), or the fuel of a loop ran
out. -/
inductive Outcome (α : Type)
  | ret (a : α) (s : State)
  | exit (status : Nat) (s : State)
  | undefined
  | timeout
  deriving DecidableEq, Repr

/-- Sequencing: run `f` on the returned value and state, pass on everything
else. -/
def Outcome.bind {α β : Type} (o : Outcome α) (f : α → State → Outcome β) : Outcome β :=
  match o with
  | .ret a s => f a s
  | .exit c s => .exit c s
  | .undefined => .undefined
  | .timeout => .timeout

/-- The exit status of the process, when it ends: the argument of `exit` or the
value returned from `main`. -/
def Outcome.status : Outcome Int → Option Int
  | .ret a _ => some a
  | .exit c _ => some c
  | .undefined => none
  | .timeout => none

/-- The final state, when the process ends. -/
def Outcome.final {α : Type} : Outcome α → Option State
  | .ret _ s => some s
  | .exit _ s => some s
  | .undefined => none
  | .timeout => none

/-- What the process wrote to standard output. -/
def Outcome.out {α : Type} (o : Outcome α) : List Char :=
  match o.final with
  | some s => s.stdout
  | none => []

/-- What the process wrote to the error stream. -/
def Outcome.err {α : Type} (o : Outcome α) : List Char :=
  match o.final with
  | some s => s.stderr
  | none => []

/-! ## The C library, as far as the program uses it -/

/-- `isspace` in the "C" locale: space, and `\t \n \v \f \r`. -/
def isspace (c : Char) : Bool :=
  c.toNat = 32 || (9 ≤ c.toNat && c.toNat ≤ 13)

/-- `isdigit`: the characters `0` to `9`. -/
def isdigit (c : Char) : Bool :=
  48 ≤ c.toNat && c.toNat ≤ 57

/-- `LONG_MAX` of a 64-bit `long`. -/
def LONG_MAX : Int := 2 ^ 63 - 1

/-- The value of a decimal digit character. -/
def digitVal (c : Char) : Nat := c.toNat - 48

/-- The mathematical value of a string of decimal digits. -/
def decval (ds : List Char) : Nat :=
  ds.foldl (fun a c => 10 * a + digitVal c) 0

/-- `strtol(p, &p, 10)` where `p` points at a digit: the value of the maximal
run of digits, clamped to `LONG_MAX`, and the position after the run. -/
def strtol (p : List Char) : Int × List Char :=
  (min (decval (p.takeWhile isdigit) : Int) LONG_MAX, p.dropWhile isdigit)

/-- Conversion of a `long` to a 32-bit `int`: reduction modulo `2^32` into the
signed range. -/
def to_int (x : Int) : Int :=
  (x + 2 ^ 31) % 2 ^ 32 - 2 ^ 31

/-- The conversion `%d` of `printf`: decimal, with a minus sign when negative. -/
def fmt_d (i : Int) : List Char :=
  (Int.repr i).toList

/-- The conversion `%*s` of `printf` with a non-negative width: the string,
padded with spaces on the left up to the width. -/
def fmt_pad (width : Nat) (s : List Char) : List Char :=
  List.replicate (width - s.length) ' ' ++ s

/-- An argument of a variadic call. -/
inductive Arg
  | int (i : Int)
  | chr (c : Char)
  | str (s : List Char)
  deriving DecidableEq, Repr

/-- What `vfprintf` writes for a format and its arguments: ordinary characters
are copied, `%d`, `%c` and `%s` take the next argument when it has the matching
type, `%%` is a percent sign, and any other use of `%` is undefined.  Surplus
arguments are ignored. -/
def vformat : List Char → List Arg → Option (List Char)
  | [], _ => some []
  | c :: rest, args =>
    if c = '%' then
      match rest, args with
      | d :: rest', .int i :: args' =>
        if d = 'd' then (vformat rest' args').map (fmt_d i ++ ·)
        else if d = '%' then (vformat rest' (.int i :: args')).map ('%' :: ·)
        else none
      | d :: rest', .chr x :: args' =>
        if d = 'c' then (vformat rest' args').map (x :: ·)
        else if d = '%' then (vformat rest' (.chr x :: args')).map ('%' :: ·)
        else none
      | d :: rest', .str x :: args' =>
        if d = 's' then (vformat rest' args').map (x ++ ·)
        else if d = '%' then (vformat rest' (.str x :: args')).map ('%' :: ·)
        else none
      | d :: rest', [] =>
        if d = '%' then (vformat rest' []).map ('%' :: ·)
        else none
      | [], _ => none
    else (vformat rest args).map (c :: ·)

/-! ## Diagnostics -/

/-- The function `error_at`: echo the input, pad to the position of `loc`, print
a caret and the formatted message, and exit with status 1. -/
def error_at {α : Type} (loc : List Char) (fmt : List Char) (args : List Arg)
    (s : State) : Outcome α :=
  let pos := s.user_input.length - loc.length
  let e1 := s.stderr ++ (s.user_input ++ "\n".toList)
  let e2 := e1 ++ fmt_pad pos " ".toList
  let e3 := e2 ++ "^ ".toList
  match vformat fmt args with
  | none => .undefined
  | some m => .exit 1 { s with stderr := e3 ++ m ++ "\n".toList }

/-- The function `error`: print the formatted message and exit with status 1. -/
def error {α : Type} (fmt : List Char) (args : List Arg) (s : State) : Outcome α :=
  match vformat fmt args with
  | none => .undefined
  | some m => .exit 1 { s with stderr := s.stderr ++ m ++ "\n".toList }

/-! ## The cursor -/

/-- The expression `p[0]` for a pointer into the input: the character there, or
the terminating NUL at the end. -/
def str0 (p : List Char) : Char := p.headD '\x00'

/-- The function `consume`. -/
def consume (op : Char) (s : State) : Outcome Bool :=
  match s.token with
  | [] => .undefined
  | t :: next =>
    if t.kind ≠ .TK_RESERVED ∨ str0 t.str ≠ op then .ret false s
    else .ret true { s with token := next }

/-- The function `expect`.  The call is `error(token->str, "expected '%c'", op)`:
the token text is the format, the message and `op` are its arguments. -/
def expect (op : Char) (s : State) : Outcome Unit :=
  match s.token with
  | [] => .undefined
  | t :: next =>
    if t.kind ≠ .TK_RESERVED ∨ str0 t.str ≠ op then
      error t.str [.str "expected '%c'".toList, .chr op] s
    else .ret () { s with token := next }

/-- The function `expect_number`. -/
def expect_number (s : State) : Outcome Int :=
  match s.token with
  | [] => .undefined
  | t :: next =>
    if t.kind ≠ .TK_NUM then error_at t.str "expected a number".toList [] s
    else .ret t.val { s with token := next }

/-- The function `at_eof`. -/
def at_eof (s : State) : Outcome Bool :=
  match s.token with
  | [] => .undefined
  | t :: _ => .ret (decide (t.kind = .TK_EOF)) s

/-! ## The lexer -/

/-- The function `new_token`: `calloc` zeroes the value. -/
def new_token (kind : TokenKind) (str : List Char) : Token :=
  { kind := kind, val := 0, str := str }

/-- The loop of `tokenize` from position `p`, returning the tokens from there
on, the end-of-file token included.  One unit of fuel is one iteration. -/
def tokenize_loop : Nat → List Char → State → Outcome (List Token)
  | _, [], s => .ret [new_token .TK_EOF []] s
  | 0, _ :: _, _ => .timeout
  | fuel + 1, c :: rest, s =>
    if isspace c then tokenize_loop fuel rest s
    else if c = '+' ∨ c = '-' then
      (tokenize_loop fuel rest s).bind fun ts s1 =>
        .ret (new_token .TK_RESERVED (c :: rest) :: ts) s1
    else if isdigit c then
      (tokenize_loop fuel (strtol (c :: rest)).2 s).bind fun ts s1 =>
        .ret ({ new_token .TK_NUM (c :: rest) with
                val := to_int (strtol (c :: rest)).1 } :: ts) s1
    else error "invalid token".toList [] s

/-- The function `tokenize`.  Every iteration moves `p` forward, so the length
of the input is enough fuel. -/
def tokenize (p : List Char) (s : State) : Outcome (List Token) :=
  tokenize_loop p.length p s

/-! ## The consumer and emitter -/

/-- A call of `printf` whose output is `text`. -/
def printf (text : List Char) (s : State) : State :=
  { s with stdout := s.stdout ++ text }

/-- The `while (!at_eof())` loop of `main`.  One unit of fuel is one
iteration. -/
def main_loop : Nat → State → Outcome Unit
  | fuel, s =>
    (at_eof s).bind fun eof s0 =>
      if eof then .ret () s0
      else
        match fuel with
        | 0 => .timeout
        | fuel1 + 1 =>
          (consume '+' s0).bind fun plus s1 =>
            if plus then
              (expect_number s1).bind fun v s2 =>
                main_loop fuel1 (printf ("  add rax, ".toList ++ fmt_d v ++ "\n".toList) s2)
            else
              (expect '-' s1).bind fun _ s2 =>
                (expect_number s2).bind fun v s3 =>
                  main_loop fuel1 (printf ("  sub rax, ".toList ++ fmt_d v ++ "\n".toList) s3)

/-- The function `main`; `argv` holds the program name and the arguments, so
`argc` is its length.  Every iteration of the loop moves the cursor forward, so
the number of tokens is enough fuel. -/
def main (argv : List (List Char)) : Outcome Int :=
  let s : State := { token := [], user_input := [], stdout := [], stderr := [] }
  match argv with
  | [_, arg] =>
    let s := { s with user_input := arg }
    (tokenize s.user_input s).bind fun ts s =>
      let s := { s with token := ts }
      let s := printf ".intel_syntax noprefix\n".toList s
      let s := printf ".globl main\n".toList s
      let s := printf "main:\n".toList s
      (expect_number s).bind fun v s =>
        let s := printf ("  mov rax, ".toList ++ fmt_d v ++ "\n".toList) s
        (main_loop s.token.length s).bind fun _ s =>
          let s := printf "  ret\n".toList s
          .ret 0 s
  | _ =>
    .ret 1 { s with stderr := s.stderr ++ "incorrect argument\n".toList }

/-- The compiler run on one expression: `9cc <input>`. -/
def compile (input : String) : Outcome Int :=
  main ["9cc".toList, input.toList]

end NineCC


namespace NineCC

/-! ## Reading the run of the program -/

/-- The state in which `main` calls `tokenize`. -/
def init (input : List Char) : State :=
  { token := [], user_input := input, stdout := [], stderr := [] }

/-- The tokens `tokenize` returns for an input, when it returns. -/
def tokens_of (input : List Char) : Option (List Token) :=
  match tokenize input (init input) with
  | .ret ts _ => some ts
  | _ => none

/-- The characters the lexer accepts. -/
def lexchar (c : Char) : Bool :=
  isspace c || c = '+' || c = '-' || isdigit c

/-- The Number token `tokenize` makes at position `p`. -/
def num_token (p : List Char) : Token :=
  { kind := .TK_NUM, val := to_int (strtol p).1, str := p }

/-! ## The consumer as a function of the token list -/

/-- The three instructions the emitter writes, with their immediate. -/
inductive Instr
  | mov (imm : Int)
  | add (imm : Int)
  | sub (imm : Int)
  deriving DecidableEq, Repr

/-- The line of assembly text of an instruction, without its newline. -/
def Instr.line : Instr → List Char
  | .mov i => "  mov rax, ".toList ++ fmt_d i
  | .add i => "  add rax, ".toList ++ fmt_d i
  | .sub i => "  sub rax, ".toList ++ fmt_d i

/-- The text made of the given lines, each followed by a newline. -/
def unlines (ls : List (List Char)) : List Char :=
  ls.flatMap (· ++ "\n".toList)

/-- The three lines of the prologue. -/
def prologue : List (List Char) :=
  [".intel_syntax noprefix".toList, ".globl main".toList, "main:".toList]

/-- Why the walk over the tokens stops: the loop saw the end-of-file token,
`expect_number` or `expect('-')` failed at the token whose text is `loc`, or
the cursor was null. -/
inductive Stop
  | done
  | number_expected (loc : List Char)
  | minus_expected (loc : List Char)
  | null
  deriving DecidableEq, Repr

/-- The summary of a walk: the instructions emitted, the cursor where the walk
stopped, and why it stopped. -/
structure Walk where
  code : List Instr
  cursor : List Token
  stop : Stop
  deriving DecidableEq, Repr

/-- The walk of the loop of `main` over the tokens from the cursor on. -/
def walk_loop : List Token → Walk
  | [] => ⟨[], [], .null⟩
  | t :: rest =>
    if t.kind = .TK_EOF then ⟨[], t :: rest, .done⟩
    else if t.kind = .TK_RESERVED ∧ str0 t.str = '+' then
      match rest with
      | [] => ⟨[], [], .null⟩
      | n :: rest1 =>
        if n.kind = .TK_NUM then
          { walk_loop rest1 with code := .add n.val :: (walk_loop rest1).code }
        else ⟨[], n :: rest1, .number_expected n.str⟩
    else if t.kind = .TK_RESERVED ∧ str0 t.str = '-' then
      match rest with
      | [] => ⟨[], [], .null⟩
      | n :: rest1 =>
        if n.kind = .TK_NUM then
          { walk_loop rest1 with code := .sub n.val :: (walk_loop rest1).code }
        else ⟨[], n :: rest1, .number_expected n.str⟩
    else ⟨[], t :: rest, .minus_expected t.str⟩

/-- The walk of `main` over all the tokens: the first number, then the loop. -/
def walk : List Token → Walk
  | [] => ⟨[], [], .null⟩
  | t :: rest =>
    if t.kind = .TK_NUM then
      { walk_loop rest with code := .mov t.val :: (walk_loop rest).code }
    else ⟨[], t :: rest, .number_expected t.str⟩

/-- The outcome a walk stands for, from state `s`: the lines of the emitted
instructions are appended to standard output, the cursor is moved, and the run
goes on or ends in the diagnostic of the failed expectation. -/
def Walk.finish (w : Walk) (s : State) : Outcome Unit :=
  let s1 : State :=
    { s with token := w.cursor, stdout := s.stdout ++ unlines (w.code.map Instr.line) }
  match w.stop with
  | .done => .ret () s1
  | .number_expected loc => error_at loc "expected a number".toList [] s1
  | .minus_expected loc => error loc [.str "expected '%c'".toList, .chr '-'] s1
  | .null => .undefined

/-- A token is an operator token: Reserved, with text starting in `+` or `-`. -/
def Token.is_op (t : Token) : Prop :=
  t.kind = .TK_RESERVED ∧ (str0 t.str = '+' ∨ str0 t.str = '-')

instance (t : Token) : Decidable t.is_op := by
  unfold Token.is_op
  infer_instance

/-- The instruction emitted for an operator token and the number token after
it. -/
def term_instr (p : Token × Token) : Instr :=
  if str0 p.1.str = '+' then .add p.2.val else .sub p.2.val

/-- The pieces of a text between its newlines.  A text that ends in a newline
has the empty piece last. -/
def split_lines : List Char → List (List Char)
  | [] => [[]]
  | c :: rest =>
    if c = '\n' then [] :: split_lines rest
    else
      match split_lines rest with
      | [] => [[c]]
      | l :: ls => (c :: l) :: ls

/-- The tokens after a Number are pairs of a Reserved-operator token and a
Number token, then the end-of-file token and nothing more. -/
def alternates : List Token → Bool
  | [] => false
  | [e] => e.kind = .TK_EOF
  | o :: n :: rest => o.kind = .TK_RESERVED && n.kind = .TK_NUM && alternates rest

/-- The token sequence begins with a Number, then alternates operators and
Numbers, and ends with a Number right before the end-of-file token. -/
def well_formed : List Token → Bool
  | [] => false
  | n :: rest => n.kind = .TK_NUM && alternates rest

/-- The end-of-file token is the last token and the only one of its kind. -/
def eof_last : List Token → Bool
  | [] => false
  | [e] => e.kind = .TK_EOF
  | t :: n :: rest => t.kind ≠ .TK_EOF && eof_last (n :: rest)

/-- The error stream holds the positional diagnostic of `expect_number`: the
input, a newline, some spaces, the caret and `expected a number`. -/
def number_expected_message (input err : List Char) : Prop :=
  ∃ k, err = input ++ "\n".toList ++ List.replicate k ' ' ++ "^ expected a number\n".toList

/-- The last character of the input that is not white space is `+` or `-`. -/
def ends_in_operator (input : List Char) : Prop :=
  ∃ pre op ws, input = pre ++ op :: ws ∧ (op = '+' ∨ op = '-') ∧ ∀ c ∈ ws, isspace c = true

/-- What the consumer reads of a token: its kind, its value and the first
character of its text. -/
def Token.key (t : Token) : TokenKind × Int × Char :=
  (t.kind, t.val, str0 t.str)

/-- The keys of the tokens of an input, when it lexes. -/
def keys_of (input : List Char) : Option (List (TokenKind × Int × Char)) :=
  (tokens_of input).map (List.map Token.key)

/-- The text ends in a digit. -/
def ends_digit (x : List Char) : Bool := x.getLast?.any isdigit

/-- The text starts with a digit. -/
def starts_digit (y : List Char) : Bool := y.head?.any isdigit

/-- The text `b` is the text `a` with one white-space character put in at a
place that is not inside a run of digits. -/
def ws_insert (a b : List Char) : Prop :=
  ∃ x w y, a = x ++ y ∧ b = x ++ w :: y ∧ isspace w = true ∧
    ¬(ends_digit x = true ∧ starts_digit y = true)

/-- Two texts differ only by white space put in or taken out, any number of
times, never splitting or joining runs of digits. -/
def ws_equiv : List Char → List Char → Prop :=
  Relation.EqvGen ws_insert

/-! ## Inputs of the form `N (op M)*` and the meaning of the emitted text -/

/-- One term `op M` of the input: white space, the operator, white space, the
digits of `M`. -/
structure Term where
  ws1 : List Char
  op : Char
  ws2 : List Char
  digits : List Char
  deriving DecidableEq, Repr

/-- The text of a term. -/
def Term.text (t : Term) : List Char :=
  t.ws1 ++ t.op :: (t.ws2 ++ t.digits)

/-- A run of white space, possibly empty. -/
def is_space_run (w : List Char) : Prop := ∀ c ∈ w, isspace c = true

/-- A non-empty string of decimal digits. -/
def is_number (ds : List Char) : Prop := ds ≠ [] ∧ ∀ c ∈ ds, isdigit c = true

/-- A term is well formed: white space, `+` or `-`, white space, a number. -/
def Term.ok (t : Term) : Prop :=
  is_space_run t.ws1 ∧ (t.op = '+' ∨ t.op = '-') ∧ is_space_run t.ws2 ∧ is_number t.digits

/-- The input `N (op M)*`, with white space `w0` in front and `wend` behind. -/
def expr_text (w0 n : List Char) (terms : List Term) (wend : List Char) : List Char :=
  w0 ++ (n ++ (terms.flatMap Term.text ++ wend))

/-- The left-to-right fold `((N op1 M1) op2 M2) ...` over the mathematical
values of the literals. -/
def fold_value (n : List Char) (terms : List Term) : Int :=
  terms.foldl
    (fun acc t => if t.op = '+' then acc + (decval t.digits : Int) else acc - (decval t.digits : Int))
    (decval n : Int)

/-- The text `l` without the leading text `pre`, when it starts with it. -/
def strip_head : List Char → List Char → Option (List Char)
  | [], l => some l
  | _ :: _, [] => none
  | p :: ps, c :: cs => if p = c then strip_head ps cs else none

/-- An immediate operand read back from text: decimal digits, with an optional
minus sign in front. -/
def parse_imm (l : List Char) : Option Int :=
  match l with
  | [] => none
  | c :: ds =>
    if c = '-' then
      if ds ≠ [] ∧ ds.all isdigit then some (-(decval ds : Int)) else none
    else
      if (c :: ds).all isdigit then some (decval (c :: ds) : Int) else none

/-- An instruction read back from a line of the output. -/
def parse_instr (l : List Char) : Option Instr :=
  match strip_head "  mov rax, ".toList l with
  | some r => (parse_imm r).map Instr.mov
  | none =>
    match strip_head "  add rax, ".toList l with
    | some r => (parse_imm r).map Instr.add
    | none =>
      match strip_head "  sub rax, ".toList l with
      | some r => (parse_imm r).map Instr.sub
      | none => none

/-- The effect of an instruction on the 64-bit register `rax`. -/
def exec_instr (rax : Int) : Instr → Int
  | .mov i => i % 2 ^ 64
  | .add i => (rax + i) % 2 ^ 64
  | .sub i => (rax - i) % 2 ^ 64

/-- Running the lines after the label: instructions up to the `  ret` line, where
the return value is `rax mod 256`. -/
def run_body : List (List Char) → Int → Option Int
  | [], _ => none
  | l :: rest, rax =>
    if l = "  ret".toList then some (rax % 256)
    else
      match parse_instr l with
      | some i => run_body rest (exec_instr rax i)
      | none => none

/-- Running the emitted program: the three prologue lines, then the body. -/
def asm_run (text : List Char) : Option Int :=
  match split_lines text with
  | l1 :: l2 :: l3 :: body => if [l1, l2, l3] = prologue then run_body body 0 else none
  | _ => none

/-- The instruction the emitter writes for a term. -/
def term_code (t : Term) : Instr :=
  if t.op = '+' then .add (to_int (min (decval t.digits : Int) LONG_MAX))
  else .sub (to_int (min (decval t.digits : Int) LONG_MAX))

/-! ## The lexemes of an input, read off the characters -/

/-- The places of the input where a lexeme starts, as suffixes of the input in
input order: every `+` or `-`, and every digit that does not follow a digit,
which is the first digit of a maximal run of digits.  `prev` tells whether the
character before is a digit. -/
def lexeme_starts : Bool → List Char → List (List Char)
  | _, [] => []
  | prev, c :: rest =>
    (if c = '+' ∨ c = '-' ∨ (isdigit c = true ∧ prev = false) then [c :: rest] else [])
      ++ lexeme_starts (isdigit c) rest

/-- The kind of token a lexeme stands for: Reserved for an operator character,
Number for a run of digits. -/
def lexeme_kind (p : List Char) : TokenKind :=
  if str0 p = '+' ∨ str0 p = '-' then .TK_RESERVED else .TK_NUM

/-! ## The immediate a literal is expected to give -/

/-- The number `v` reduced modulo `2^32` into the signed range `[-2^31, 2^31)`. -/
def signed32 (v : Nat) : Int :=
  if v % 2 ^ 32 < 2 ^ 31 then ((v % 2 ^ 32 : Nat) : Int)
  else ((v % 2 ^ 32 : Nat) : Int) - 2 ^ 32

/-- The immediate expected for a digit run of decimal value `v`: `v` reduced
into the signed 32-bit range when `v < 2^63`, and -1 from there on. -/
def expected_imm (v : Nat) : Int :=
  if v < 2 ^ 63 then signed32 v else -1

/-! ## The longest well-formed prefix of the tokens -/

/-- The pairs of a Reserved token and a Number token at the head of the list,
as many as there are. -/
def good_pairs : List Token → List (Token × Token)
  | [] => []
  | [_] => []
  | o :: n :: rest =>
    if o.kind = .TK_RESERVED ∧ n.kind = .TK_NUM then (o, n) :: good_pairs rest else []

/-- The longest prefix of the tokens of the form Number (Operator Number)*;
empty when the first token is not a Number. -/
def good_head : List Token → List Token
  | [] => []
  | n :: rest =>
    if n.kind = .TK_NUM then n :: (good_pairs rest).flatMap (fun p => [p.1, p.2]) else []

/-- The instructions of the longest well-formed prefix: `mov` for the Number,
then `add` or `sub` for each pair. -/
def prefix_code : List Token → List Instr
  | [] => []
  | n :: rest =>
    if n.kind = .TK_NUM then .mov n.val :: (good_pairs rest).map term_instr else []

/-- The tokens are pairs of a Reserved token and a Number token. -/
def pairs_form : List Token → Bool
  | [] => true
  | [_] => false
  | o :: n :: rest => o.kind = .TK_RESERVED && n.kind = .TK_NUM && pairs_form rest

/-- The tokens have the form Number (Operator Number)*. -/
def expr_form : List Token → Bool
  | [] => false
  | n :: rest => n.kind = .TK_NUM && pairs_form rest

/-! ## The cursor stays inside the token sequence -/

/-- The cursor of state `s` designates an existing token of the sequence `ts`:
it is the list from some token `t` of `ts` to the end. -/
def cursor_ok (ts : List Token) (s : State) : Prop :=
  ∃ pre t rest, ts = pre ++ t :: rest ∧ s.token = t :: rest

/-- The outcome `o` of a cursor operation run in state `s` keeps the cursor
inside `ts`: when it returns, the cursor designates a token and is where it was
or at the immediate successor; when it exits, the cursor is where it was; and
it is not undefined and does not run out of fuel. -/
def step_ok {α : Type} (ts : List Token) (s : State) (o : Outcome α) : Prop :=
  match o with
  | .ret _ s1 => cursor_ok ts s1 ∧ (s1.token = s.token ∨ s1.token = s.token.tail)
  | .exit _ s1 => s1.token = s.token
  | .undefined => False
  | .timeout => False

/-! ## A Number where the consumer expects an operator -/

/-- The token right after the pairs of a Reserved token and a Number token at
the head of the list is a Number. -/
def number_follows_pairs (ts : List Token) : Bool :=
  match ts.drop ((good_pairs ts).flatMap (fun p => [p.1, p.2])).length with
  | t :: _ => decide (t.kind = .TK_NUM)
  | [] => false

/-- The tokens begin Number (Operator Number)* Number: the token right after
the longest prefix of the form Number (Operator Number)* is a Number, which
stands where the consumer expects an operator. -/
def number_in_operator_position : List Token → Bool
  | [] => false
  | n :: rest => decide (n.kind = .TK_NUM) && number_follows_pairs rest

/-! ## Lemmas on the lexer -/

theorem strtol_snd_length_le (c : Char) (rest : List Char) (h : isdigit c = true) :
    (strtol (c :: rest)).2.length ≤ rest.length := by
  simp only [strtol, List.dropWhile_cons, h, if_true]
  exact (List.dropWhile_suffix _).length_le

theorem tokenize_loop_fuel (s : State) : ∀ (fuel : Nat) (p : List Char),
    p.length ≤ fuel → tokenize_loop fuel p s = tokenize_loop p.length p s := by
  intro fuel
  induction fuel using Nat.strong_induction_on with
  | _ fuel ih =>
    intro p hp
    cases p with
    | nil => cases fuel <;> simp [tokenize_loop]
    | cons c rest =>
      cases fuel with
      | zero => simp at hp
      | succ f =>
        have hr : rest.length ≤ f := by simpa using hp
        simp only [tokenize_loop, List.length_cons]
        by_cases h1 : isspace c = true
        · simp only [h1, if_true]
          rw [ih f (Nat.lt_succ_self f) rest hr]
        · simp only [h1]
          by_cases h2 : c = '+' ∨ c = '-'
          · simp only [h2, if_true]
            rw [ih f (Nat.lt_succ_self f) rest hr]
          · simp only [h2, if_false]
            by_cases h3 : isdigit c = true
            · simp only [h3, if_true]
              have hl := strtol_snd_length_le c rest h3
              rw [ih f (Nat.lt_succ_self f) _ (le_trans hl hr),
                ih rest.length (Nat.lt_succ_of_le hr) _ hl]
              simp
            · simp [h3]

/-- Induction on the length of a list. -/
theorem length_induction {α : Type} {P : List α → Prop}
    (h : ∀ p, (∀ q, q.length < p.length → P q) → P p) (p : List α) : P p := by
  generalize hn : p.length = n
  induction n using Nat.strong_induction_on generalizing p with
  | _ n ih => exact h p fun q hq => ih q.length (hn ▸ hq) q rfl

theorem tokenize_nil (s : State) : tokenize [] s = .ret [new_token .TK_EOF []] s := rfl

theorem tokenize_cons (c : Char) (rest : List Char) (s : State) :
    tokenize (c :: rest) s =
      if isspace c then tokenize rest s
      else if c = '+' ∨ c = '-' then
        (tokenize rest s).bind fun ts s1 =>
          .ret (new_token .TK_RESERVED (c :: rest) :: ts) s1
      else if isdigit c then
        (tokenize (strtol (c :: rest)).2 s).bind fun ts s1 =>
          .ret ({ new_token .TK_NUM (c :: rest) with
                  val := to_int (strtol (c :: rest)).1 } :: ts) s1
      else error "invalid token".toList [] s := by
  unfold tokenize
  simp only [tokenize_loop, List.length_cons]
  by_cases h3 : isdigit c = true
  · rw [tokenize_loop_fuel s rest.length _ (strtol_snd_length_le c rest h3)]
  · simp [h3]

theorem error_invalid_token {α : Type} (s : State) :
    (error "invalid token".toList [] s : Outcome α) =
      .exit 1 { s with stderr := s.stderr ++ "invalid token\n".toList } := by
  have h : vformat "invalid token".toList [] = some "invalid token".toList := by rfl
  simp only [error, h, List.append_assoc]
  rfl

/-- The lexer either returns tokens that do not depend on the state, leaving the
state alone, or exits through `error` with the message "invalid token". -/
theorem tokenize_cases (p : List Char) :
    (∃ ts, ∀ s, tokenize p s = .ret ts s) ∨
    (∀ s, tokenize p s =
      .exit 1 { s with stderr := s.stderr ++ "invalid token\n".toList }) := by
  induction p using length_induction with
  | _ p ih =>
    cases p with
    | nil => exact Or.inl ⟨_, fun s => tokenize_nil s⟩
    | cons c rest =>
      have hrest := ih rest (by simp)
      by_cases h1 : isspace c = true
      · rcases hrest with ⟨ts, h⟩ | h
        · exact Or.inl ⟨ts, fun s => by rw [tokenize_cons, if_pos h1, h]⟩
        · exact Or.inr fun s => by rw [tokenize_cons, if_pos h1, h]
      · by_cases h2 : c = '+' ∨ c = '-'
        · rcases hrest with ⟨ts, h⟩ | h
          · exact Or.inl ⟨_, fun s => by
              rw [tokenize_cons, if_neg h1, if_pos h2, h]; rfl⟩
          · exact Or.inr fun s => by
              rw [tokenize_cons, if_neg h1, if_pos h2, h]; rfl
        · by_cases h3 : isdigit c = true
          · have hl := strtol_snd_length_le c rest h3
            have hd := ih (strtol (c :: rest)).2
              (by simp only [List.length_cons]; omega)
            rcases hd with ⟨ts, h⟩ | h
            · exact Or.inl ⟨_, fun s => by
                rw [tokenize_cons, if_neg h1, if_neg h2, if_pos h3, h]; rfl⟩
            · exact Or.inr fun s => by
                rw [tokenize_cons, if_neg h1, if_neg h2, if_pos h3, h]; rfl
          · exact Or.inr fun s => by
              rw [tokenize_cons, if_neg h1, if_neg h2, if_neg h3, error_invalid_token]

theorem tokenize_eq (p : List Char) (s : State) :
    tokenize p s =
      match tokens_of p with
      | some ts => .ret ts s
      | none => .exit 1 { s with stderr := s.stderr ++ "invalid token\n".toList } := by
  rcases tokenize_cases p with ⟨ts, h⟩ | h
  · simp [tokens_of, h]
  · simp [tokens_of, h]

theorem tokens_of_nil : tokens_of [] = some [new_token .TK_EOF []] := rfl

theorem tokens_of_cons (c : Char) (rest : List Char) :
    tokens_of (c :: rest) =
      if isspace c then tokens_of rest
      else if c = '+' ∨ c = '-' then
        (tokens_of rest).map (new_token .TK_RESERVED (c :: rest) :: ·)
      else if isdigit c then
        (tokens_of (strtol (c :: rest)).2).map (num_token (c :: rest) :: ·)
      else none := by
  rw [tokens_of, tokenize_cons]
  by_cases h1 : isspace c = true
  · rw [if_pos h1, if_pos h1, tokenize_eq]
    cases tokens_of rest <;> rfl
  · rw [if_neg h1, if_neg h1]
    by_cases h2 : c = '+' ∨ c = '-'
    · rw [if_pos h2, if_pos h2, tokenize_eq]
      cases tokens_of rest <;> rfl
    · rw [if_neg h2, if_neg h2]
      by_cases h3 : isdigit c = true
      · rw [if_pos h3, if_pos h3, tokenize_eq]
        cases tokens_of (strtol (c :: rest)).2 <;> rfl
      · rw [if_neg h3, if_neg h3, error_invalid_token]

/-! ## Lemmas on the consumer -/

theorem main_loop_eq (fuel : Nat) (s : State) :
    main_loop fuel s =
      (at_eof s).bind fun eof s0 =>
        if eof then .ret () s0
        else
          match fuel with
          | 0 => .timeout
          | fuel1 + 1 =>
            (consume '+' s0).bind fun plus s1 =>
              if plus then
                (expect_number s1).bind fun v s2 =>
                  main_loop fuel1 (printf ("  add rax, ".toList ++ fmt_d v ++ "\n".toList) s2)
              else
                (expect '-' s1).bind fun _ s2 =>
                  (expect_number s2).bind fun v s3 =>
                    main_loop fuel1 (printf ("  sub rax, ".toList ++ fmt_d v ++ "\n".toList) s3) := by
  cases fuel <;> rfl

theorem bind_ret {α β : Type} (a : α) (s : State) (f : α → State → Outcome β) :
    (Outcome.ret a s).bind f = f a s := rfl

theorem error_at_bind {α β : Type} (loc fmt : List Char) (args : List Arg) (s : State)
    (f : α → State → Outcome β) :
    (error_at loc fmt args s : Outcome α).bind f = error_at loc fmt args s := by
  unfold error_at
  cases vformat fmt args <;> rfl

theorem error_bind {α β : Type} (fmt : List Char) (args : List Arg) (s : State)
    (f : α → State → Outcome β) :
    (error fmt args s : Outcome α).bind f = error fmt args s := by
  unfold error
  cases vformat fmt args <;> rfl

theorem at_eof_cons (t : Token) (rest : List Token) (inp out err : List Char) :
    at_eof ⟨t :: rest, inp, out, err⟩ =
      .ret (decide (t.kind = .TK_EOF)) ⟨t :: rest, inp, out, err⟩ := rfl

theorem consume_true (op : Char) (t : Token) (rest : List Token) (inp out err : List Char)
    (h : t.kind = .TK_RESERVED ∧ str0 t.str = op) :
    consume op ⟨t :: rest, inp, out, err⟩ = .ret true ⟨rest, inp, out, err⟩ := by
  simp [consume, h.1, h.2]

theorem consume_false (op : Char) (t : Token) (rest : List Token) (inp out err : List Char)
    (h : ¬(t.kind = .TK_RESERVED ∧ str0 t.str = op)) :
    consume op ⟨t :: rest, inp, out, err⟩ = .ret false ⟨t :: rest, inp, out, err⟩ := by
  have h1 : t.kind ≠ .TK_RESERVED ∨ str0 t.str ≠ op := by tauto
  simp only [consume, if_pos h1]

theorem expect_ok (op : Char) (t : Token) (rest : List Token) (inp out err : List Char)
    (h : t.kind = .TK_RESERVED ∧ str0 t.str = op) :
    expect op ⟨t :: rest, inp, out, err⟩ = .ret () ⟨rest, inp, out, err⟩ := by
  simp [expect, h.1, h.2]

theorem expect_fail (op : Char) (t : Token) (rest : List Token) (inp out err : List Char)
    (h : ¬(t.kind = .TK_RESERVED ∧ str0 t.str = op)) :
    expect op ⟨t :: rest, inp, out, err⟩ =
      error t.str [.str "expected '%c'".toList, .chr op] ⟨t :: rest, inp, out, err⟩ := by
  have h1 : t.kind ≠ .TK_RESERVED ∨ str0 t.str ≠ op := by tauto
  simp only [expect, if_pos h1]

theorem expect_number_ok (t : Token) (rest : List Token) (inp out err : List Char)
    (h : t.kind = .TK_NUM) :
    expect_number ⟨t :: rest, inp, out, err⟩ = .ret t.val ⟨rest, inp, out, err⟩ := by
  simp [expect_number, h]

theorem expect_number_fail (t : Token) (rest : List Token) (inp out err : List Char)
    (h : t.kind ≠ .TK_NUM) :
    expect_number ⟨t :: rest, inp, out, err⟩ =
      error_at t.str "expected a number".toList [] ⟨t :: rest, inp, out, err⟩ := by
  simp only [expect_number, if_pos h]

theorem expect_number_nil (inp out err : List Char) :
    expect_number ⟨[], inp, out, err⟩ = .undefined := rfl

theorem walk_loop_eof (t : Token) (rest : List Token) (h : t.kind = .TK_EOF) :
    walk_loop (t :: rest) = ⟨[], t :: rest, .done⟩ := by
  cases rest <;> simp [walk_loop, h]

theorem walk_loop_op_nil (t : Token)
    (h : t.kind = .TK_RESERVED ∧ (str0 t.str = '+' ∨ str0 t.str = '-')) :
    walk_loop [t] = ⟨[], [], .null⟩ := by
  rcases h with ⟨h1, h2 | h2⟩ <;> simp [walk_loop, h1, h2]

theorem walk_loop_plus (t n : Token) (rest : List Token)
    (h : t.kind = .TK_RESERVED ∧ str0 t.str = '+') (hn : n.kind = .TK_NUM) :
    walk_loop (t :: n :: rest) =
      { walk_loop rest with code := .add n.val :: (walk_loop rest).code } := by
  simp [walk_loop, h.1, h.2, hn]

theorem walk_loop_minus (t n : Token) (rest : List Token)
    (h : t.kind = .TK_RESERVED ∧ str0 t.str = '-') (hn : n.kind = .TK_NUM) :
    walk_loop (t :: n :: rest) =
      { walk_loop rest with code := .sub n.val :: (walk_loop rest).code } := by
  simp [walk_loop, h.1, h.2, hn]

theorem walk_loop_op_bad (t n : Token) (rest : List Token)
    (h : t.kind = .TK_RESERVED ∧ (str0 t.str = '+' ∨ str0 t.str = '-'))
    (hn : n.kind ≠ .TK_NUM) :
    walk_loop (t :: n :: rest) = ⟨[], n :: rest, .number_expected n.str⟩ := by
  rcases h with ⟨h1, h2 | h2⟩ <;> simp [walk_loop, h1, h2, hn]

theorem walk_loop_other (t : Token) (rest : List Token) (h0 : t.kind ≠ .TK_EOF)
    (h : ¬(t.kind = .TK_RESERVED ∧ (str0 t.str = '+' ∨ str0 t.str = '-'))) :
    walk_loop (t :: rest) = ⟨[], t :: rest, .minus_expected t.str⟩ := by
  have h1 : ¬(t.kind = .TK_RESERVED ∧ str0 t.str = '+') := by tauto
  have h2 : ¬(t.kind = .TK_RESERVED ∧ str0 t.str = '-') := by tauto
  cases rest <;> simp only [walk_loop, if_neg h0, if_neg h1, if_neg h2]

theorem finish_code_cons (w : Walk) (i : Instr) (toks toks1 : List Token)
    (inp out err : List Char) :
    Walk.finish { w with code := i :: w.code } ⟨toks, inp, out, err⟩ =
      Walk.finish w ⟨toks1, inp, out ++ (i.line ++ "\n".toList), err⟩ := by
  cases w with
  | mk code cursor stop =>
    cases stop <;>
      simp [Walk.finish, unlines, error_at, error, List.append_assoc]

theorem finish_nil_code (cursor : List Token) (stop : Stop) (toks : List Token)
    (inp out err : List Char) :
    Walk.finish ⟨[], cursor, stop⟩ ⟨toks, inp, out, err⟩ =
      match stop with
      | .done => .ret () ⟨cursor, inp, out, err⟩
      | .number_expected loc =>
        error_at loc "expected a number".toList [] ⟨cursor, inp, out, err⟩
      | .minus_expected loc =>
        error loc [.str "expected '%c'".toList, .chr '-'] ⟨cursor, inp, out, err⟩
      | .null => .undefined := by
  cases stop <;> simp [Walk.finish, unlines]

/-- The loop of `main`, with fuel for every token, does what the walk says. -/
theorem main_loop_walk (toks : List Token) : ∀ (fuel : Nat) (inp out err : List Char),
    toks.length ≤ fuel →
    main_loop fuel ⟨toks, inp, out, err⟩ = (walk_loop toks).finish ⟨toks, inp, out, err⟩ := by
  induction toks using length_induction with
  | _ toks ih =>
    intro fuel inp out err hfuel
    rw [main_loop_eq]
    cases toks with
    | nil => rfl
    | cons t rest =>
      rw [at_eof_cons, bind_ret]
      by_cases heof : t.kind = .TK_EOF
      · rw [walk_loop_eof t rest heof, finish_nil_code]
        simp [heof]
      · rw [if_neg (by simpa using heof)]
        cases fuel with
        | zero => simp at hfuel
        | succ f =>
          have hf : rest.length ≤ f := by simpa using hfuel
          simp only []
          by_cases hplus : t.kind = .TK_RESERVED ∧ str0 t.str = '+'
          · rw [consume_true _ _ _ _ _ _ hplus, bind_ret, if_pos rfl]
            cases rest with
            | nil =>
              rw [walk_loop_op_nil t ⟨hplus.1, Or.inl hplus.2⟩]
              rfl
            | cons n rest1 =>
              by_cases hn : n.kind = .TK_NUM
              · rw [expect_number_ok _ _ _ _ _ hn, bind_ret, printf,
                  walk_loop_plus t n rest1 hplus hn, finish_code_cons _ _ _ rest1]
                simp only [Instr.line, List.append_assoc]
                exact ih rest1 (by simp; omega) f inp _ err (by simp at hf; omega)
              · rw [expect_number_fail _ _ _ _ _ hn, error_at_bind,
                  walk_loop_op_bad t n rest1 ⟨hplus.1, Or.inl hplus.2⟩ hn, finish_nil_code]
          · rw [consume_false _ _ _ _ _ _ hplus, bind_ret, if_neg (by simp)]
            by_cases hminus : t.kind = .TK_RESERVED ∧ str0 t.str = '-'
            · rw [expect_ok _ _ _ _ _ _ hminus, bind_ret]
              cases rest with
              | nil =>
                rw [walk_loop_op_nil t ⟨hminus.1, Or.inr hminus.2⟩]
                rfl
              | cons n rest1 =>
                by_cases hn : n.kind = .TK_NUM
                · rw [expect_number_ok _ _ _ _ _ hn, bind_ret, printf,
                    walk_loop_minus t n rest1 hminus hn, finish_code_cons _ _ _ rest1]
                  simp only [Instr.line, List.append_assoc]
                  exact ih rest1 (by simp; omega) f inp _ err (by simp at hf; omega)
                · rw [expect_number_fail _ _ _ _ _ hn, error_at_bind,
                    walk_loop_op_bad t n rest1 ⟨hminus.1, Or.inr hminus.2⟩ hn,
                    finish_nil_code]
            · rw [expect_fail _ _ _ _ _ _ hminus, error_bind,
                walk_loop_other t rest heof (by tauto), finish_nil_code]

theorem walk_nil : walk [] = ⟨[], [], .null⟩ := rfl

theorem walk_num (t : Token) (rest : List Token) (h : t.kind = .TK_NUM) :
    walk (t :: rest) = { walk_loop rest with code := .mov t.val :: (walk_loop rest).code } := by
  simp [walk, h]

theorem walk_not_num (t : Token) (rest : List Token) (h : t.kind ≠ .TK_NUM) :
    walk (t :: rest) = ⟨[], t :: rest, .number_expected t.str⟩ := by
  simp [walk, h]

/-- The run of `main` on one argument: the lexer's verdict, then the walk over
the tokens from the state in which the prologue has been written, then the
final `ret` line. -/
theorem main_eq (a0 input : List Char) :
    main [a0, input] =
      match tokens_of input with
      | none => .exit 1 ⟨[], input, [], "invalid token\n".toList⟩
      | some ts =>
        ((walk ts).finish ⟨ts, input, unlines prologue, []⟩).bind fun _ s =>
          .ret 0 (printf "  ret\n".toList s) := by
  simp only [main, tokenize_eq]
  cases hts : tokens_of input with
  | none => rfl
  | some ts =>
    simp only [bind_ret, printf]
    have hpro : (([] ++ ".intel_syntax noprefix\n".toList) ++ ".globl main\n".toList)
        ++ "main:\n".toList = unlines prologue := by rfl
    rw [hpro]
    cases ts with
    | nil => rfl
    | cons t rest =>
      by_cases hn : t.kind = .TK_NUM
      · rw [expect_number_ok _ _ _ _ _ hn, bind_ret, walk_num t rest hn,
          finish_code_cons _ _ _ rest]
        simp only [Instr.line, List.append_assoc]
        rw [main_loop_walk rest rest.length _ _ _ (le_refl _)]
      · rw [expect_number_fail _ _ _ _ _ hn, error_at_bind, walk_not_num t rest hn,
          finish_nil_code, error_at_bind]

/-! ## Invariants of the token sequence -/

theorem strtol_snd (c : Char) (rest : List Char) (h : isdigit c = true) :
    (strtol (c :: rest)).2 = rest.dropWhile isdigit := by
  simp [strtol, List.dropWhile_cons, h]

/-- Induction along the run of the lexer: a property of inputs and their tokens
holds when it holds at the end of the input and is carried across a skipped
space, an operator and a number. -/
theorem tokens_of_induction {P : List Char → List Token → Prop}
    (hnil : P [] [new_token .TK_EOF []])
    (hspace : ∀ c rest ts, isspace c = true → tokens_of rest = some ts → P rest ts →
      P (c :: rest) ts)
    (hop : ∀ c rest ts, isspace c = false → (c = '+' ∨ c = '-') →
      tokens_of rest = some ts → P rest ts →
      P (c :: rest) (new_token .TK_RESERVED (c :: rest) :: ts))
    (hnum : ∀ c rest ts, isspace c = false → ¬(c = '+' ∨ c = '-') → isdigit c = true →
      tokens_of (rest.dropWhile isdigit) = some ts → P (rest.dropWhile isdigit) ts →
      P (c :: rest) (num_token (c :: rest) :: ts)) :
    ∀ p ts, tokens_of p = some ts → P p ts := by
  intro p
  induction p using length_induction with
  | _ p ih =>
    intro ts hts
    cases p with
    | nil =>
      rw [tokens_of_nil] at hts
      cases hts
      exact hnil
    | cons c rest =>
      rw [tokens_of_cons] at hts
      by_cases h1 : isspace c = true
      · rw [if_pos h1] at hts
        exact hspace c rest ts h1 hts (ih rest (by simp) ts hts)
      · rw [if_neg h1] at hts
        have h1f : isspace c = false := by simpa using h1
        by_cases h2 : c = '+' ∨ c = '-'
        · rw [if_pos h2] at hts
          cases hr : tokens_of rest with
          | none => rw [hr] at hts; cases hts
          | some ts1 =>
            rw [hr] at hts
            cases hts
            exact hop c rest ts1 h1f h2 hr (ih rest (by simp) ts1 hr)
        · rw [if_neg h2] at hts
          by_cases h3 : isdigit c = true
          · rw [if_pos h3, strtol_snd c rest h3] at hts
            cases hr : tokens_of (rest.dropWhile isdigit) with
            | none => rw [hr] at hts; cases hts
            | some ts1 =>
              rw [hr] at hts
              cases hts
              have hlen : (rest.dropWhile isdigit).length < (c :: rest).length := by
                have := (List.dropWhile_suffix (l := rest) isdigit).length_le
                simp only [List.length_cons]
                omega
              exact hnum c rest ts1 h1f h2 h3 hr (ih _ hlen ts1 hr)
          · rw [if_neg h3] at hts
            cases hts

/-- The shape of a lexed token sequence: tokens that are not end-of-file,
followed by the one end-of-file token. -/
theorem tokens_of_shape (p : List Char) (ts : List Token) (h : tokens_of p = some ts) :
    ∃ front, ts = front ++ [new_token .TK_EOF []] ∧ ∀ t ∈ front, t.kind ≠ .TK_EOF := by
  revert p ts
  apply tokens_of_induction
  · exact ⟨[], rfl, by simp⟩
  · intro c rest ts _ _ ih
    exact ih
  · intro c rest ts _ _ _ ih
    obtain ⟨front, hf, hk⟩ := ih
    refine ⟨new_token .TK_RESERVED (c :: rest) :: front, by simp [hf], ?_⟩
    intro t ht
    rcases List.mem_cons.1 ht with rfl | ht
    · simp [new_token]
    · exact hk t ht
  · intro c rest ts _ _ _ _ ih
    obtain ⟨front, hf, hk⟩ := ih
    refine ⟨num_token (c :: rest) :: front, by simp [hf], ?_⟩
    intro t ht
    rcases List.mem_cons.1 ht with rfl | ht
    · simp [num_token]
    · exact hk t ht

/-- Every token's text is a suffix of the input. -/
theorem tokens_of_suffix (p : List Char) (ts : List Token) (h : tokens_of p = some ts) :
    ∀ t ∈ ts, t.str <:+ p := by
  revert p ts
  apply tokens_of_induction
  · intro t ht
    simp at ht
    simp [ht, new_token]
  · intro c rest ts _ _ ih t ht
    exact (ih t ht).trans (List.suffix_cons c rest)
  · intro c rest ts _ _ _ ih t ht
    rcases List.mem_cons.1 ht with rfl | ht
    · exact List.suffix_refl _
    · exact (ih t ht).trans (List.suffix_cons c rest)
  · intro c rest ts _ _ _ _ ih t ht
    rcases List.mem_cons.1 ht with rfl | ht
    · exact List.suffix_refl _
    · exact ((ih t ht).trans (List.dropWhile_suffix isdigit)).trans (List.suffix_cons c rest)

/-- What the kind of a lexed token says about its text: an operator token
starts with `+` or `-`, a number token with a digit, and only the end-of-file
token has the empty text. -/
theorem tokens_of_kinds (p : List Char) (ts : List Token) (h : tokens_of p = some ts) :
    ∀ t ∈ ts,
      (t.kind = .TK_RESERVED → str0 t.str = '+' ∨ str0 t.str = '-') ∧
      (t.kind = .TK_NUM → isdigit (str0 t.str) = true) ∧
      (t.kind = .TK_EOF → t.str = []) := by
  revert p ts
  apply tokens_of_induction
  · intro t ht
    simp at ht
    simp [ht, new_token]
  · intro c rest ts _ _ ih t ht
    exact ih t ht
  · intro c rest ts _ hc _ ih t ht
    rcases List.mem_cons.1 ht with rfl | ht
    · simp [new_token, str0, hc]
    · exact ih t ht
  · intro c rest ts _ _ hd _ ih t ht
    rcases List.mem_cons.1 ht with rfl | ht
    · simp [num_token, str0, hd]
    · exact ih t ht

theorem all_lexchar_dropWhile (p : List Char) :
    (p.dropWhile isdigit).all lexchar = p.all lexchar := by
  induction p with
  | nil => rfl
  | cons c rest ih =>
    by_cases h : isdigit c = true
    · simp [List.dropWhile_cons, h, ih, lexchar]
    · simp [List.dropWhile_cons, h]

/-- Lexing succeeds exactly on the inputs made of spaces, `+`, `-` and digits. -/
theorem tokens_of_isSome (p : List Char) : (tokens_of p).isSome = p.all lexchar := by
  induction p using length_induction with
  | _ p ih =>
    cases p with
    | nil => rfl
    | cons c rest =>
      rw [tokens_of_cons]
      by_cases h1 : isspace c = true
      · rw [if_pos h1, ih rest (by simp)]
        simp [lexchar, h1]
      · rw [if_neg h1]
        by_cases h2 : c = '+' ∨ c = '-'
        · rw [if_pos h2, Option.isSome_map', ih rest (by simp)]
          rcases h2 with h2 | h2 <;> simp [lexchar, h2]
        · rw [if_neg h2]
          by_cases h3 : isdigit c = true
          · rw [if_pos h3, Option.isSome_map', strtol_snd c rest h3,
              ih _ (by
                have := (List.dropWhile_suffix (l := rest) isdigit).length_le
                simp only [List.length_cons]
                omega),
              all_lexchar_dropWhile]
            simp [lexchar, h3]
          · rw [if_neg h3]
            have h2a : c ≠ '+' := fun h => h2 (Or.inl h)
            have h2b : c ≠ '-' := fun h => h2 (Or.inr h)
            simp [lexchar, h1, h2a, h2b, h3]

theorem tokens_of_eq_none_iff (p : List Char) :
    tokens_of p = none ↔ ∃ c ∈ p, lexchar c = false := by
  have h := tokens_of_isSome p
  cases ht : tokens_of p with
  | none =>
    rw [ht] at h
    simp only [Option.isSome_none] at h
    have h2 : ¬ (p.all lexchar = true) := by rw [← h]; simp
    simpa using h2
  | some ts =>
    rw [ht] at h
    simp only [Option.isSome_some] at h
    have h2 : p.all lexchar = true := h.symm
    simp only [List.all_eq_true] at h2
    constructor
    · intro h3
      cases h3
    · rintro ⟨c, hc, hl⟩
      rw [h2 c hc] at hl
      cases hl

/-- A format without a percent sign is written as it stands. -/
theorem vformat_plain (fmt : List Char) (args : List Arg) (h : ∀ c ∈ fmt, c ≠ '%') :
    vformat fmt args = some fmt := by
  induction fmt with
  | nil => rfl
  | cons c rest ih =>
    have hc : c ≠ '%' := h c (by simp)
    have hr := ih fun d hd => h d (by simp [hd])
    rw [vformat.eq_def]
    simp only [if_neg hc, hr]
    rfl

theorem lexchar_ne_percent (c : Char) (h : lexchar c = true) : c ≠ '%' := by
  rintro rfl
  revert h
  decide

/-! ## The four ways a run ends -/

theorem unlines_append (a b : List (List Char)) : unlines (a ++ b) = unlines a ++ unlines b := by
  simp [unlines, List.flatMap_append]

theorem main_lex_error (a0 input : List Char) (h : tokens_of input = none) :
    main [a0, input] = .exit 1 ⟨[], input, [], "invalid token\n".toList⟩ := by
  rw [main_eq, h]

theorem main_done (a0 input : List Char) (ts : List Token) (h : tokens_of input = some ts)
    (hs : (walk ts).stop = .done) :
    main [a0, input] =
      .ret 0 ⟨(walk ts).cursor, input,
        unlines (prologue ++ (walk ts).code.map Instr.line ++ ["  ret".toList]), []⟩ := by
  rw [main_eq, h]
  simp only [Walk.finish, hs, bind_ret, printf, unlines_append]
  rfl

theorem main_number_expected (a0 input : List Char) (ts : List Token) (loc : List Char)
    (h : tokens_of input = some ts) (hs : (walk ts).stop = .number_expected loc) :
    main [a0, input] =
      .exit 1 ⟨(walk ts).cursor, input, unlines (prologue ++ (walk ts).code.map Instr.line),
        input ++ "\n".toList ++ fmt_pad (input.length - loc.length) " ".toList
          ++ "^ expected a number\n".toList⟩ := by
  rw [main_eq, h]
  have hv : vformat "expected a number".toList [] = some "expected a number".toList := by rfl
  simp only [Walk.finish, hs, error_at, hv, unlines_append, List.nil_append,
    List.append_assoc]
  rfl

theorem main_minus_expected (a0 input : List Char) (ts : List Token) (loc : List Char)
    (h : tokens_of input = some ts) (hs : (walk ts).stop = .minus_expected loc)
    (hloc : ∀ c ∈ loc, c ≠ '%') :
    main [a0, input] =
      .exit 1 ⟨(walk ts).cursor, input, unlines (prologue ++ (walk ts).code.map Instr.line),
        loc ++ "\n".toList⟩ := by
  rw [main_eq, h]
  simp only [Walk.finish, hs, error, vformat_plain loc _ hloc, unlines_append,
    List.nil_append]
  rfl

/-! ## Induction along the walk -/

theorem walk_loop_induction {P : List Token → Walk → Prop}
    (hnil : P [] ⟨[], [], .null⟩)
    (heof : ∀ t rest, t.kind = .TK_EOF → P (t :: rest) ⟨[], t :: rest, .done⟩)
    (hopnil : ∀ t, t.is_op → P [t] ⟨[], [], .null⟩)
    (hplus : ∀ t n rest, t.kind = .TK_RESERVED ∧ str0 t.str = '+' → n.kind = .TK_NUM →
      P rest (walk_loop rest) →
      P (t :: n :: rest) { walk_loop rest with code := .add n.val :: (walk_loop rest).code })
    (hminus : ∀ t n rest, t.kind = .TK_RESERVED ∧ str0 t.str = '-' → n.kind = .TK_NUM →
      P rest (walk_loop rest) →
      P (t :: n :: rest) { walk_loop rest with code := .sub n.val :: (walk_loop rest).code })
    (hbad : ∀ t n rest, t.is_op → n.kind ≠ .TK_NUM →
      P (t :: n :: rest) ⟨[], n :: rest, .number_expected n.str⟩)
    (hother : ∀ t rest, t.kind ≠ .TK_EOF → ¬ t.is_op →
      P (t :: rest) ⟨[], t :: rest, .minus_expected t.str⟩) :
    ∀ ts, P ts (walk_loop ts) := by
  intro ts
  induction ts using length_induction with
  | _ ts ih =>
    cases ts with
    | nil => exact hnil
    | cons t rest =>
      by_cases h0 : t.kind = .TK_EOF
      · rw [walk_loop_eof t rest h0]
        exact heof t rest h0
      · by_cases hop : t.is_op
        · cases rest with
          | nil =>
            rw [walk_loop_op_nil t hop]
            exact hopnil t hop
          | cons n rest1 =>
            by_cases hn : n.kind = .TK_NUM
            · rcases hop with ⟨hk, hc | hc⟩
              · rw [walk_loop_plus t n rest1 ⟨hk, hc⟩ hn]
                exact hplus t n rest1 ⟨hk, hc⟩ hn (ih rest1 (by simp; omega))
              · rw [walk_loop_minus t n rest1 ⟨hk, hc⟩ hn]
                exact hminus t n rest1 ⟨hk, hc⟩ hn (ih rest1 (by simp; omega))
            · rw [walk_loop_op_bad t n rest1 hop hn]
              exact hbad t n rest1 hop hn
        · rw [walk_loop_other t rest h0 hop]
          exact hother t rest h0 hop

/-- On a token list that holds an end-of-file token the loop never reaches a
null cursor. -/
theorem walk_loop_not_null (ts : List Token) :
    (∃ e ∈ ts, e.kind = .TK_EOF) → (walk_loop ts).stop ≠ .null := by
  apply walk_loop_induction (P := fun ts w => (∃ e ∈ ts, e.kind = .TK_EOF) → w.stop ≠ .null)
  · rintro ⟨e, he, _⟩
    simp at he
  · intros
    simp
  · rintro t ⟨hk, _⟩ ⟨e, he, hek⟩
    simp only [List.mem_singleton] at he
    subst he
    rw [hk] at hek
    cases hek
  · rintro t n rest ⟨hk, _⟩ hn ih ⟨e, he, hek⟩
    apply ih
    simp only [List.mem_cons] at he
    rcases he with rfl | rfl | he
    · rw [hk] at hek; cases hek
    · rw [hn] at hek; cases hek
    · exact ⟨e, he, hek⟩
  · rintro t n rest ⟨hk, _⟩ hn ih ⟨e, he, hek⟩
    apply ih
    simp only [List.mem_cons] at he
    rcases he with rfl | rfl | he
    · rw [hk] at hek; cases hek
    · rw [hn] at hek; cases hek
    · exact ⟨e, he, hek⟩
  · intros
    simp
  · intros
    simp

/-- The place a failed expectation reports is the text of one of the tokens. -/
theorem walk_loop_loc (ts : List Token) :
    ∀ loc, ((walk_loop ts).stop = .number_expected loc ∨
      (walk_loop ts).stop = .minus_expected loc) → ∃ t ∈ ts, t.str = loc := by
  apply walk_loop_induction (P := fun ts w => ∀ loc, (w.stop = .number_expected loc ∨
      w.stop = .minus_expected loc) → ∃ t ∈ ts, t.str = loc)
  · intro loc h
    simp at h
  · intro t rest _ loc h
    simp at h
  · intro t _ loc h
    simp at h
  · intro t n rest _ _ ih loc h
    obtain ⟨x, hx, hl⟩ := ih loc h
    exact ⟨x, by simp [hx], hl⟩
  · intro t n rest _ _ ih loc h
    obtain ⟨x, hx, hl⟩ := ih loc h
    exact ⟨x, by simp [hx], hl⟩
  · intro t n rest _ _ loc h
    simp only [Stop.number_expected.injEq, reduceCtorEq, or_false] at h
    exact ⟨n, by simp, h⟩
  · intro t rest _ _ loc h
    simp only [Stop.minus_expected.injEq, reduceCtorEq, false_or] at h
    exact ⟨t, by simp, h⟩

theorem walk_not_null (ts : List Token) (h : ∃ e ∈ ts, e.kind = .TK_EOF) :
    (walk ts).stop ≠ .null := by
  cases ts with
  | nil =>
    obtain ⟨e, he, _⟩ := h
    simp at he
  | cons t rest =>
    by_cases hn : t.kind = .TK_NUM
    · rw [walk_num t rest hn]
      apply walk_loop_not_null
      obtain ⟨e, he, hek⟩ := h
      rcases List.mem_cons.1 he with rfl | he
      · rw [hn] at hek; cases hek
      · exact ⟨e, he, hek⟩
    · rw [walk_not_num t rest hn]
      simp

theorem walk_loc (ts : List Token) (loc : List Char)
    (h : (walk ts).stop = .number_expected loc ∨ (walk ts).stop = .minus_expected loc) :
    ∃ t ∈ ts, t.str = loc := by
  cases ts with
  | nil => simp [walk_nil] at h
  | cons t rest =>
    by_cases hn : t.kind = .TK_NUM
    · rw [walk_num t rest hn] at h
      obtain ⟨x, hx, hl⟩ := walk_loop_loc rest loc h
      exact ⟨x, by simp [hx], hl⟩
    · rw [walk_not_num t rest hn] at h
      simp only [Stop.number_expected.injEq, reduceCtorEq, or_false] at h
      exact ⟨t, by simp, h⟩

/-- The lexed tokens hold an end-of-file token. -/
theorem tokens_of_has_eof (p : List Char) (ts : List Token) (h : tokens_of p = some ts) :
    ∃ e ∈ ts, e.kind = .TK_EOF := by
  obtain ⟨front, hf, _⟩ := tokens_of_shape p ts h
  exact ⟨new_token .TK_EOF [], by simp [hf], rfl⟩

/-- The text of a lexed token holds no percent sign. -/
theorem tokens_of_no_percent (p : List Char) (ts : List Token) (h : tokens_of p = some ts) :
    ∀ t ∈ ts, ∀ c ∈ t.str, c ≠ '%' := by
  intro t ht c hc
  have hsuf := tokens_of_suffix p ts h t ht
  have hall : p.all lexchar = true := by
    rw [← tokens_of_isSome, h]
    rfl
  rw [List.all_eq_true] at hall
  exact lexchar_ne_percent c (hall c (hsuf.subset hc))

/-! ## The output of a successful run -/

theorem walk_loop_pairs (pairs : List (Token × Token)) (e : Token)
    (hpairs : ∀ p ∈ pairs, p.1.is_op ∧ p.2.kind = .TK_NUM) (he : e.kind = .TK_EOF) :
    walk_loop (pairs.flatMap (fun p => [p.1, p.2]) ++ [e]) =
      ⟨pairs.map term_instr, [e], .done⟩ := by
  induction pairs with
  | nil => exact walk_loop_eof e [] he
  | cons p rest ih =>
    have hp := hpairs p (by simp)
    have hr := ih fun q hq => hpairs q (by simp [hq])
    simp only [List.flatMap_cons, List.cons_append, List.nil_append, List.map_cons]
    rcases hp with ⟨⟨hk, hc | hc⟩, hn⟩
    · rw [walk_loop_plus _ _ _ ⟨hk, hc⟩ hn, hr]
      simp [term_instr, hc]
    · rw [walk_loop_minus _ _ _ ⟨hk, hc⟩ hn, hr]
      have hne : str0 p.1.str ≠ '+' := by rw [hc]; decide
      simp [term_instr, hne]

/-- C2: when the tokens of the input are a Number `n0`, then `k` pairs of an
operator token and a Number token, then end-of-file, standard output is exactly
the `k + 5` lines: the three prologue lines, `  mov rax, n0`, one `  add rax, n`
or `  sub rax, n` per pair in order (`add` when the operator is `+`, `sub` when
it is `-`), and `  ret`, every number in decimal; the exit status is 0. -/
theorem C2_success_output (input : String) (n0 e : Token) (pairs : List (Token × Token))
    (hlex : tokens_of input.toList =
      some (n0 :: pairs.flatMap (fun p => [p.1, p.2]) ++ [e]))
    (hn0 : n0.kind = .TK_NUM)
    (hpairs : ∀ p ∈ pairs, p.1.kind = .TK_RESERVED ∧ p.2.kind = .TK_NUM)
    (he : e.kind = .TK_EOF) :
    (compile input).out =
        unlines ([".intel_syntax noprefix".toList, ".globl main".toList, "main:".toList,
            "  mov rax, ".toList ++ fmt_d n0.val]
          ++ pairs.map (fun p =>
              if str0 p.1.str = '+' then "  add rax, ".toList ++ fmt_d p.2.val
              else "  sub rax, ".toList ++ fmt_d p.2.val)
          ++ ["  ret".toList]) ∧
      ([".intel_syntax noprefix".toList, ".globl main".toList, "main:".toList,
            "  mov rax, ".toList ++ fmt_d n0.val]
          ++ pairs.map (fun p =>
              if str0 p.1.str = '+' then "  add rax, ".toList ++ fmt_d p.2.val
              else "  sub rax, ".toList ++ fmt_d p.2.val)
          ++ ["  ret".toList]).length = pairs.length + 5 ∧
      (compile input).status = some 0 := by
  have hops : ∀ p ∈ pairs, p.1.is_op ∧ p.2.kind = .TK_NUM := by
    intro p hp
    refine ⟨⟨(hpairs p hp).1, ?_⟩, (hpairs p hp).2⟩
    have hmem : p.1 ∈ n0 :: pairs.flatMap (fun p => [p.1, p.2]) ++ [e] := by
      simp only [List.cons_append, List.mem_cons, List.mem_append, List.mem_flatMap]
      exact Or.inr (Or.inl ⟨p, hp, by simp⟩)
    exact (tokens_of_kinds _ _ hlex p.1 hmem).1 (hpairs p hp).1
  have hw : walk (n0 :: pairs.flatMap (fun p => [p.1, p.2]) ++ [e]) =
      ⟨.mov n0.val :: pairs.map term_instr, [e], .done⟩ := by
    rw [List.cons_append, walk_num _ _ hn0, walk_loop_pairs pairs e hops he]
  have hm := main_done "9cc".toList input.toList _ hlex (by rw [hw])
  rw [hw] at hm
  refine ⟨?_, by simp, ?_⟩
  · simp only [compile, hm, Outcome.out, Outcome.final]
    congr 1
    simp only [prologue, List.map_cons, List.map_map, Instr.line, List.cons_append,
      List.nil_append, List.append_assoc]
    congr 5
    apply List.map_congr_left
    intro p _
    simp only [Function.comp, term_instr]
    split <;> rfl
  · simp only [compile, hm, Outcome.status]

/-- The claim C2 at the input `5+20-4`: its tokens are the number 5, the pairs
`(+, 20)` and `(-, 4)`, and end-of-file; the run writes the six lines and
returns 0. -/
theorem C2_success_output_witness :
    tokens_of "5+20-4".toList =
        some [⟨.TK_NUM, 5, "5+20-4".toList⟩, ⟨.TK_RESERVED, 0, "+20-4".toList⟩,
          ⟨.TK_NUM, 20, "20-4".toList⟩, ⟨.TK_RESERVED, 0, "-4".toList⟩,
          ⟨.TK_NUM, 4, "4".toList⟩, ⟨.TK_EOF, 0, []⟩] ∧
      (compile "5+20-4").out =
        (".intel_syntax noprefix\n.globl main\nmain:\n" ++
          "  mov rax, 5\n  add rax, 20\n  sub rax, 4\n  ret\n").toList ∧
      (compile "5+20-4").status = some 0 :=
  have h := C2_success_output "5+20-4" ⟨.TK_NUM, 5, "5+20-4".toList⟩ ⟨.TK_EOF, 0, []⟩
    [(⟨.TK_RESERVED, 0, "+20-4".toList⟩, ⟨.TK_NUM, 20, "20-4".toList⟩),
      (⟨.TK_RESERVED, 0, "-4".toList⟩, ⟨.TK_NUM, 4, "4".toList⟩)]
    (by rfl) (by rfl)
    (by
      intro p hp
      simp only [List.mem_cons, List.mem_singleton, List.not_mem_nil, or_false] at hp
      rcases hp with rfl | rfl <;> exact ⟨rfl, rfl⟩)
    (by rfl)
  ⟨by rfl, h.1, h.2.2⟩

/-! ## Lexical errors -/

/-- C5: an input that holds a character other than a decimal digit, `+`, `-` and
white space, wherever it stands, ends with status 1 through `error`: the error
stream holds the message `invalid token` and its newline, nothing else (no echo
of the input, no caret), and nothing is written to standard output. -/
theorem C5_invalid_token (input : String)
    (h : ∃ c ∈ input.toList, isdigit c = false ∧ c ≠ '+' ∧ c ≠ '-' ∧ isspace c = false) :
    (compile input).status = some 1 ∧
      (compile input).err = "invalid token".toList ++ "\n".toList ∧
      (compile input).out = [] := by
  have hnone : tokens_of input.toList = none := by
    rw [tokens_of_eq_none_iff]
    obtain ⟨c, hc, hd, hp, hm, hs⟩ := h
    exact ⟨c, hc, by simp [lexchar, hd, hp, hm, hs]⟩
  have hm := main_lex_error "9cc".toList input.toList hnone
  simp only [compile, hm]
  exact ⟨rfl, rfl, rfl⟩

/-- The claim C5 at the input `a`. -/
theorem C5_invalid_token_witness :
    (∃ c ∈ "a".toList, isdigit c = false ∧ c ≠ '+' ∧ c ≠ '-' ∧ isspace c = false) ∧
      (compile "a").status = some 1 ∧
      (compile "a").err = "invalid token\n".toList ∧
      (compile "a").out = [] :=
  ⟨⟨'a', by decide⟩, C5_invalid_token "a" ⟨'a', by decide⟩⟩

/-! ## The end-of-file token -/

/-- C10: when lexing succeeds the token sequence is some tokens that are not
end-of-file followed by the end-of-file token: it is not empty, holds exactly
one end-of-file token, and that token is its last element; and on an input of
white space only (the empty input too) lexing succeeds with the end-of-file
token alone. -/
theorem C10_one_eof_last (input : String) :
    (∀ ts, tokens_of input.toList = some ts →
      ts ≠ [] ∧
      ts.countP (fun t => t.kind = .TK_EOF) = 1 ∧
      ts.getLast? = some (new_token .TK_EOF []) ∧
      ∀ t ∈ ts.dropLast, t.kind ≠ .TK_EOF) ∧
    ((∀ c ∈ input.toList, isspace c = true) →
      tokens_of input.toList = some [new_token .TK_EOF []]) := by
  constructor
  · intro ts hts
    obtain ⟨front, hf, hk⟩ := tokens_of_shape _ _ hts
    subst hf
    refine ⟨by simp, ?_, by simp, by simpa using hk⟩
    rw [List.countP_append, List.countP_eq_zero.2 (by simpa using hk)]
    rfl
  · generalize input.toList = p
    intro h
    induction p with
    | nil => rfl
    | cons c rest ih =>
      rw [tokens_of_cons, if_pos (h c (by simp))]
      exact ih fun d hd => h d (by simp [hd])

/-- The claim C10 at the inputs `1+2` (four tokens, the last one end-of-file)
and ` ` (white space only). -/
theorem C10_one_eof_last_witness :
    tokens_of "1+2".toList =
        some [⟨.TK_NUM, 1, "1+2".toList⟩, ⟨.TK_RESERVED, 0, "+2".toList⟩,
          ⟨.TK_NUM, 2, "2".toList⟩, ⟨.TK_EOF, 0, []⟩] ∧
      ([⟨.TK_NUM, 1, "1+2".toList⟩, ⟨.TK_RESERVED, 0, "+2".toList⟩,
          ⟨.TK_NUM, 2, "2".toList⟩, ⟨.TK_EOF, 0, []⟩] : List Token).countP
        (fun t => t.kind = .TK_EOF) = 1 ∧
      tokens_of " ".toList = some [new_token .TK_EOF []] :=
  ⟨by rfl, ((C10_one_eof_last "1+2").1 _ (by rfl)).2.1,
    (C10_one_eof_last " ").2 (by decide)⟩

/-! ## The two diagnostics -/

/-- What `%*s` writes for the one-space string: as many spaces as the width,
and one space when the width is 0. -/
theorem fmt_pad_space (k : Nat) : fmt_pad k " ".toList = List.replicate (max k 1) ' ' := by
  have h : fmt_pad k " ".toList = List.replicate (k - 1) ' ' ++ List.replicate 1 ' ' := rfl
  rw [h, ← List.replicate_add]
  congr 1
  omega

/-- C8: in every state and for every position `loc`, the diagnostic of
`expect_number` appends to the error stream the input, a newline, as many
spaces as the offset of `loc` but ONE space when the offset is 0, the caret and
the message: the conversion `%*s` with width 0 still prints its one-character
argument.  So on the empty input, where the offending token is at offset 0, a
space precedes the caret; at offsets 2 and 3 the spaces equal the offset. -/
theorem C8_caret_at_offset_zero :
    (∀ (s : State) (loc : List Char),
      (error_at loc "expected a number".toList [] s : Outcome Int) =
        .exit 1 { s with stderr := s.stderr ++ (s.user_input ++ "\n".toList)
          ++ List.replicate (max (s.user_input.length - loc.length) 1) ' '
          ++ "^ ".toList ++ "expected a number".toList ++ "\n".toList }) ∧
      (compile "").err = "\n ^ expected a number\n".toList ∧
      (compile "+").err = "+\n ^ expected a number\n".toList ∧
      (compile "1+").err = "1+\n  ^ expected a number\n".toList ∧
      (compile "1 ++").err = "1 ++\n   ^ expected a number\n".toList := by
  refine ⟨fun s loc => ?_, by rfl, by rfl, by rfl, by rfl⟩
  have hv : vformat "expected a number".toList [] = some "expected a number".toList := by rfl
  simp only [error_at, hv, fmt_pad_space]

/-- C9: on the input `1 2` the call `expect('-')` fails at the token `2`, and
what reaches the error stream is the text of the input from that token on, not
`expected '-'`: the token text is passed to `error` as the format. -/
theorem C9_expect_message :
    (compile "1 2").err = "2\n".toList ∧
      (compile "1 2").status = some 1 ∧
      (compile "1 2+3").err = "2+3\n".toList ∧
      expect '-' ⟨[⟨.TK_RESERVED, 0, "-3".toList⟩, ⟨.TK_NUM, 3, "3".toList⟩], [], [], []⟩ =
        .ret () ⟨[⟨.TK_NUM, 3, "3".toList⟩], [], [], []⟩ :=
  ⟨by rfl, by rfl, by rfl, by rfl⟩

/-! ## Every run ends in one of four ways -/

theorem main_cases (a0 input : List Char) :
    (tokens_of input = none ∧
      main [a0, input] = .exit 1 ⟨[], input, [], "invalid token\n".toList⟩) ∨
    (∃ ts, tokens_of input = some ts ∧ (walk ts).stop = .done ∧
      main [a0, input] =
        .ret 0 ⟨(walk ts).cursor, input,
          unlines (prologue ++ (walk ts).code.map Instr.line ++ ["  ret".toList]), []⟩) ∨
    (∃ ts loc, tokens_of input = some ts ∧ (walk ts).stop = .number_expected loc ∧
      main [a0, input] =
        .exit 1 ⟨(walk ts).cursor, input,
          unlines (prologue ++ (walk ts).code.map Instr.line),
          input ++ "\n".toList ++ fmt_pad (input.length - loc.length) " ".toList
            ++ "^ expected a number\n".toList⟩) ∨
    (∃ ts loc, tokens_of input = some ts ∧ (walk ts).stop = .minus_expected loc ∧
      main [a0, input] =
        .exit 1 ⟨(walk ts).cursor, input,
          unlines (prologue ++ (walk ts).code.map Instr.line), loc ++ "\n".toList⟩) := by
  cases hts : tokens_of input with
  | none => exact Or.inl ⟨rfl, main_lex_error a0 input hts⟩
  | some ts =>
    cases hs : (walk ts).stop with
    | done => exact Or.inr (Or.inl ⟨ts, rfl, hs, main_done a0 input ts hts hs⟩)
    | number_expected loc =>
      exact Or.inr (Or.inr (Or.inl
        ⟨ts, loc, rfl, hs, main_number_expected a0 input ts loc hts hs⟩))
    | minus_expected loc =>
      obtain ⟨t, ht, hl⟩ := walk_loc ts loc (Or.inr hs)
      have hp := tokens_of_no_percent input ts hts t ht
      rw [hl] at hp
      exact Or.inr (Or.inr (Or.inr
        ⟨ts, loc, rfl, hs, main_minus_expected a0 input ts loc hts hs hp⟩))
    | null => exact absurd hs (walk_not_null ts (tokens_of_has_eof input ts hts))

/-! ## Lines of the output -/

theorem split_lines_append_nl (l rest : List Char) (h : ∀ c ∈ l, c ≠ '\n') :
    split_lines (l ++ '\n' :: rest) = l :: split_lines rest := by
  induction l with
  | nil => simp [split_lines]
  | cons c l ih =>
    have hc : c ≠ '\n' := h c (by simp)
    have hl := ih fun d hd => h d (by simp [hd])
    rw [List.cons_append, split_lines, if_neg hc, hl]

theorem split_lines_unlines (ls : List (List Char)) (h : ∀ l ∈ ls, ∀ c ∈ l, c ≠ '\n') :
    split_lines (unlines ls) = ls ++ [[]] := by
  induction ls with
  | nil => rfl
  | cons l ls ih =>
    have hl := ih fun m hm => h m (by simp [hm])
    have h0 : unlines (l :: ls) = l ++ '\n' :: unlines ls := by
      simp [unlines]
    rw [h0, split_lines_append_nl l _ (h l (by simp)), hl]
    rfl

theorem digitChar_isdigit (k : Nat) (h : k < 10) : isdigit (Nat.digitChar k) = true := by
  interval_cases k <;> rfl

theorem toDigitsCore_isdigit (fuel : Nat) : ∀ (n : Nat) (acc : List Char),
    (∀ c ∈ acc, isdigit c = true) →
    ∀ c ∈ Nat.toDigitsCore 10 fuel n acc, isdigit c = true := by
  induction fuel with
  | zero =>
    intro n acc hacc
    simpa [Nat.toDigitsCore] using hacc
  | succ f ih =>
    intro n acc hacc
    have hd : isdigit (Nat.digitChar (n % 10)) = true :=
      digitChar_isdigit _ (Nat.mod_lt _ (by decide))
    have hacc1 : ∀ c ∈ Nat.digitChar (n % 10) :: acc, isdigit c = true := by
      intro c hc
      rcases List.mem_cons.1 hc with rfl | hc
      · exact hd
      · exact hacc c hc
    simp only [Nat.toDigitsCore]
    split
    · exact hacc1
    · exact ih _ _ hacc1

theorem nat_repr_isdigit (n : Nat) : ∀ c ∈ (Nat.repr n).toList, isdigit c = true := by
  have h := toDigitsCore_isdigit (n + 1) n [] (by simp)
  simpa [Nat.repr, Nat.toDigits, List.asString] using h

/-- The characters `%d` writes are digits and the minus sign. -/
theorem fmt_d_chars (v : Int) : ∀ c ∈ fmt_d v, c = '-' ∨ isdigit c = true := by
  intro c hc
  cases v with
  | ofNat n => exact Or.inr (nat_repr_isdigit n c hc)
  | negSucc n =>
    simp only [fmt_d, Int.repr, String.toList, String.data_append, List.mem_append] at hc
    rcases hc with hc | hc
    · left
      simpa using hc
    · exact Or.inr (nat_repr_isdigit _ c hc)

theorem fmt_d_no_newline (v : Int) : ∀ c ∈ fmt_d v, c ≠ '\n' := by
  intro c hc
  rcases fmt_d_chars v c hc with rfl | h
  · decide
  · rintro rfl
    revert h
    decide

theorem instr_line_no_newline (i : Instr) : ∀ c ∈ i.line, c ≠ '\n' := by
  intro c hc
  cases i <;>
  · simp only [Instr.line, List.mem_append] at hc
    rcases hc with hc | hc
    · revert c
      decide
    · exact fmt_d_no_newline _ c hc

theorem instr_line_ne_ret (i : Instr) : i.line ≠ "  ret".toList := by
  cases i <;> simp [Instr.line]

theorem no_ret_in_partial_output (code : List Instr) :
    "  ret".toList ∉ split_lines (unlines (prologue ++ code.map Instr.line)) := by
  rw [split_lines_unlines]
  · intro h
    simp only [List.mem_append, List.mem_map, List.mem_singleton] at h
    rcases h with (h | ⟨i, _, hi⟩) | h
    · revert h
      decide
    · exact instr_line_ne_ret i hi
    · revert h
      decide
  · intro l hl
    simp only [List.mem_append, List.mem_map] at hl
    rcases hl with hl | ⟨i, _, rfl⟩
    · revert l
      decide
    · exact instr_line_no_newline i

/-- C7: when the run ends with a non-zero exit status, no line of standard
output is the `  ret` line. -/
theorem C7_no_ret_on_failure (input : String) (c : Int)
    (h : (compile input).status = some c) (hc : c ≠ 0) :
    "  ret".toList ∉ split_lines (compile input).out := by
  unfold compile at h ⊢
  rcases main_cases "9cc".toList input.toList with
    ⟨_, hm⟩ | ⟨ts, _, _, hm⟩ | ⟨ts, loc, _, _, hm⟩ | ⟨ts, loc, _, _, hm⟩
  · rw [hm]
    show "  ret".toList ∉ split_lines []
    decide
  · rw [hm] at h
    simp only [Outcome.status, Option.some.injEq] at h
    exact absurd h.symm hc
  · rw [hm]
    exact no_ret_in_partial_output _
  · rw [hm]
    exact no_ret_in_partial_output _

/-- The claim C7 at the inputs ``, `a` and `1+2+`: each run ends with status 1
and writes no `  ret` line. -/
theorem C7_no_ret_on_failure_witness :
    ((compile "").status = some 1 ∧ "  ret".toList ∉ split_lines (compile "").out) ∧
      ((compile "a").status = some 1 ∧ "  ret".toList ∉ split_lines (compile "a").out) ∧
      ((compile "1+2+").status = some 1 ∧
        "  ret".toList ∉ split_lines (compile "1+2+").out) :=
  ⟨⟨by rfl, C7_no_ret_on_failure "" 1 (by rfl) (by decide)⟩,
    ⟨by rfl, C7_no_ret_on_failure "a" 1 (by rfl) (by decide)⟩,
    ⟨by rfl, C7_no_ret_on_failure "1+2+" 1 (by rfl) (by decide)⟩⟩

/-! ## Success and the grammar of the token sequence -/

theorem eof_last_shape (front : List Token) (e : Token) (he : e.kind = .TK_EOF)
    (h : ∀ t ∈ front, t.kind ≠ .TK_EOF) : eof_last (front ++ [e]) = true := by
  induction front with
  | nil => simp [eof_last, he]
  | cons t rest ih =>
    have ht := h t (by simp)
    have hr := ih fun x hx => h x (by simp [hx])
    cases rest with
    | nil => simp [eof_last, ht, he]
    | cons n rest1 =>
      simp only [List.cons_append] at hr ⊢
      simp [eof_last, ht, hr]

theorem tokens_of_eof_last (p : List Char) (ts : List Token) (h : tokens_of p = some ts) :
    eof_last ts = true := by
  obtain ⟨front, hf, hk⟩ := tokens_of_shape p ts h
  rw [hf]
  exact eof_last_shape front _ rfl hk

theorem eof_last_tail2 (t n : Token) (rest : List Token) (hn : n.kind = .TK_NUM)
    (h : eof_last (t :: n :: rest) = true) : eof_last rest = true := by
  cases rest with
  | nil => simp [eof_last, hn] at h
  | cons x rest1 =>
    simp only [eof_last, Bool.and_eq_true] at h
    exact h.2.2

theorem eof_last_tail1 (n : Token) (rest : List Token) (hn : n.kind = .TK_NUM)
    (h : eof_last (n :: rest) = true) : eof_last rest = true := by
  cases rest with
  | nil => simp [eof_last, hn] at h
  | cons x rest1 =>
    simp only [eof_last, Bool.and_eq_true] at h
    exact h.2

theorem walk_loop_done_iff (ts : List Token) :
    (∀ t ∈ ts, t.kind = .TK_RESERVED → t.is_op) → eof_last ts = true →
    ((walk_loop ts).stop = .done ↔ alternates ts = true) := by
  apply walk_loop_induction (P := fun ts w =>
    (∀ t ∈ ts, t.kind = .TK_RESERVED → t.is_op) → eof_last ts = true →
    (w.stop = .done ↔ alternates ts = true))
  · intro _ h
    simp [eof_last] at h
  · intro t rest ht _ h
    cases rest with
    | nil => simp [alternates, ht]
    | cons x r => simp [eof_last, ht] at h
  · intro t hop _ h
    simp [eof_last, hop.1] at h
  · intro t n rest hop hn ih hk h
    have hr := ih (fun x hx => hk x (by simp [hx])) (eof_last_tail2 t n rest hn h)
    simp only [alternates, hop.1, hn, decide_True, Bool.true_and]
    exact hr
  · intro t n rest hop hn ih hk h
    have hr := ih (fun x hx => hk x (by simp [hx])) (eof_last_tail2 t n rest hn h)
    simp only [alternates, hop.1, hn, decide_True, Bool.true_and]
    exact hr
  · intro t n rest _ hn _ _
    simp [alternates, hn]
  · intro t rest h0 hop hk _
    have hres : t.kind ≠ .TK_RESERVED := fun hr => hop (hk t (by simp) hr)
    cases rest with
    | nil => simp [alternates, h0]
    | cons x r => simp [alternates, hres]

theorem walk_done_iff (ts : List Token)
    (hk : ∀ t ∈ ts, t.kind = .TK_RESERVED → t.is_op) (h : eof_last ts = true) :
    (walk ts).stop = .done ↔ well_formed ts = true := by
  cases ts with
  | nil => simp [eof_last] at h
  | cons t rest =>
    by_cases hn : t.kind = .TK_NUM
    · rw [walk_num t rest hn]
      simp only [well_formed, hn, decide_True, Bool.true_and]
      exact walk_loop_done_iff rest (fun x hx => hk x (by simp [hx]))
        (eof_last_tail1 t rest hn h)
    · rw [walk_not_num t rest hn]
      simp [well_formed, hn]

theorem tokens_of_walk_done_iff (p : List Char) (ts : List Token)
    (h : tokens_of p = some ts) : (walk ts).stop = .done ↔ well_formed ts = true :=
  walk_done_iff ts
    (fun t ht hr => ⟨hr, (tokens_of_kinds p ts h t ht).1 hr⟩)
    (tokens_of_eof_last p ts h)

/-- Every run is of one of two kinds: the input lexes to a well-formed token
sequence and the run succeeds, or it does not and the run ends with status 1
and a diagnostic. -/
theorem main_success_or_failure (a0 input : List Char) :
    ((∃ ts, tokens_of input = some ts ∧ well_formed ts = true) ∧
        (main [a0, input]).status = some 0 ∧ (main [a0, input]).err = [] ∧
        ∃ pre, (main [a0, input]).out = pre ++ "  ret\n".toList) ∨
      ((¬ ∃ ts, tokens_of input = some ts ∧ well_formed ts = true) ∧
        (main [a0, input]).status = some 1 ∧ (main [a0, input]).err ≠ []) := by
  rcases main_cases a0 input with
    ⟨hts, hm⟩ | ⟨ts, hts, hs, hm⟩ | ⟨ts, loc, hts, hs, hm⟩ | ⟨ts, loc, hts, hs, hm⟩
  · rw [hm]
    refine Or.inr ⟨?_, rfl, by simp [Outcome.err, Outcome.final]⟩
    rintro ⟨ts, h1, _⟩
    rw [hts] at h1
    cases h1
  · rw [hm]
    refine Or.inl ⟨⟨ts, hts, (tokens_of_walk_done_iff _ ts hts).1 hs⟩, rfl, rfl,
      unlines (prologue ++ (walk ts).code.map Instr.line), ?_⟩
    simp only [Outcome.out, Outcome.final]
    rw [unlines_append]
    rfl
  · rw [hm]
    refine Or.inr ⟨?_, rfl, by simp [Outcome.err, Outcome.final]⟩
    rintro ⟨ts1, h1, hw⟩
    rw [hts] at h1
    cases h1
    rw [(tokens_of_walk_done_iff _ ts hts).2 hw] at hs
    cases hs
  · rw [hm]
    refine Or.inr ⟨?_, rfl, by simp [Outcome.err, Outcome.final]⟩
    rintro ⟨ts1, h1, hw⟩
    rw [hts] at h1
    cases h1
    rw [(tokens_of_walk_done_iff _ ts hts).2 hw] at hs
    cases hs

/-- C4: the run succeeds (status 0, empty error stream, standard output ending
in the `  ret` line) exactly when lexing succeeds and the token sequence is a
Number, then pairs of an operator and a Number, then end-of-file: a well-formed
input succeeds, status 0 is reached by no other input, and every input that is
not well formed (it does not lex, or its tokens have another shape) ends with
status 1 and a diagnostic on the error stream. -/
theorem C4_success_iff_well_formed (input : String) :
    (((compile input).status = some 0 ∧
        ∃ pre, (compile input).out = pre ++ "  ret\n".toList) ↔
      ∃ ts, tokens_of input.toList = some ts ∧ well_formed ts = true) ∧
    ((compile input).status = some 0 ↔
      ∃ ts, tokens_of input.toList = some ts ∧ well_formed ts = true) ∧
    ((∃ ts, tokens_of input.toList = some ts ∧ well_formed ts = true) →
      (compile input).status = some 0 ∧ (compile input).err = [] ∧
        ∃ pre, (compile input).out = pre ++ "  ret\n".toList) ∧
    ((¬ ∃ ts, tokens_of input.toList = some ts ∧ well_formed ts = true) →
      (compile input).status = some 1 ∧ (compile input).err ≠ []) ∧
    (((compile input).status = some 0 ∧ (compile input).err = []) ∨
      ((compile input).status = some 1 ∧ (compile input).err ≠ [])) := by
  unfold compile
  rcases main_success_or_failure "9cc".toList input.toList with
    ⟨hw, h0, he, hp⟩ | ⟨hw, h1, he⟩
  · exact ⟨⟨fun _ => hw, fun _ => ⟨h0, hp⟩⟩, ⟨fun _ => hw, fun _ => h0⟩,
      fun _ => ⟨h0, he, hp⟩, fun hn => absurd hw hn, Or.inl ⟨h0, he⟩⟩
  · have hne : (main ["9cc".toList, input.toList]).status ≠ some 0 := by
      rw [h1]
      decide
    exact ⟨⟨fun h => absurd h.1 hne, fun h => absurd h hw⟩,
      ⟨fun h => absurd h hne, fun h => absurd h hw⟩,
      fun h => absurd h hw, fun _ => ⟨h1, he⟩, Or.inr ⟨h1, he⟩⟩

/-- The claim C4 at the five kinds of input that are not well formed (empty,
leading operator, two adjacent numbers, two adjacent operators, trailing
operator) and at an input that does not lex: none is well formed, so each ends
with status 1 and a diagnostic; and at `1+2`, which is well formed and so
succeeds. -/
theorem C4_success_iff_well_formed_witness :
    ((compile "").status = some 1 ∧ (compile "").err ≠ []) ∧
      ((compile "+1").status = some 1 ∧ (compile "+1").err ≠ []) ∧
      ((compile "1 2").status = some 1 ∧ (compile "1 2").err ≠ []) ∧
      ((compile "1++2").status = some 1 ∧ (compile "1++2").err ≠ []) ∧
      ((compile "1+").status = some 1 ∧ (compile "1+").err ≠ []) ∧
      ((compile "a").status = some 1 ∧ (compile "a").err ≠ []) ∧
      ((compile "1+2").status = some 0 ∧ (compile "1+2").err = [] ∧
        ∃ pre, (compile "1+2").out = pre ++ "  ret\n".toList) :=
  have f : ∀ (X : String) (r : Option (List Token)), tokens_of X.toList = r →
      (∀ ts, r = some ts → well_formed ts = false) →
      (compile X).status = some 1 ∧ (compile X).err ≠ [] := fun X r hr hwf =>
    (C4_success_iff_well_formed X).2.2.2.1 fun h => by
      obtain ⟨ts, h1, h2⟩ := h
      rw [hwf ts (hr.symm.trans h1)] at h2
      cases h2
  ⟨f "" (some [⟨.TK_EOF, 0, []⟩]) (by rfl) (fun ts h => by cases h; rfl),
    f "+1" (some [⟨.TK_RESERVED, 0, "+1".toList⟩, ⟨.TK_NUM, 1, "1".toList⟩, ⟨.TK_EOF, 0, []⟩])
      (by rfl) (fun ts h => by cases h; rfl),
    f "1 2" (some [⟨.TK_NUM, 1, "1 2".toList⟩, ⟨.TK_NUM, 2, "2".toList⟩, ⟨.TK_EOF, 0, []⟩])
      (by rfl) (fun ts h => by cases h; rfl),
    f "1++2" (some [⟨.TK_NUM, 1, "1++2".toList⟩, ⟨.TK_RESERVED, 0, "++2".toList⟩,
        ⟨.TK_RESERVED, 0, "+2".toList⟩, ⟨.TK_NUM, 2, "2".toList⟩, ⟨.TK_EOF, 0, []⟩])
      (by rfl) (fun ts h => by cases h; rfl),
    f "1+" (some [⟨.TK_NUM, 1, "1+".toList⟩, ⟨.TK_RESERVED, 0, "+".toList⟩, ⟨.TK_EOF, 0, []⟩])
      (by rfl) (fun ts h => by cases h; rfl),
    f "a" none (by rfl) (fun ts h => by cases h),
    (C4_success_iff_well_formed "1+2").2.2.1
      ⟨[⟨.TK_NUM, 1, "1+2".toList⟩, ⟨.TK_RESERVED, 0, "+2".toList⟩,
        ⟨.TK_NUM, 2, "2".toList⟩, ⟨.TK_EOF, 0, []⟩], by rfl, by rfl⟩⟩

/-! ## A trailing operator -/

theorem tokens_of_spaces (ws : List Char) (h : ∀ c ∈ ws, isspace c = true) :
    tokens_of ws = some [new_token .TK_EOF []] := by
  induction ws with
  | nil => rfl
  | cons c rest ih =>
    rw [tokens_of_cons, if_pos (h c (by simp))]
    exact ih fun d hd => h d (by simp [hd])

theorem dropWhile_append_stop (l r : List Char) (x : Char) (hx : isdigit x = false) :
    (l ++ x :: r).dropWhile isdigit = l.dropWhile isdigit ++ x :: r := by
  induction l with
  | nil => simp [List.dropWhile_cons, hx]
  | cons c l ih =>
    by_cases hc : isdigit c = true
    · simp [List.dropWhile_cons, hc, ih]
    · simp [List.dropWhile_cons, hc]

/-- The tokens of an input whose last character other than white space is an
operator end in that operator's token and the end-of-file token. -/
theorem tokens_of_trailing_op (op : Char) (ws : List Char) (hop : op = '+' ∨ op = '-')
    (hws : ∀ c ∈ ws, isspace c = true) (pre : List Char) :
    ∀ ts, tokens_of (pre ++ op :: ws) = some ts →
      ∃ front, ts = front ++ [new_token .TK_RESERVED (op :: ws), new_token .TK_EOF []] := by
  have hsp : isspace op = false := by rcases hop with rfl | rfl <;> rfl
  have hdg : isdigit op = false := by rcases hop with rfl | rfl <;> rfl
  induction pre using length_induction with
  | _ pre ih =>
    intro ts hts
    cases pre with
    | nil =>
      rw [List.nil_append, tokens_of_cons, hsp, if_neg (by simp), if_pos hop,
        tokens_of_spaces ws hws] at hts
      cases hts
      exact ⟨[], rfl⟩
    | cons c pre1 =>
      rw [List.cons_append, tokens_of_cons] at hts
      by_cases h1 : isspace c = true
      · rw [if_pos h1] at hts
        exact ih pre1 (by simp) ts hts
      · rw [if_neg h1] at hts
        by_cases h2 : c = '+' ∨ c = '-'
        · rw [if_pos h2] at hts
          cases hr : tokens_of (pre1 ++ op :: ws) with
          | none => rw [hr] at hts; cases hts
          | some ts1 =>
            rw [hr] at hts
            cases hts
            obtain ⟨front, hf⟩ := ih pre1 (by simp) ts1 hr
            exact ⟨_ :: front, by rw [hf]; rfl⟩
        · rw [if_neg h2] at hts
          by_cases h3 : isdigit c = true
          · rw [if_pos h3, strtol_snd _ _ h3, dropWhile_append_stop _ _ _ hdg] at hts
            cases hr : tokens_of (pre1.dropWhile isdigit ++ op :: ws) with
            | none => rw [hr] at hts; cases hts
            | some ts1 =>
              rw [hr] at hts
              cases hts
              have hlen : (pre1.dropWhile isdigit).length < (c :: pre1).length := by
                have := (List.dropWhile_suffix (l := pre1) isdigit).length_le
                simp only [List.length_cons]
                omega
              obtain ⟨front, hf⟩ := ih _ hlen ts1 hr
              exact ⟨_ :: front, by rw [hf]; rfl⟩
          · rw [if_neg h3] at hts
            cases hts

/-- C6 fails as stated: the inputs `a+` and `1 2+` end in an operator, and the
run ends with status 1, but the diagnostic is not `expected a number`: the
first stops in the lexer with `invalid token`, the second in `expect('-')` at
the second number. -/
theorem C6_counterexample :
    (ends_in_operator "a+".toList ∧ (compile "a+").status = some 1 ∧
        (compile "a+").err = "invalid token\n".toList ∧
        ¬ number_expected_message "a+".toList (compile "a+").err) ∧
      (ends_in_operator "1 2+".toList ∧ (compile "1 2+").status = some 1 ∧
        (compile "1 2+").err = "2+\n".toList ∧
        ¬ number_expected_message "1 2+".toList (compile "1 2+").err) := by
  refine ⟨⟨⟨"a".toList, '+', [], by rfl, Or.inl rfl, by simp⟩, by rfl, by rfl, ?_⟩,
    ⟨⟨"1 2".toList, '+', [], by rfl, Or.inl rfl, by simp⟩, by rfl, by rfl, ?_⟩⟩
  · have h : (compile "a+").err = "invalid token\n".toList := by rfl
    rw [h]
    rintro ⟨k, hk⟩
    have h0 := congrArg List.head? hk
    simp at h0
  · have h : (compile "1 2+").err = "2+\n".toList := by rfl
    rw [h]
    rintro ⟨k, hk⟩
    have h0 := congrArg List.head? hk
    simp at h0

/-! ## Standard output and status as functions of the tokens -/

theorem main_out (a0 input : List Char) :
    (main [a0, input]).out =
      match tokens_of input with
      | none => []
      | some ts =>
        unlines (prologue ++ (walk ts).code.map Instr.line ++
          if (walk ts).stop = .done then ["  ret".toList] else []) := by
  rcases main_cases a0 input with
    ⟨hts, hm⟩ | ⟨ts, hts, hs, hm⟩ | ⟨ts, loc, hts, hs, hm⟩ | ⟨ts, loc, hts, hs, hm⟩
  · rw [hm, hts]
    rfl
  · rw [hm, hts]
    simp only [hs, if_true]
    rfl
  · rw [hm, hts]
    simp only [hs, reduceCtorEq, if_false, List.append_nil]
    rfl
  · rw [hm, hts]
    simp only [hs, reduceCtorEq, if_false, List.append_nil]
    rfl

theorem main_status (a0 input : List Char) :
    (main [a0, input]).status =
      match tokens_of input with
      | none => some 1
      | some ts => if (walk ts).stop = .done then some 0 else some 1 := by
  rcases main_cases a0 input with
    ⟨hts, hm⟩ | ⟨ts, hts, hs, hm⟩ | ⟨ts, loc, hts, hs, hm⟩ | ⟨ts, loc, hts, hs, hm⟩
  · rw [hm, hts]
    rfl
  · rw [hm, hts]
    simp only [hs, if_true]
    rfl
  · rw [hm, hts]
    simp only [hs, reduceCtorEq, if_false]
    rfl
  · rw [hm, hts]
    simp only [hs, reduceCtorEq, if_false]
    rfl

theorem map_key_cons (t : Token) (rest ts1 : List Token)
    (h : (t :: rest).map Token.key = ts1.map Token.key) :
    ∃ a r, ts1 = a :: r ∧ (t.kind = a.kind ∧ t.val = a.val ∧ str0 t.str = str0 a.str) ∧
      rest.map Token.key = r.map Token.key := by
  cases ts1 with
  | nil => simp at h
  | cons a r =>
    simp only [List.map_cons, List.cons.injEq, Token.key, Prod.mk.injEq] at h
    exact ⟨a, r, rfl, h.1, h.2⟩

theorem map_key_nil (ts1 : List Token) (h : ([] : List Token).map Token.key = ts1.map Token.key) :
    ts1 = [] := by
  cases ts1 with
  | nil => rfl
  | cons a r => simp at h

theorem is_op_congr (t a : Token) (hk : t.kind = a.kind) (hc : str0 t.str = str0 a.str) :
    t.is_op ↔ a.is_op := by
  unfold Token.is_op
  rw [hk, hc]

/-- The walk of the loop reads the tokens through their keys only. -/
theorem walk_loop_congr (ts : List Token) :
    ∀ ts1 : List Token, ts.map Token.key = ts1.map Token.key →
      (walk_loop ts).code = (walk_loop ts1).code ∧
      ((walk_loop ts).stop = .done ↔ (walk_loop ts1).stop = .done) := by
  apply walk_loop_induction (P := fun ts w =>
    ∀ ts1 : List Token, ts.map Token.key = ts1.map Token.key →
      w.code = (walk_loop ts1).code ∧ (w.stop = Stop.done ↔ (walk_loop ts1).stop = Stop.done))
  · intro ts1 h
    rw [map_key_nil ts1 h]
    exact ⟨rfl, Iff.rfl⟩
  · intro t rest ht ts1 h
    obtain ⟨a, r, rfl, ⟨ha1, _, _⟩, _⟩ := map_key_cons t rest ts1 h
    rw [walk_loop_eof a r (by rw [← ha1]; exact ht)]
    simp
  · intro t hop ts1 h
    obtain ⟨a, r, rfl, ⟨ha1, _, ha3⟩, hr⟩ := map_key_cons t [] ts1 h
    rw [map_key_nil r hr, walk_loop_op_nil a ((is_op_congr t a ha1 ha3).1 hop)]
    simp
  · intro t n rest hop hn ih ts1 h
    obtain ⟨a, r1, rfl, ⟨ha1, _, ha3⟩, hr1⟩ := map_key_cons t _ ts1 h
    obtain ⟨b, r, rfl, ⟨hb1, hb2, _⟩, hr⟩ := map_key_cons n _ r1 hr1
    rw [walk_loop_plus a b r ⟨by rw [← ha1]; exact hop.1, by rw [← ha3]; exact hop.2⟩
      (by rw [← hb1]; exact hn)]
    obtain ⟨h1, h2⟩ := ih r hr
    simp only [h1, hb2, true_and]
    exact h2
  · intro t n rest hop hn ih ts1 h
    obtain ⟨a, r1, rfl, ⟨ha1, _, ha3⟩, hr1⟩ := map_key_cons t _ ts1 h
    obtain ⟨b, r, rfl, ⟨hb1, hb2, _⟩, hr⟩ := map_key_cons n _ r1 hr1
    rw [walk_loop_minus a b r ⟨by rw [← ha1]; exact hop.1, by rw [← ha3]; exact hop.2⟩
      (by rw [← hb1]; exact hn)]
    obtain ⟨h1, h2⟩ := ih r hr
    simp only [h1, hb2, true_and]
    exact h2
  · intro t n rest hop hn ts1 h
    obtain ⟨a, r1, rfl, ⟨ha1, _, ha3⟩, hr1⟩ := map_key_cons t _ ts1 h
    obtain ⟨b, r, rfl, ⟨hb1, _, _⟩, _⟩ := map_key_cons n _ r1 hr1
    rw [walk_loop_op_bad a b r ((is_op_congr t a ha1 ha3).1 hop) (by rw [← hb1]; exact hn)]
    simp
  · intro t rest h0 hop ts1 h
    obtain ⟨a, r, rfl, ⟨ha1, _, ha3⟩, _⟩ := map_key_cons t _ ts1 h
    rw [walk_loop_other a r (by rw [← ha1]; exact h0)
      (fun h => hop ((is_op_congr t a ha1 ha3).2 h))]
    simp

theorem walk_congr (ts ts1 : List Token) (h : ts.map Token.key = ts1.map Token.key) :
    (walk ts).code = (walk ts1).code ∧
      ((walk ts).stop = .done ↔ (walk ts1).stop = .done) := by
  cases ts with
  | nil =>
    rw [map_key_nil ts1 h]
    exact ⟨rfl, Iff.rfl⟩
  | cons t rest =>
    obtain ⟨a, r, rfl, ⟨ha1, ha2, _⟩, hr⟩ := map_key_cons t rest ts1 h
    by_cases hn : t.kind = .TK_NUM
    · rw [walk_num t rest hn, walk_num a r (by rw [← ha1]; exact hn)]
      obtain ⟨h1, h2⟩ := walk_loop_congr rest r hr
      simp only [h1, ha2, true_and]
      exact h2
    · rw [walk_not_num t rest hn, walk_not_num a r (by rw [← ha1]; exact hn)]
      simp

/-! ## White space between tokens -/

theorem keys_of_nil : keys_of [] = some [(.TK_EOF, 0, '\x00')] := rfl

theorem keys_of_cons (c : Char) (rest : List Char) :
    keys_of (c :: rest) =
      if isspace c then keys_of rest
      else if c = '+' ∨ c = '-' then
        (keys_of rest).map ((.TK_RESERVED, 0, c) :: ·)
      else if isdigit c then
        (keys_of (rest.dropWhile isdigit)).map
          ((.TK_NUM, to_int (min (decval (c :: rest.takeWhile isdigit) : Int) LONG_MAX), c) :: ·)
      else none := by
  unfold keys_of
  rw [tokens_of_cons]
  by_cases h1 : isspace c = true
  · rw [if_pos h1, if_pos h1]
  · rw [if_neg h1, if_neg h1]
    by_cases h2 : c = '+' ∨ c = '-'
    · rw [if_pos h2, if_pos h2]
      cases tokens_of rest <;> rfl
    · rw [if_neg h2, if_neg h2]
      by_cases h3 : isdigit c = true
      · rw [if_pos h3, if_pos h3, strtol_snd c rest h3]
        have hv : (strtol (c :: rest)).1 =
            min (decval (c :: rest.takeWhile isdigit) : Int) LONG_MAX := by
          simp [strtol, List.takeWhile_cons, h3]
        cases tokens_of (rest.dropWhile isdigit) with
        | none => rfl
        | some ts =>
          simp only [Option.map_some', List.map_cons, Token.key, num_token, str0,
            List.headD_cons, hv]
      · rw [if_neg h3, if_neg h3]
        rfl

theorem isspace_not_isdigit (c : Char) (h : isspace c = true) : isdigit c = false := by
  simp only [isspace, Bool.or_eq_true, decide_eq_true_eq, Bool.and_eq_true] at h
  simp only [isdigit, Bool.and_eq_false_iff, decide_eq_false_iff_not]
  omega

theorem takeWhile_append_all (x y : List Char) (h : ∀ c ∈ x, isdigit c = true) :
    (x ++ y).takeWhile isdigit = x ++ y.takeWhile isdigit := by
  induction x with
  | nil => rfl
  | cons c x ih =>
    simp [List.takeWhile_cons, h c (by simp), ih fun d hd => h d (by simp [hd])]

theorem dropWhile_append_all (x y : List Char) (h : ∀ c ∈ x, isdigit c = true) :
    (x ++ y).dropWhile isdigit = y.dropWhile isdigit := by
  induction x with
  | nil => rfl
  | cons c x ih =>
    simp [List.dropWhile_cons, h c (by simp), ih fun d hd => h d (by simp [hd])]

theorem takeWhile_append_stop (x y : List Char) (h : x.dropWhile isdigit ≠ []) :
    (x ++ y).takeWhile isdigit = x.takeWhile isdigit := by
  induction x with
  | nil => simp at h
  | cons c x ih =>
    by_cases hc : isdigit c = true
    · simp only [List.dropWhile_cons, hc, if_true] at h
      simp [List.takeWhile_cons, hc, ih h]
    · simp [List.takeWhile_cons, hc]

theorem dropWhile_append_stop2 (x y : List Char) (h : x.dropWhile isdigit ≠ []) :
    (x ++ y).dropWhile isdigit = x.dropWhile isdigit ++ y := by
  induction x with
  | nil => simp at h
  | cons c x ih =>
    by_cases hc : isdigit c = true
    · simp only [List.dropWhile_cons, hc, if_true] at h
      simp [List.dropWhile_cons, hc, ih h]
    · simp [List.dropWhile_cons, hc]

theorem ends_digit_cons (c : Char) (x : List Char) (hx : x ≠ []) :
    ends_digit (c :: x) = ends_digit x := by
  cases x with
  | nil => exact absurd rfl hx
  | cons d x => simp [ends_digit, List.getLast?_cons_cons]

theorem ends_digit_of_all (x : List Char) (hx : x ≠ []) (h : ∀ c ∈ x, isdigit c = true) :
    ends_digit x = true := by
  have hl : x.getLast? = some (x.getLast hx) := List.getLast?_eq_getLast _ hx
  simp [ends_digit, hl, h _ (List.getLast_mem hx)]

theorem ends_digit_dropWhile (x : List Char) (h : x.dropWhile isdigit ≠ []) :
    ends_digit (x.dropWhile isdigit) = ends_digit x := by
  have hx : x = x.takeWhile isdigit ++ x.dropWhile isdigit :=
    (List.takeWhile_append_dropWhile isdigit x).symm
  conv_rhs => rw [hx]
  simp only [ends_digit]
  rw [List.getLast?_append_of_ne_nil _ h]

/-- A white-space character put in outside a run of digits leaves the keys of
the tokens, and whether the input lexes, as they were. -/
theorem keys_of_insert (w : Char) (y : List Char) (hw : isspace w = true) (x : List Char) :
    ¬(ends_digit x = true ∧ starts_digit y = true) →
    keys_of (x ++ y) = keys_of (x ++ w :: y) := by
  induction x using length_induction with
  | _ x ih =>
    intro hxy
    cases x with
    | nil =>
      rw [List.nil_append, List.nil_append, keys_of_cons w y, if_pos hw]
    | cons c x1 =>
      have hnext : ∀ z : List Char, z.length ≤ x1.length →
          (z = [] ∨ ends_digit z = ends_digit (c :: x1)) →
          keys_of (z ++ y) = keys_of (z ++ w :: y) := by
        intro z hz he
        apply ih z (by simp only [List.length_cons]; omega)
        rcases he with rfl | he
        · simp [ends_digit]
        · rw [he]
          exact hxy
      have htail : keys_of (x1 ++ y) = keys_of (x1 ++ w :: y) := by
        apply hnext x1 (le_refl _)
        by_cases hx1 : x1 = []
        · exact Or.inl hx1
        · exact Or.inr (ends_digit_cons c x1 hx1).symm
      rw [List.cons_append, List.cons_append, keys_of_cons, keys_of_cons]
      by_cases h1 : isspace c = true
      · rw [if_pos h1, if_pos h1, htail]
      · rw [if_neg h1, if_neg h1]
        by_cases h2 : c = '+' ∨ c = '-'
        · rw [if_pos h2, if_pos h2, htail]
        · rw [if_neg h2, if_neg h2]
          by_cases h3 : isdigit c = true
          · rw [if_pos h3, if_pos h3]
            by_cases hall : x1.dropWhile isdigit = []
            · have hall1 : ∀ d ∈ x1, isdigit d = true := List.dropWhile_eq_nil_iff.1 hall
              have hend : ends_digit (c :: x1) = true := by
                apply ends_digit_of_all _ (by simp)
                intro d hd
                rcases List.mem_cons.1 hd with rfl | hd
                · exact h3
                · exact hall1 d hd
              have hy : starts_digit y = false := by
                cases hs : starts_digit y with
                | false => rfl
                | true => exact absurd ⟨hend, hs⟩ hxy
              have hwd : isdigit w = false := isspace_not_isdigit w hw
              have hy1 : y.takeWhile isdigit = [] := by
                cases y with
                | nil => rfl
                | cons d y1 =>
                  have hd : isdigit d = false := by simpa [starts_digit] using hy
                  simp [List.takeWhile_cons, hd]
              have hy2 : y.dropWhile isdigit = y := by
                cases y with
                | nil => rfl
                | cons d y1 =>
                  have hd : isdigit d = false := by simpa [starts_digit] using hy
                  simp [List.dropWhile_cons, hd]
              rw [takeWhile_append_all x1 y hall1, takeWhile_append_all x1 (w :: y) hall1,
                dropWhile_append_all x1 y hall1, dropWhile_append_all x1 (w :: y) hall1,
                hy1, hy2]
              have hw1 : (w :: y).takeWhile isdigit = [] := by
                simp [List.takeWhile_cons, hwd]
              have hw2 : (w :: y).dropWhile isdigit = w :: y := by
                simp [List.dropWhile_cons, hwd]
              rw [hw1, hw2, keys_of_cons w y, if_pos hw]
            · rw [takeWhile_append_stop x1 y hall, takeWhile_append_stop x1 (w :: y) hall,
                dropWhile_append_stop2 x1 y hall, dropWhile_append_stop2 x1 (w :: y) hall]
              have hx1 : x1 ≠ [] := by
                rintro rfl
                exact hall rfl
              rw [hnext (x1.dropWhile isdigit) (List.dropWhile_suffix isdigit).length_le
                (Or.inr ((ends_digit_dropWhile x1 hall).trans
                  (ends_digit_cons c x1 hx1).symm))]
          · rw [if_neg h3, if_neg h3]

theorem main_congr (a0 a b : List Char) (h : keys_of a = keys_of b) :
    (main [a0, a]).out = (main [a0, b]).out ∧
      (main [a0, a]).status = (main [a0, b]).status := by
  rw [main_out, main_out, main_status, main_status]
  unfold keys_of at h
  cases ha : tokens_of a with
  | none =>
    cases hb : tokens_of b with
    | none => exact ⟨rfl, rfl⟩
    | some tb => rw [ha, hb] at h; cases h
  | some ta =>
    cases hb : tokens_of b with
    | none => rw [ha, hb] at h; cases h
    | some tb =>
      rw [ha, hb] at h
      simp only [Option.map_some', Option.some.injEq] at h
      obtain ⟨h1, h2⟩ := walk_congr ta tb h
      simp [h1, h2]

/-- C3: two inputs that differ only by white space put in or taken out, in any
number of steps and never inside a run of digits, lex to the same sequence of
token kinds and values (or both fail to lex), and the compiler writes the same
standard output and ends with the same status on both. -/
theorem C3_whitespace_insensitive (a b : String) (h : ws_equiv a.toList b.toList) :
    (tokens_of a.toList).map (List.map fun t => (t.kind, t.val)) =
        (tokens_of b.toList).map (List.map fun t => (t.kind, t.val)) ∧
      (compile a).out = (compile b).out ∧
      (compile a).status = (compile b).status := by
  have hk : keys_of a.toList = keys_of b.toList := by
    generalize a.toList = x at h
    generalize b.toList = y at h
    induction h with
    | rel x y hxy =>
      obtain ⟨u, w, v, rfl, rfl, hw, hc⟩ := hxy
      exact keys_of_insert w v hw u hc
    | refl x => rfl
    | symm x y _ ih => exact ih.symm
    | trans x y z _ _ ih1 ih2 => exact ih1.trans ih2
  refine ⟨?_, main_congr _ _ _ hk⟩
  have h2 := congrArg (Option.map (List.map fun k : TokenKind × Int × Char => (k.1, k.2.1))) hk
  simp only [keys_of, Option.map_map] at h2
  have hf : (List.map (fun k : TokenKind × Int × Char => (k.1, k.2.1)) ∘ List.map Token.key)
      = List.map fun t : Token => (t.kind, t.val) := by
    funext ts
    simp [Function.comp, Token.key]
  rw [hf] at h2
  exact h2

/-- The claim C3 at the inputs ` 1 - 1 ` and `1-1`: four white-space characters
apart, they give the same output, `mov rax, 1`, `sub rax, 1`, `ret`. -/
theorem C3_whitespace_insensitive_witness :
    ws_equiv " 1 - 1 ".toList "1-1".toList ∧
      (compile " 1 - 1 ").out = (compile "1-1").out ∧
      (compile "1-1").out =
        (".intel_syntax noprefix\n.globl main\nmain:\n" ++
          "  mov rax, 1\n  sub rax, 1\n  ret\n").toList ∧
      (compile " 1 - 1 ").status = (compile "1-1").status :=
  have h1 : ws_insert "1-1".toList " 1-1".toList :=
    ⟨[], ' ', "1-1".toList, by rfl, by rfl, by rfl, by decide⟩
  have h2 : ws_insert " 1-1".toList " 1 -1".toList :=
    ⟨" 1".toList, ' ', "-1".toList, by rfl, by rfl, by rfl, by decide⟩
  have h3 : ws_insert " 1 -1".toList " 1 - 1".toList :=
    ⟨" 1 -".toList, ' ', "1".toList, by rfl, by rfl, by rfl, by decide⟩
  have h4 : ws_insert " 1 - 1".toList " 1 - 1 ".toList :=
    ⟨" 1 - 1".toList, ' ', [], by rfl, by rfl, by rfl, by decide⟩
  have hw : ws_equiv " 1 - 1 ".toList "1-1".toList :=
    Relation.EqvGen.symm _ _
      (Relation.EqvGen.trans _ _ _ (Relation.EqvGen.rel _ _ h1)
        (Relation.EqvGen.trans _ _ _ (Relation.EqvGen.rel _ _ h2)
          (Relation.EqvGen.trans _ _ _ (Relation.EqvGen.rel _ _ h3)
            (Relation.EqvGen.rel _ _ h4))))
  have h := C3_whitespace_insensitive " 1 - 1 " "1-1" hw
  ⟨hw, h.2.1, by rfl, h.2.2⟩

/-! ## Reading numbers back from the output -/

theorem decval_foldl (ds : List Char) (a : Nat) :
    ds.foldl (fun a c => 10 * a + digitVal c) a = a * 10 ^ ds.length + decval ds := by
  induction ds generalizing a with
  | nil => simp [decval]
  | cons d ds ih =>
    simp only [List.foldl_cons, List.length_cons, decval]
    rw [ih (10 * a + digitVal d), ih (10 * 0 + digitVal d)]
    ring

theorem decval_cons (d : Char) (ds : List Char) :
    decval (d :: ds) = digitVal d * 10 ^ ds.length + decval ds := by
  have h := decval_foldl ds (10 * 0 + digitVal d)
  simp only [decval, List.foldl_cons]
  rw [h]
  simp [decval]

theorem digitVal_digitChar (k : Nat) (h : k < 10) : digitVal (Nat.digitChar k) = k := by
  interval_cases k <;> rfl

theorem decval_toDigitsCore (fuel : Nat) : ∀ (n : Nat) (acc : List Char), n ≤ fuel →
    decval (Nat.toDigitsCore 10 fuel n acc) = n * 10 ^ acc.length + decval acc := by
  induction fuel with
  | zero =>
    intro n acc hn
    have h0 : n = 0 := by omega
    simp [Nat.toDigitsCore, h0]
  | succ f ih =>
    intro n acc hn
    have hd : digitVal (Nat.digitChar (n % 10)) = n % 10 :=
      digitVal_digitChar _ (Nat.mod_lt _ (by decide))
    simp only [Nat.toDigitsCore]
    split
    · rename_i h0
      rw [decval_cons, hd]
      have : n % 10 = n := by omega
      rw [this]
    · rename_i h0
      rw [ih (n / 10) _ (by omega), decval_cons, hd, List.length_cons, pow_succ]
      have h1 : n = 10 * (n / 10) + n % 10 := (Nat.div_add_mod n 10).symm
      nth_rewrite 3 [h1]
      ring

theorem toDigits_ne_nil (n : Nat) : Nat.toDigits 10 n ≠ [] := by
  have h : ∀ (fuel n : Nat) (acc : List Char), Nat.toDigitsCore 10 (fuel + 1) n acc ≠ [] := by
    intro fuel
    induction fuel with
    | zero =>
      intro n acc
      simp only [Nat.toDigitsCore]
      split <;> simp
    | succ f ih =>
      intro n acc
      rw [Nat.toDigitsCore]
      split
      · simp
      · exact ih _ _
  exact h n n []

theorem parse_imm_nat (n : Nat) : parse_imm (Nat.toDigits 10 n) = some (n : Int) := by
  have hall : ∀ c ∈ Nat.toDigits 10 n, isdigit c = true :=
    toDigitsCore_isdigit (n + 1) n [] (by simp)
  have hval : decval (Nat.toDigits 10 n) = n := by
    have := decval_toDigitsCore (n + 1) n [] (by omega)
    simpa [decval] using this
  cases hds : Nat.toDigits 10 n with
  | nil => exact absurd hds (toDigits_ne_nil n)
  | cons c ds =>
    rw [hds] at hall hval
    have hc : c ≠ '-' := by
      rintro rfl
      have := hall '-' (by simp)
      revert this
      decide
    simp only [parse_imm, if_neg hc]
    rw [if_pos (List.all_eq_true.2 hall), hval]

/-- Reading back what `%d` wrote gives the number. -/
theorem parse_imm_fmt_d (v : Int) : parse_imm (fmt_d v) = some v := by
  cases v with
  | ofNat n => exact parse_imm_nat n
  | negSucc n =>
    have hall : ∀ c ∈ Nat.toDigits 10 (n + 1), isdigit c = true :=
      toDigitsCore_isdigit (n + 1 + 1) (n + 1) [] (by simp)
    have hval : decval (Nat.toDigits 10 (n + 1)) = n + 1 := by
      have := decval_toDigitsCore (n + 1 + 1) (n + 1) [] (by omega)
      simpa [decval] using this
    have hf : fmt_d (Int.negSucc n) = '-' :: Nat.toDigits 10 (n + 1) := rfl
    rw [hf]
    simp only [parse_imm, if_true]
    rw [if_pos ⟨toDigits_ne_nil _, List.all_eq_true.2 hall⟩, hval]
    rfl

theorem strip_head_append (pre x : List Char) : strip_head pre (pre ++ x) = some x := by
  induction pre with
  | nil => cases x <;> rfl
  | cons p ps ih => simp [strip_head, ih]

/-- Reading back the line of an instruction gives the instruction. -/
theorem parse_instr_line (i : Instr) : parse_instr i.line = some i := by
  cases i with
  | mov v =>
    simp only [parse_instr, Instr.line, strip_head_append, parse_imm_fmt_d, Option.map_some']
  | add v =>
    have h1 : strip_head "  mov rax, ".toList ("  add rax, ".toList ++ fmt_d v) = none := rfl
    simp only [parse_instr, Instr.line, h1, strip_head_append, parse_imm_fmt_d,
      Option.map_some']
  | sub v =>
    have h1 : strip_head "  mov rax, ".toList ("  sub rax, ".toList ++ fmt_d v) = none := rfl
    have h2 : strip_head "  add rax, ".toList ("  sub rax, ".toList ++ fmt_d v) = none := rfl
    simp only [parse_instr, Instr.line, h1, h2, strip_head_append, parse_imm_fmt_d,
      Option.map_some']

theorem run_body_code (code : List Instr) : ∀ rax : Int,
    run_body (code.map Instr.line ++ ["  ret".toList, []]) rax =
      some (code.foldl exec_instr rax % 256) := by
  induction code with
  | nil =>
    intro rax
    simp [run_body]
  | cons i code ih =>
    intro rax
    simp only [List.map_cons, List.cons_append, run_body, if_neg (instr_line_ne_ret i),
      parse_instr_line, List.foldl_cons]
    exact ih _

/-- Running the text of a successful run executes the emitted instructions. -/
theorem asm_run_output (code : List Instr) :
    asm_run (unlines (prologue ++ code.map Instr.line ++ ["  ret".toList])) =
      some (code.foldl exec_instr 0 % 256) := by
  have hno : ∀ l ∈ prologue ++ code.map Instr.line ++ ["  ret".toList],
      ∀ c ∈ l, c ≠ '\n' := by
    intro l hl
    simp only [List.mem_append, List.mem_map, List.mem_singleton] at hl
    rcases hl with (hl | ⟨i, _, rfl⟩) | rfl
    · revert l
      decide
    · exact instr_line_no_newline i
    · decide
  have hs := split_lines_unlines _ hno
  have hshape : prologue ++ code.map Instr.line ++ ["  ret".toList] ++ [[]] =
      ".intel_syntax noprefix".toList :: ".globl main".toList :: "main:".toList ::
        (code.map Instr.line ++ ["  ret".toList, []]) := by
    simp [prologue]
  rw [asm_run, hs, hshape]
  simp only []
  rw [if_pos (by rfl)]
  exact run_body_code code 0

/-! ## Lexing an input of the form `N (op M)*` -/

theorem tokens_of_skip (ws p : List Char) (h : is_space_run ws) :
    tokens_of (ws ++ p) = tokens_of p := by
  induction ws with
  | nil => rfl
  | cons c rest ih =>
    rw [List.cons_append, tokens_of_cons, if_pos (h c (by simp))]
    exact ih fun d hd => h d (by simp [hd])

theorem takeWhile_not_starts (p : List Char) (h : starts_digit p = false) :
    p.takeWhile isdigit = [] := by
  cases p with
  | nil => rfl
  | cons d p1 =>
    have hd : isdigit d = false := by simpa [starts_digit] using h
    simp [List.takeWhile_cons, hd]

theorem dropWhile_not_starts (p : List Char) (h : starts_digit p = false) :
    p.dropWhile isdigit = p := by
  cases p with
  | nil => rfl
  | cons d p1 =>
    have hd : isdigit d = false := by simpa [starts_digit] using h
    simp [List.dropWhile_cons, hd]

theorem isdigit_not_isspace (c : Char) (h : isdigit c = true) : isspace c = false := by
  cases hs : isspace c with
  | false => rfl
  | true =>
    rw [isspace_not_isdigit c hs] at h
    cases h

theorem isdigit_not_op (c : Char) (h : isdigit c = true) : ¬(c = '+' ∨ c = '-') := by
  rintro (rfl | rfl) <;> revert h <;> decide

/-- A number followed by something that is not a digit lexes to one Number
token, whose value is the `int` made of the clamped value of its digits. -/
theorem tokens_of_number (ds p : List Char) (h : is_number ds) (hp : starts_digit p = false) :
    tokens_of (ds ++ p) =
      (tokens_of p).map
        (⟨.TK_NUM, to_int (min (decval ds : Int) LONG_MAX), ds ++ p⟩ :: ·) := by
  obtain ⟨hne, hall⟩ := h
  cases ds with
  | nil => exact absurd rfl hne
  | cons c ds1 =>
    have hc : isdigit c = true := hall c (by simp)
    have hall1 : ∀ d ∈ ds1, isdigit d = true := fun d hd => hall d (by simp [hd])
    rw [List.cons_append, tokens_of_cons, isdigit_not_isspace c hc,
      if_neg (by simp), if_neg (isdigit_not_op c hc), if_pos hc, strtol_snd c _ hc,
      dropWhile_append_all ds1 p hall1, dropWhile_not_starts p hp]
    have hv : (strtol (c :: (ds1 ++ p))).1 = min (decval (c :: ds1) : Int) LONG_MAX := by
      simp only [strtol, List.takeWhile_cons, hc, if_true]
      rw [takeWhile_append_all ds1 p hall1, takeWhile_not_starts p hp, List.append_nil]
    simp only [num_token, hv]

theorem starts_digit_space_run (w rest : List Char) (h : is_space_run w)
    (hr : starts_digit rest = false) : starts_digit (w ++ rest) = false := by
  cases w with
  | nil => exact hr
  | cons c w1 =>
    have hc := isspace_not_isdigit c (h c (by simp))
    simp [starts_digit, hc]

theorem starts_digit_terms (terms : List Term) (wend : List Char)
    (hterms : ∀ t ∈ terms, t.ok) (hwend : is_space_run wend) :
    starts_digit (terms.flatMap Term.text ++ wend) = false := by
  cases terms with
  | nil =>
    have := starts_digit_space_run wend [] hwend rfl
    simpa using this
  | cons t rest =>
    obtain ⟨h1, hop, _, _⟩ := hterms t (by simp)
    simp only [List.flatMap_cons, Term.text, List.append_assoc]
    apply starts_digit_space_run _ _ h1
    rcases hop with h | h <;> rw [h] <;> rfl

theorem lex_terms (terms : List Term) (wend : List Char)
    (hterms : ∀ t ∈ terms, t.ok) (hwend : is_space_run wend) :
    ∃ ts, tokens_of (terms.flatMap Term.text ++ wend) = some ts ∧
      walk_loop ts = ⟨terms.map term_code, [new_token .TK_EOF []], .done⟩ := by
  induction terms with
  | nil =>
    refine ⟨[new_token .TK_EOF []], ?_, walk_loop_eof _ _ rfl⟩
    simpa using tokens_of_spaces wend hwend
  | cons t rest ih =>
    obtain ⟨ts, hts, hwalk⟩ := ih fun x hx => hterms x (by simp [hx])
    obtain ⟨h1, hop, h2, hnum⟩ := hterms t (by simp)
    have hsd := starts_digit_terms rest wend (fun x hx => hterms x (by simp [hx])) hwend
    have hsp : isspace t.op = false := by rcases hop with h | h <;> rw [h] <;> rfl
    have htext : (t :: rest).flatMap Term.text ++ wend =
        t.ws1 ++ t.op :: (t.ws2 ++ (t.digits ++ (rest.flatMap Term.text ++ wend))) := by
      simp [Term.text, List.append_assoc]
    rw [htext, tokens_of_skip _ _ h1, tokens_of_cons, hsp, if_neg (by simp), if_pos hop,
      tokens_of_skip _ _ h2, tokens_of_number _ _ hnum hsd, hts]
    refine ⟨_, rfl, ?_⟩
    rcases hop with h | h
    · rw [walk_loop_plus _ _ _ ⟨rfl, by simp [new_token, str0, h]⟩ rfl, hwalk]
      simp [term_code, h]
    · rw [walk_loop_minus _ _ _ ⟨rfl, by simp [new_token, str0, h]⟩ rfl, hwalk]
      have hne : t.op ≠ '+' := by rw [h]; decide
      simp [term_code, hne]

/-- The tokens of an input `N (op M)*` and the walk over them. -/
theorem lex_expr (w0 n wend : List Char) (terms : List Term)
    (hw0 : is_space_run w0) (hn : is_number n) (hterms : ∀ t ∈ terms, t.ok)
    (hwend : is_space_run wend) :
    ∃ ts, tokens_of (expr_text w0 n terms wend) = some ts ∧
      walk ts = ⟨.mov (to_int (min (decval n : Int) LONG_MAX)) :: terms.map term_code,
        [new_token .TK_EOF []], .done⟩ := by
  obtain ⟨ts, hts, hwalk⟩ := lex_terms terms wend hterms hwend
  have hsd := starts_digit_terms terms wend hterms hwend
  rw [expr_text, tokens_of_skip _ _ hw0, tokens_of_number _ _ hn hsd, hts]
  refine ⟨_, rfl, ?_⟩
  rw [walk_num _ _ rfl, hwalk]

/-! ## The value of the emitted program -/

theorem to_int_mod (v : Int) : to_int v % 256 = v % 256 := by
  unfold to_int
  norm_num
  omega

theorem clamp_small (v : Nat) (h : v < 2 ^ 63) : min (v : Int) LONG_MAX = v := by
  apply min_eq_left
  unfold LONG_MAX
  have : (v : Int) < 2 ^ 63 := by exact_mod_cast h
  omega

theorem exec_terms (terms : List Term) (hb : ∀ t ∈ terms, decval t.digits < 2 ^ 63) :
    ∀ rax acc : Int, rax % 256 = acc % 256 →
      (terms.map term_code).foldl exec_instr rax % 256 =
        terms.foldl (fun acc t =>
          if t.op = '+' then acc + (decval t.digits : Int)
          else acc - (decval t.digits : Int)) acc % 256 := by
  induction terms with
  | nil =>
    intro rax acc h
    exact h
  | cons t rest ih =>
    intro rax acc h
    simp only [List.map_cons, List.foldl_cons]
    apply ih (fun x hx => hb x (by simp [hx]))
    have hv := to_int_mod (decval t.digits : Int)
    have hc := clamp_small _ (hb t (by simp))
    by_cases hop : t.op = '+'
    · simp only [term_code, hop, if_true, exec_instr, hc]
      norm_num
      omega
    · simp only [term_code, hop, if_false, exec_instr, hc]
      norm_num
      omega

/-- C1, as amended: for every input `N (op M)*` with `op` in `+`, `-`, white
space allowed around the tokens, and every literal a non-empty digit string of
value below `2^63`, the run succeeds and the emitted text, run as `mov`, `add`
and `sub` on a 64-bit `rax` with return value `rax mod 256`, returns the
left-to-right fold of the values of the literals modulo 256; for a lone `N`
that is `N mod 256`. -/
theorem C1_emitted_value (w0 n wend : List Char) (terms : List Term)
    (hw0 : is_space_run w0) (hn : is_number n) (hterms : ∀ t ∈ terms, t.ok)
    (hwend : is_space_run wend)
    (hbn : decval n < 2 ^ 63) (hbt : ∀ t ∈ terms, decval t.digits < 2 ^ 63) :
    (compile ⟨expr_text w0 n terms wend⟩).status = some 0 ∧
      asm_run (compile ⟨expr_text w0 n terms wend⟩).out = some (fold_value n terms % 256) := by
  obtain ⟨ts, hts, hwalk⟩ := lex_expr w0 n wend terms hw0 hn hterms hwend
  have hm := main_done "9cc".toList (expr_text w0 n terms wend) ts hts (by rw [hwalk])
  rw [hwalk] at hm
  have hc : compile ⟨expr_text w0 n terms wend⟩ = main ["9cc".toList, expr_text w0 n terms wend] :=
    rfl
  rw [hc, hm]
  refine ⟨rfl, ?_⟩
  simp only [Outcome.out, Outcome.final]
  rw [asm_run_output, List.foldl_cons]
  congr 1
  apply exec_terms terms hbt
  have hv := to_int_mod (decval n : Int)
  simp only [exec_instr, clamp_small _ hbn]
  norm_num
  omega

/-- The claim C1, as amended, at the inputs `5+20-4`, `9-3-2` and `3`: the
emitted programs return 21, 4 and 3. -/
theorem C1_emitted_value_witness :
    asm_run (compile "5+20-4").out = some 21 ∧
      asm_run (compile "9-3-2").out = some 4 ∧
      asm_run (compile "3").out = some 3 :=
  have hsp : is_space_run [] := fun c hc => by cases hc
  ⟨(C1_emitted_value [] "5".toList []
      [⟨[], '+', [], "20".toList⟩, ⟨[], '-', [], "4".toList⟩]
      hsp ⟨by simp, by decide⟩
      (by
        intro t ht
        simp only [List.mem_cons, List.mem_singleton, List.not_mem_nil, or_false] at ht
        rcases ht with rfl | rfl
        · exact ⟨hsp, Or.inl rfl, hsp, by simp, by decide⟩
        · exact ⟨hsp, Or.inr rfl, hsp, by simp, by decide⟩)
      hsp (by decide) (by decide)).2,
    (C1_emitted_value [] "9".toList []
      [⟨[], '-', [], "3".toList⟩, ⟨[], '-', [], "2".toList⟩]
      hsp ⟨by simp, by decide⟩
      (by
        intro t ht
        simp only [List.mem_cons, List.mem_singleton, List.not_mem_nil, or_false] at ht
        rcases ht with rfl | rfl
        · exact ⟨hsp, Or.inr rfl, hsp, by simp, by decide⟩
        · exact ⟨hsp, Or.inr rfl, hsp, by simp, by decide⟩)
      hsp (by decide) (by decide)).2,
    (C1_emitted_value [] "3".toList [] [] hsp ⟨by simp, by decide⟩
      (fun t ht => by cases ht) hsp (by decide) (by decide)).2⟩

/-- C1 fails as stated for a literal of value `2^63` or more: on the input
`9223372036854775808` (that is `2^63`, which is 0 modulo 256) `strtol` clamps
to `2^63 - 1`, the `int` conversion gives -1, the program emitted is
`mov rax, -1`, `ret`, and it returns 255. -/
theorem C1_counterexample :
    is_number "9223372036854775808".toList ∧
      (compile "9223372036854775808").status = some 0 ∧
      (compile "9223372036854775808").out =
        (".intel_syntax noprefix\n.globl main\nmain:\n" ++ "  mov rax, -1\n  ret\n").toList ∧
      asm_run (compile "9223372036854775808").out = some 255 ∧
      fold_value "9223372036854775808".toList [] % 256 = 0 ∧
      asm_run (compile "9223372036854775808").out ≠
        some (fold_value "9223372036854775808".toList [] % 256) := by
  have h1 : asm_run (compile "9223372036854775808").out = some 255 := by rfl
  have h2 : fold_value "9223372036854775808".toList [] % 256 = 0 := by rfl
  refine ⟨⟨by simp, by decide⟩, by rfl, by rfl, h1, h2, ?_⟩
  rw [h1, h2]
  decide

/-! ## The cursor operations -/

/-- C12: in every state whose cursor is at a token `t`, `consume(op)` returns
true exactly when `t` is a Reserved token whose character is `op`; then the
cursor is the successor of `t`; otherwise it returns false and the cursor stays
at `t` (so on a Number or end-of-file token); the tokens, the input and the two
streams are as before in both cases. -/
theorem C12_consume (op : Char) (t : Token) (rest : List Token) (inp out err : List Char) :
    consume op ⟨t :: rest, inp, out, err⟩ =
        (if t.kind = .TK_RESERVED ∧ str0 t.str = op then .ret true ⟨rest, inp, out, err⟩
         else .ret false ⟨t :: rest, inp, out, err⟩) ∧
      (t.kind ≠ .TK_RESERVED →
        consume op ⟨t :: rest, inp, out, err⟩ = .ret false ⟨t :: rest, inp, out, err⟩) := by
  constructor
  · by_cases h : t.kind = .TK_RESERVED ∧ str0 t.str = op
    · rw [if_pos h, consume_true _ _ _ _ _ _ h]
    · rw [if_neg h, consume_false _ _ _ _ _ _ h]
  · intro h
    exact consume_false _ _ _ _ _ _ fun h1 => h h1.1

/-- The claim C12 at the cursor of `+2`: `consume('+')` moves to the number,
`consume('-')` stays, and on the number `consume('+')` stays. -/
theorem C12_consume_witness :
    consume '+' ⟨[⟨.TK_RESERVED, 0, "+2".toList⟩, ⟨.TK_NUM, 2, "2".toList⟩, ⟨.TK_EOF, 0, []⟩],
        "+2".toList, [], []⟩ =
      .ret true ⟨[⟨.TK_NUM, 2, "2".toList⟩, ⟨.TK_EOF, 0, []⟩], "+2".toList, [], []⟩ ∧
    consume '-' ⟨[⟨.TK_RESERVED, 0, "+2".toList⟩, ⟨.TK_NUM, 2, "2".toList⟩, ⟨.TK_EOF, 0, []⟩],
        "+2".toList, [], []⟩ =
      .ret false ⟨[⟨.TK_RESERVED, 0, "+2".toList⟩, ⟨.TK_NUM, 2, "2".toList⟩, ⟨.TK_EOF, 0, []⟩],
        "+2".toList, [], []⟩ ∧
    consume '+' ⟨[⟨.TK_NUM, 2, "2".toList⟩, ⟨.TK_EOF, 0, []⟩], "+2".toList, [], []⟩ =
      .ret false ⟨[⟨.TK_NUM, 2, "2".toList⟩, ⟨.TK_EOF, 0, []⟩], "+2".toList, [], []⟩ :=
  ⟨(C12_consume '+' ⟨.TK_RESERVED, 0, "+2".toList⟩ _ _ _ _).1,
    (C12_consume '-' ⟨.TK_RESERVED, 0, "+2".toList⟩ _ _ _ _).1,
    (C12_consume '+' ⟨.TK_NUM, 2, "2".toList⟩ _ _ _ _).2 (by decide)⟩

theorem drop_length_sub_of_suffix (loc inp : List Char) (h : loc <:+ inp) :
    inp.drop (inp.length - loc.length) = loc := by
  obtain ⟨pre, rfl⟩ := h
  simp

/-- C13: at a token `t` of a lexed input, `expect_number` returns the value of
`t` and moves the cursor to its successor when `t` is a Number; otherwise it
exits with status 1 through `error_at`, writing the input, a newline, the
padding `%*s` of width `k`, the caret and `expected a number`, where `k` is the
offset at which the text of `t` begins in the input, and `k` is the length of
the input when `t` is the end-of-file token. -/
theorem C13_expect_number (input out err : List Char) (ts pre rest : List Token) (t : Token)
    (hlex : tokens_of input = some ts) (hts : ts = pre ++ t :: rest) :
    (t.kind = .TK_NUM →
      expect_number ⟨t :: rest, input, out, err⟩ = .ret t.val ⟨rest, input, out, err⟩) ∧
    (t.kind ≠ .TK_NUM →
      ∃ k, k ≤ input.length ∧ input.drop k = t.str ∧
        (t.kind = .TK_EOF → k = input.length) ∧
        expect_number ⟨t :: rest, input, out, err⟩ =
          .exit 1 ⟨t :: rest, input, out,
            err ++ (input ++ "\n".toList) ++ fmt_pad k " ".toList ++ "^ ".toList
              ++ "expected a number".toList ++ "\n".toList⟩) := by
  have hmem : t ∈ ts := by simp [hts]
  refine ⟨fun h => expect_number_ok _ _ _ _ _ h, fun h => ?_⟩
  have hsuf := tokens_of_suffix input ts hlex t hmem
  refine ⟨input.length - t.str.length, Nat.sub_le _ _,
    drop_length_sub_of_suffix _ _ hsuf, ?_, ?_⟩
  · intro he
    rw [(tokens_of_kinds input ts hlex t hmem).2.2 he]
    rfl
  · rw [expect_number_fail _ _ _ _ _ h]
    have hv : vformat "expected a number".toList [] = some "expected a number".toList := by rfl
    simp only [error_at, hv]

/-- The claim C13 at the inputs `1+` and `1+ `: the offending token is the
end-of-file token, at offsets 2 and 3. -/
theorem C13_expect_number_witness :
    (∃ k, k ≤ "1+".toList.length ∧ "1+".toList.drop k = [] ∧
        (TokenKind.TK_EOF = .TK_EOF → k = 2) ∧
        expect_number ⟨[⟨.TK_EOF, 0, []⟩], "1+".toList, [], []⟩ =
          .exit 1 ⟨[⟨.TK_EOF, 0, []⟩], "1+".toList, [],
            [] ++ ("1+".toList ++ "\n".toList) ++ fmt_pad k " ".toList ++ "^ ".toList
              ++ "expected a number".toList ++ "\n".toList⟩) ∧
      (compile "1+").err = "1+\n  ^ expected a number\n".toList ∧
      (compile "1+ ").err = "1+ \n   ^ expected a number\n".toList ∧
      expect_number ⟨[⟨.TK_NUM, 1, "1+".toList⟩, ⟨.TK_RESERVED, 0, "+".toList⟩,
          ⟨.TK_EOF, 0, []⟩], "1+".toList, [], []⟩ =
        .ret 1 ⟨[⟨.TK_RESERVED, 0, "+".toList⟩, ⟨.TK_EOF, 0, []⟩], "1+".toList, [], []⟩ :=
  ⟨(C13_expect_number "1+".toList [] []
      [⟨.TK_NUM, 1, "1+".toList⟩, ⟨.TK_RESERVED, 0, "+".toList⟩, ⟨.TK_EOF, 0, []⟩]
      [⟨.TK_NUM, 1, "1+".toList⟩, ⟨.TK_RESERVED, 0, "+".toList⟩] [] ⟨.TK_EOF, 0, []⟩
      (by rfl) (by rfl)).2 (by decide),
    by rfl, by rfl,
    (C13_expect_number "1+".toList [] []
      [⟨.TK_NUM, 1, "1+".toList⟩, ⟨.TK_RESERVED, 0, "+".toList⟩, ⟨.TK_EOF, 0, []⟩]
      [] [⟨.TK_RESERVED, 0, "+".toList⟩, ⟨.TK_EOF, 0, []⟩] ⟨.TK_NUM, 1, "1+".toList⟩
      (by rfl) (by rfl)).1 rfl⟩

/-! ## One token per lexeme -/

theorem lexeme_starts_after_digit (rest : List Char) :
    lexeme_starts true rest = lexeme_starts false (rest.dropWhile isdigit) := by
  induction rest with
  | nil => rfl
  | cons c rest ih =>
    by_cases hc : isdigit c = true
    · have hop := isdigit_not_op c hc
      have h1 : c ≠ '+' := fun h => hop (Or.inl h)
      have h2 : c ≠ '-' := fun h => hop (Or.inr h)
      simp [lexeme_starts, List.dropWhile_cons, hc, h1, h2, ih]
    · simp [lexeme_starts, List.dropWhile_cons, hc]

theorem isspace_not_op (c : Char) (h : isspace c = true) : ¬(c = '+' ∨ c = '-') := by
  rintro (rfl | rfl) <;> revert h <;> decide

theorem to_int_small (v : Nat) (h : v ≤ 2 ^ 31 - 1) :
    to_int (min (v : Int) LONG_MAX) = v := by
  have h1 : (v : Int) ≤ 2 ^ 31 - 1 := by
    have : ((v : Nat) : Int) ≤ ((2 ^ 31 - 1 : Nat) : Int) := by exact_mod_cast h
    simpa using this
  have h2 : min (v : Int) LONG_MAX = v := by
    apply min_eq_left
    unfold LONG_MAX
    omega
  rw [h2]
  unfold to_int
  have h0 : (0 : Int) ≤ v := Int.natCast_nonneg v
  omega

/-- The tokens before end-of-file are the lexemes of the input, in order, and
every Number token has the clamped and wrapped value of its run of digits. -/
theorem tokens_of_lexemes (p : List Char) (ts : List Token) (h : tokens_of p = some ts) :
    ∃ front, ts = front ++ [new_token .TK_EOF []] ∧
      front.map (fun t => (t.kind, t.str)) =
        (lexeme_starts false p).map (fun q => (lexeme_kind q, q)) ∧
      ∀ t ∈ front, t.kind = .TK_NUM →
        t.val = to_int (min (decval (t.str.takeWhile isdigit) : Int) LONG_MAX) := by
  revert p ts
  apply tokens_of_induction
  · exact ⟨[], rfl, rfl, by simp⟩
  · intro c rest ts hs _ ih
    obtain ⟨front, hf, hm, hv⟩ := ih
    refine ⟨front, hf, ?_, hv⟩
    have hop := isspace_not_op c hs
    have h1 : c ≠ '+' := fun h => hop (Or.inl h)
    have h2 : c ≠ '-' := fun h => hop (Or.inr h)
    have hd := isspace_not_isdigit c hs
    simp [lexeme_starts, h1, h2, hd, hm]
  · intro c rest ts _ hop _ ih
    obtain ⟨front, hf, hm, hv⟩ := ih
    refine ⟨new_token .TK_RESERVED (c :: rest) :: front, by rw [hf]; rfl, ?_, ?_⟩
    · have hd : isdigit c = false := by rcases hop with rfl | rfl <;> rfl
      have hk : lexeme_kind (c :: rest) = .TK_RESERVED := by
        simp only [lexeme_kind, str0, List.headD_cons, if_pos hop]
      have hs : lexeme_starts false (c :: rest) = (c :: rest) :: lexeme_starts false rest := by
        rcases hop with rfl | rfl <;> rfl
      rw [hs]
      simp only [List.map_cons, hm, hk]
      rfl
    · intro t ht hk
      rcases List.mem_cons.1 ht with rfl | ht
      · cases hk
      · exact hv t ht hk
  · intro c rest ts _ hop hd _ ih
    obtain ⟨front, hf, hm, hv⟩ := ih
    refine ⟨num_token (c :: rest) :: front, by rw [hf]; rfl, ?_, ?_⟩
    · have hk : lexeme_kind (c :: rest) = .TK_NUM := by
        simp only [lexeme_kind, str0, List.headD_cons, if_neg hop]
      have hs : lexeme_starts false (c :: rest) =
          (c :: rest) :: lexeme_starts false (rest.dropWhile isdigit) := by
        rw [← lexeme_starts_after_digit]
        simp [lexeme_starts, hd]
      rw [hs]
      simp only [List.map_cons, hm, hk]
      rfl
    · intro t ht hk
      rcases List.mem_cons.1 ht with rfl | ht
      · rfl
      · exact hv t ht hk

theorem lexeme_starts_count_op (p : List Char) : ∀ prev : Bool,
    ((lexeme_starts prev p).map lexeme_kind).count .TK_RESERVED =
      p.countP (fun c => c = '+' ∨ c = '-') := by
  induction p with
  | nil =>
    intro prev
    rfl
  | cons c rest ih =>
    intro prev
    by_cases hop : c = '+' ∨ c = '-'
    · have hk : lexeme_kind (c :: rest) = .TK_RESERVED := by
        simp only [lexeme_kind, str0, List.headD_cons, if_pos hop]
      have hs : lexeme_starts prev (c :: rest) =
          (c :: rest) :: lexeme_starts (isdigit c) rest := by
        rcases hop with rfl | rfl <;> rfl
      rw [hs, List.map_cons, hk, List.count_cons_self, ih, List.countP_cons_of_pos]
      simpa using hop
    · have hk : lexeme_kind (c :: rest) = .TK_NUM := by
        simp only [lexeme_kind, str0, List.headD_cons, if_neg hop]
      have h1 : c ≠ '+' := fun h => hop (Or.inl h)
      have h2 : c ≠ '-' := fun h => hop (Or.inr h)
      have hcount : List.countP (fun c => decide (c = '+' ∨ c = '-')) (c :: rest) =
          List.countP (fun c => decide (c = '+' ∨ c = '-')) rest := by
        simp [List.countP_cons, h1, h2]
      rw [hcount]
      by_cases hstart : isdigit c = true ∧ prev = false
      · have hs : lexeme_starts prev (c :: rest) =
            (c :: rest) :: lexeme_starts (isdigit c) rest := by
          simp [lexeme_starts, h1, h2, hstart.1, hstart.2]
        rw [hs, List.map_cons, hk, List.count_cons_of_ne (by decide), ih]
      · have hs : lexeme_starts prev (c :: rest) = lexeme_starts (isdigit c) rest := by
          simp only [lexeme_starts, h1, h2, hstart, false_or, if_false, List.nil_append]
        rw [hs, ih]

/-- C11: on an input made only of digits, `+`, `-` and white space, lexing
succeeds and the tokens before end-of-file are, in input order, one Reserved
token at every `+` or `-` character and one Number token at the first digit of
every maximal run of digits, and nothing else; the Reserved tokens are as many
as the operator characters, each starts with its operator, and a Number token
whose run has decimal value at most `2^31 - 1` carries exactly that value. -/
theorem C11_tokens_are_lexemes (input : String)
    (hlex : ∀ c ∈ input.toList, lexchar c = true) :
    ∃ front, tokens_of input.toList = some (front ++ [new_token .TK_EOF []]) ∧
      front.map (fun t => (t.kind, t.str)) =
        (lexeme_starts false input.toList).map (fun q => (lexeme_kind q, q)) ∧
      front.countP (fun t => t.kind = .TK_RESERVED) =
        input.toList.countP (fun c => c = '+' ∨ c = '-') ∧
      (∀ t ∈ front, t.kind = .TK_RESERVED → str0 t.str = '+' ∨ str0 t.str = '-') ∧
      ∀ t ∈ front, t.kind = .TK_NUM → decval (t.str.takeWhile isdigit) ≤ 2 ^ 31 - 1 →
        t.val = decval (t.str.takeWhile isdigit) := by
  have hsome : (tokens_of input.toList).isSome = true := by
    rw [tokens_of_isSome, List.all_eq_true]
    exact hlex
  obtain ⟨ts, hts⟩ := Option.isSome_iff_exists.1 hsome
  obtain ⟨front, hf, hm, hv⟩ := tokens_of_lexemes _ ts hts
  have hkinds := tokens_of_kinds _ ts hts
  refine ⟨front, by rw [hts, hf], hm, ?_, ?_, ?_⟩
  · have h1 := congrArg (List.map Prod.fst) hm
    simp only [List.map_map] at h1
    have h2 : front.map Token.kind = (lexeme_starts false input.toList).map lexeme_kind := h1
    rw [← lexeme_starts_count_op input.toList false, ← h2, List.count, List.countP_map]
    apply List.countP_congr
    intro t _
    simp [Function.comp]
  · intro t ht hk
    exact (hkinds t (by rw [hf]; simp [ht])).1 hk
  · intro t ht hk hsmall
    rw [hv t ht hk]
    exact to_int_small _ hsmall

/-- The claim C11 at the input `12+ 007-3`: five tokens before end-of-file, at
the offsets 0, 2, 4, 7 and 8, and the run `007` carries 7. -/
theorem C11_tokens_are_lexemes_witness :
    (∃ front, tokens_of "12+ 007-3".toList = some (front ++ [new_token .TK_EOF []]) ∧
      front.map (fun t => (t.kind, t.str)) =
        (lexeme_starts false "12+ 007-3".toList).map (fun q => (lexeme_kind q, q)) ∧
      front.countP (fun t => t.kind = .TK_RESERVED) =
        "12+ 007-3".toList.countP (fun c => c = '+' ∨ c = '-') ∧
      (∀ t ∈ front, t.kind = .TK_RESERVED → str0 t.str = '+' ∨ str0 t.str = '-') ∧
      ∀ t ∈ front, t.kind = .TK_NUM → decval (t.str.takeWhile isdigit) ≤ 2 ^ 31 - 1 →
        t.val = decval (t.str.takeWhile isdigit)) ∧
    lexeme_starts false "12+ 007-3".toList =
      ["12+ 007-3".toList, "+ 007-3".toList, "007-3".toList, "-3".toList, "3".toList] ∧
    tokens_of "12+ 007-3".toList =
      some [⟨.TK_NUM, 12, "12+ 007-3".toList⟩, ⟨.TK_RESERVED, 0, "+ 007-3".toList⟩,
        ⟨.TK_NUM, 7, "007-3".toList⟩, ⟨.TK_RESERVED, 0, "-3".toList⟩,
        ⟨.TK_NUM, 3, "3".toList⟩, ⟨.TK_EOF, 0, []⟩] ∧
    tokens_of "007".toList = some [⟨.TK_NUM, 7, "007".toList⟩, ⟨.TK_EOF, 0, []⟩] :=
  ⟨C11_tokens_are_lexemes "12+ 007-3" (by decide), by rfl, by rfl, by rfl⟩

/-! ## The value of a Number token -/

theorem to_int_clamp (v : Nat) : to_int (min (v : Int) LONG_MAX) = expected_imm v := by
  unfold expected_imm
  by_cases h : v < 2 ^ 63
  · rw [if_pos h, clamp_small v h]
    unfold to_int signed32
    norm_num
    split_ifs <;> omega
  · rw [if_neg h]
    have h1 : min (v : Int) LONG_MAX = LONG_MAX := by
      apply min_eq_right
      unfold LONG_MAX
      have : (2 : Int) ^ 63 ≤ v := by exact_mod_cast Nat.le_of_not_lt h
      omega
    rw [h1]
    rfl

theorem tokens_of_num_val (p : List Char) (ts : List Token) (h : tokens_of p = some ts) :
    ∀ t ∈ ts, t.kind = .TK_NUM →
      t.val = expected_imm (decval (t.str.takeWhile isdigit)) := by
  obtain ⟨front, hf, _, hv⟩ := tokens_of_lexemes p ts h
  intro t ht hk
  rw [hf] at ht
  rcases List.mem_append.1 ht with ht | ht
  · rw [hv t ht hk, to_int_clamp]
  · simp only [List.mem_singleton] at ht
    rw [ht] at hk
    cases hk

theorem term_code_eq (t : Term) :
    term_code t =
      if t.op = '+' then .add (expected_imm (decval t.digits))
      else .sub (expected_imm (decval t.digits)) := by
  simp only [term_code, to_int_clamp]

/-- C16: the value of every Number token is the immediate expected for the
decimal value `v` of its run of digits: `v` reduced modulo `2^32` into the
signed range when `v < 2^63`, and -1 when `v ≥ 2^63`; and on an input
`N (op M)*` the immediates printed, in order, are those of the literals. -/
theorem C16_immediates :
    (∀ (input : List Char) (ts : List Token), tokens_of input = some ts →
      ∀ t ∈ ts, t.kind = .TK_NUM →
        t.val = expected_imm (decval (t.str.takeWhile isdigit))) ∧
    (∀ (w0 n wend : List Char) (terms : List Term),
      is_space_run w0 → is_number n → (∀ t ∈ terms, t.ok) → is_space_run wend →
      (compile ⟨expr_text w0 n terms wend⟩).out =
        unlines (prologue ++
          ("  mov rax, ".toList ++ fmt_d (expected_imm (decval n))) ::
          terms.map (fun t =>
            if t.op = '+' then "  add rax, ".toList ++ fmt_d (expected_imm (decval t.digits))
            else "  sub rax, ".toList ++ fmt_d (expected_imm (decval t.digits)))
          ++ ["  ret".toList])) ∧
    (∀ v : Nat, v < 2 ^ 63 →
      -(2 : Int) ^ 31 ≤ expected_imm v ∧ expected_imm v < 2 ^ 31 ∧
        (expected_imm v - v) % 2 ^ 32 = 0) ∧
    (∀ v : Nat, 2 ^ 63 ≤ v → expected_imm v = -1) := by
  refine ⟨tokens_of_num_val, ?_, ?_, ?_⟩
  · intro w0 n wend terms hw0 hn hterms hwend
    obtain ⟨ts, hts, hwalk⟩ := lex_expr w0 n wend terms hw0 hn hterms hwend
    have hm := main_done "9cc".toList (expr_text w0 n terms wend) ts hts (by rw [hwalk])
    rw [hwalk] at hm
    have hc : compile ⟨expr_text w0 n terms wend⟩ =
        main ["9cc".toList, expr_text w0 n terms wend] := rfl
    rw [hc, hm]
    simp only [Outcome.out, Outcome.final, List.map_cons, List.map_map, Instr.line,
      to_int_clamp, List.append_assoc, List.cons_append]
    congr 4
    apply List.map_congr_left
    intro t _
    simp only [Function.comp, term_code_eq]
    split <;> rfl
  · intro v hv
    unfold expected_imm signed32
    rw [if_pos hv]
    norm_num
    split_ifs <;> omega
  · intro v hv
    unfold expected_imm
    rw [if_neg (by omega)]

/-- The claim C16 at the inputs `2147483648`, `4294967297` and
`9223372036854775808`, whose immediates are -2147483648, 1 and -1. -/
theorem C16_immediates_witness :
    (compile "2147483648").out =
        (".intel_syntax noprefix\n.globl main\nmain:\n" ++
          "  mov rax, -2147483648\n  ret\n").toList ∧
      (compile "4294967297").out =
        (".intel_syntax noprefix\n.globl main\nmain:\n" ++ "  mov rax, 1\n  ret\n").toList ∧
      (compile "9223372036854775808").out =
        (".intel_syntax noprefix\n.globl main\nmain:\n" ++ "  mov rax, -1\n  ret\n").toList ∧
      (⟨.TK_NUM, -2147483648, "2147483648".toList⟩ : Token).val =
        expected_imm (decval ("2147483648".toList.takeWhile isdigit)) ∧
      expected_imm 99999999999999999999 = -1 :=
  have hsp : is_space_run [] := fun c hc => by cases hc
  ⟨C16_immediates.2.1 [] "2147483648".toList [] [] hsp ⟨by simp, by decide⟩
      (fun t ht => by cases ht) hsp,
    C16_immediates.2.1 [] "4294967297".toList [] [] hsp ⟨by simp, by decide⟩
      (fun t ht => by cases ht) hsp,
    C16_immediates.2.1 [] "9223372036854775808".toList [] [] hsp ⟨by simp, by decide⟩
      (fun t ht => by cases ht) hsp,
    C16_immediates.1 "2147483648".toList
      [⟨.TK_NUM, -2147483648, "2147483648".toList⟩, ⟨.TK_EOF, 0, []⟩] (by rfl)
      ⟨.TK_NUM, -2147483648, "2147483648".toList⟩ (by simp) rfl,
    C16_immediates.2.2.2 99999999999999999999 (by decide)⟩

/-! ## The output at the moment of failure -/

theorem good_pairs_cons_cons (o n : Token) (rest : List Token) :
    good_pairs (o :: n :: rest) =
      if o.kind = .TK_RESERVED ∧ n.kind = .TK_NUM then (o, n) :: good_pairs rest else [] := rfl

theorem good_pairs_not_reserved (t : Token) (rest : List Token) (h : t.kind ≠ .TK_RESERVED) :
    good_pairs (t :: rest) = [] := by
  cases rest with
  | nil => rfl
  | cons n r => rw [good_pairs_cons_cons, if_neg (fun hc => h hc.1)]

theorem good_pairs_mem (ts : List Token) :
    ∀ p ∈ good_pairs ts, (p.1.kind = .TK_RESERVED ∧ p.2.kind = .TK_NUM) ∧ p.1 ∈ ts ∧ p.2 ∈ ts := by
  induction ts using length_induction with
  | _ ts ih =>
    match ts with
    | [] => intro p hp; simp [good_pairs] at hp
    | [_] => intro p hp; simp [good_pairs] at hp
    | o :: n :: rest =>
      intro p hp
      rw [good_pairs_cons_cons] at hp
      by_cases hc : o.kind = .TK_RESERVED ∧ n.kind = .TK_NUM
      · rw [if_pos hc] at hp
        rcases List.mem_cons.1 hp with rfl | hp
        · exact ⟨hc, by simp, by simp⟩
        · obtain ⟨h1, h2, h3⟩ := ih rest (by simp; omega) p hp
          exact ⟨h1, by simp [h2], by simp [h3]⟩
      · rw [if_neg hc] at hp
        cases hp

/-- The instructions the loop emits are those of the pairs at the head of the
tokens, whether the walk ends well or not. -/
theorem walk_loop_code (ts : List Token) :
    (∀ t ∈ ts, t.kind = .TK_RESERVED → t.is_op) →
    (walk_loop ts).code = (good_pairs ts).map term_instr := by
  apply walk_loop_induction (P := fun ts w =>
    (∀ t ∈ ts, t.kind = TokenKind.TK_RESERVED → t.is_op) →
    w.code = (good_pairs ts).map term_instr)
  · intro _
    rfl
  · intro t rest ht _
    rw [good_pairs_not_reserved t rest (by rw [ht]; decide)]
    rfl
  · intro t _ _
    rfl
  · intro t n rest hop hn ih hk
    rw [good_pairs_cons_cons, if_pos ⟨hop.1, hn⟩, List.map_cons,
      ← ih fun x hx => hk x (by simp [hx])]
    simp [term_instr, hop.2]
  · intro t n rest hop hn ih hk
    rw [good_pairs_cons_cons, if_pos ⟨hop.1, hn⟩, List.map_cons,
      ← ih fun x hx => hk x (by simp [hx])]
    have hne : str0 t.str ≠ '+' := by rw [hop.2]; decide
    simp [term_instr, hne]
  · intro t n rest _ hn _
    rw [good_pairs_cons_cons, if_neg (fun hc => hn hc.2)]
    rfl
  · intro t rest _ hop hk
    rw [good_pairs_not_reserved t rest (fun hr => hop (hk t (by simp) hr))]
    rfl

theorem walk_code (ts : List Token) (hk : ∀ t ∈ ts, t.kind = .TK_RESERVED → t.is_op) :
    (walk ts).code = prefix_code ts := by
  cases ts with
  | nil => rfl
  | cons t rest =>
    by_cases hn : t.kind = .TK_NUM
    · rw [walk_num t rest hn]
      simp only [prefix_code, if_pos hn]
      rw [walk_loop_code rest fun x hx => hk x (by simp [hx])]
    · rw [walk_not_num t rest hn]
      simp only [prefix_code, if_neg hn]

theorem tokens_of_walk_code (p : List Char) (ts : List Token) (h : tokens_of p = some ts) :
    (walk ts).code = prefix_code ts :=
  walk_code ts fun t ht hr => ⟨hr, (tokens_of_kinds p ts h t ht).1 hr⟩

/-- The walk over the longest well-formed prefix, closed by an end-of-file
token, ends well with the instructions of the prefix. -/
theorem walk_good_head (ts : List Token) (e : Token) (he : e.kind = .TK_EOF)
    (hk : ∀ t ∈ ts, t.kind = .TK_RESERVED → t.is_op) (hne : good_head ts ≠ []) :
    walk (good_head ts ++ [e]) = ⟨prefix_code ts, [e], .done⟩ := by
  cases ts with
  | nil => exact absurd rfl hne
  | cons n rest =>
    by_cases hn : n.kind = .TK_NUM
    · simp only [good_head, prefix_code, if_pos hn, List.cons_append]
      rw [walk_num _ _ hn, walk_loop_pairs (good_pairs rest) e _ he]
      intro p hp
      obtain ⟨⟨h1, h2⟩, h3, _⟩ := good_pairs_mem rest p hp
      exact ⟨hk p.1 (by simp [h3]) h1, h2⟩
    · simp [good_head, hn] at hne

theorem good_pairs_is_head (ts : List Token) :
    (good_pairs ts).flatMap (fun p => [p.1, p.2]) <+: ts := by
  induction ts using length_induction with
  | _ ts ih =>
    match ts with
    | [] => exact List.prefix_refl _
    | [_] => exact List.nil_prefix
    | o :: n :: rest =>
      rw [good_pairs_cons_cons]
      by_cases hc : o.kind = .TK_RESERVED ∧ n.kind = .TK_NUM
      · rw [if_pos hc]
        obtain ⟨suf, hs⟩ := ih rest (by simp; omega)
        exact ⟨suf, by simp only [List.flatMap_cons, List.cons_append, List.nil_append]; rw [hs]⟩
      · rw [if_neg hc]
        exact List.nil_prefix

theorem good_pairs_form (ts : List Token) :
    pairs_form ((good_pairs ts).flatMap (fun p => [p.1, p.2])) = true := by
  induction ts using length_induction with
  | _ ts ih =>
    match ts with
    | [] => rfl
    | [_] => rfl
    | o :: n :: rest =>
      rw [good_pairs_cons_cons]
      by_cases hc : o.kind = .TK_RESERVED ∧ n.kind = .TK_NUM
      · rw [if_pos hc]
        simp only [List.flatMap_cons, List.cons_append, List.nil_append, pairs_form,
          hc.1, hc.2, decide_True, Bool.true_and]
        exact ih rest (by simp; omega)
      · rw [if_neg hc]
        rfl

theorem good_pairs_longest (ts : List Token) :
    ∀ l, l <+: ts → pairs_form l = true →
      l.length ≤ ((good_pairs ts).flatMap (fun p => [p.1, p.2])).length := by
  induction ts using length_induction with
  | _ ts ih =>
    intro l hl hf
    match l, hl, hf with
    | [], _, _ => simp
    | [_], _, hf => simp [pairs_form] at hf
    | a :: b :: l1, hl, hf =>
      match ts, hl with
      | [], hl => simp at hl
      | [_], hl =>
        have := hl.length_le
        simp at this
      | o :: n :: rest, hl =>
        obtain ⟨suf, hs⟩ := hl
        simp only [List.cons_append, List.cons.injEq] at hs
        obtain ⟨rfl, rfl, hr⟩ := hs
        simp only [pairs_form, Bool.and_eq_true, decide_eq_true_eq] at hf
        rw [good_pairs_cons_cons, if_pos ⟨hf.1.1, hf.1.2⟩]
        have := ih rest (by simp; omega) l1 ⟨suf, hr⟩ hf.2
        simp only [List.flatMap_cons, List.cons_append, List.nil_append, List.length_cons]
        omega

theorem good_head_is_initial (ts : List Token) : good_head ts <+: ts := by
  cases ts with
  | nil => exact List.prefix_refl _
  | cons n rest =>
    by_cases hn : n.kind = .TK_NUM
    · simp only [good_head, if_pos hn]
      obtain ⟨suf, hs⟩ := good_pairs_is_head rest
      exact ⟨suf, by rw [List.cons_append, hs]⟩
    · simp only [good_head, if_neg hn]
      exact List.nil_prefix

theorem good_head_form (ts : List Token) (hne : good_head ts ≠ []) :
    expr_form (good_head ts) = true := by
  cases ts with
  | nil => exact absurd rfl hne
  | cons n rest =>
    by_cases hn : n.kind = .TK_NUM
    · have hg : good_head (n :: rest) =
          n :: (good_pairs rest).flatMap (fun p => [p.1, p.2]) := by
        simp only [good_head, if_pos hn]
      rw [hg]
      simp only [expr_form, hn, decide_True, Bool.true_and]
      exact good_pairs_form rest
    · simp [good_head, hn] at hne

theorem good_head_longest (ts l : List Token) (hl : l <+: ts) (hf : expr_form l = true) :
    l.length ≤ (good_head ts).length := by
  match l, hl, hf with
  | [], _, hf => simp [expr_form] at hf
  | a :: l1, hl, hf =>
    match ts, hl with
    | [], hl => simp at hl
    | n :: rest, hl =>
      obtain ⟨suf, hs⟩ := hl
      simp only [List.cons_append, List.cons.injEq] at hs
      obtain ⟨rfl, hr⟩ := hs
      simp only [expr_form, Bool.and_eq_true, decide_eq_true_eq] at hf
      simp only [good_head, if_pos hf.1, List.length_cons]
      have := good_pairs_longest rest l1 ⟨suf, hr⟩ hf.2
      omega

/-- C14: when the input lexes and the run then fails, standard output is the
three prologue lines followed by the instruction lines of the longest prefix
of the tokens of the form Number (Operator Number)*, whole lines only, and
nothing at all after the prologue when the first token is not a Number; any
successful run on the tokens of that prefix writes this output and then the
`  ret` line. -/
theorem C14_output_on_failure (input : String) (ts : List Token)
    (hlex : tokens_of input.toList = some ts) (hfail : (compile input).status = some 1) :
    (compile input).out = unlines (prologue ++ (prefix_code ts).map Instr.line) ∧
      (good_head ts = [] → (compile input).out = unlines prologue) ∧
      (∀ (b : String) (tb : List Token), tokens_of b.toList = some tb →
        tb.map Token.key = (good_head ts ++ [new_token .TK_EOF []]).map Token.key →
        good_head ts ≠ [] →
        (compile b).status = some 0 ∧
          (compile b).out = (compile input).out ++ "  ret\n".toList) ∧
      good_head ts <+: ts ∧
      (good_head ts ≠ [] → expr_form (good_head ts) = true) ∧
      (∀ l, l <+: ts → expr_form l = true → l.length ≤ (good_head ts).length) := by
  have hk : ∀ t ∈ ts, t.kind = .TK_RESERVED → t.is_op :=
    fun t ht hr => ⟨hr, (tokens_of_kinds _ ts hlex t ht).1 hr⟩
  have hnd : (walk ts).stop ≠ .done := by
    intro hd
    have hs := main_status "9cc".toList input.toList
    rw [hlex] at hs
    simp only [hd, if_true] at hs
    unfold compile at hfail
    rw [hs] at hfail
    cases hfail
  have hout : (compile input).out = unlines (prologue ++ (prefix_code ts).map Instr.line) := by
    have ho := main_out "9cc".toList input.toList
    rw [hlex] at ho
    simp only [hnd, if_false, List.append_nil] at ho
    rw [compile, ho, walk_code ts hk]
  refine ⟨hout, ?_, ?_, good_head_is_initial ts, good_head_form ts,
    fun l hl hf => good_head_longest ts l hl hf⟩
  · intro he
    rw [hout]
    cases ts with
    | nil => rfl
    | cons n rest =>
      by_cases hn : n.kind = .TK_NUM
      · simp [good_head, hn] at he
      · simp [prefix_code, hn]
  · intro b tb hb hkey hne
    obtain ⟨h1, h2⟩ := walk_congr tb _ hkey
    rw [walk_good_head ts _ rfl hk hne] at h1 h2
    have hd : (walk tb).stop = .done := h2.2 rfl
    have hs := main_status "9cc".toList b.toList
    have ho := main_out "9cc".toList b.toList
    rw [hb] at hs ho
    simp only [hd, if_true] at hs ho
    refine ⟨hs, ?_⟩
    rw [hout, compile, ho, h1, unlines_append]
    rfl

/-- The claim C14 at the input `1+2+`: the run fails, and standard output is
the prologue, `  mov rax, 1` and `  add rax, 2`; the run on `1+2` writes the
same and then `  ret`. -/
theorem C14_output_on_failure_witness :
    (compile "1+2+").status = some 1 ∧
      (compile "1+2+").out =
        (".intel_syntax noprefix\n.globl main\nmain:\n" ++
          "  mov rax, 1\n  add rax, 2\n").toList ∧
      (compile "1+2").out = (compile "1+2+").out ++ "  ret\n".toList ∧
      (compile "+").out = ".intel_syntax noprefix\n.globl main\nmain:\n".toList :=
  have h := C14_output_on_failure "1+2+"
    [⟨.TK_NUM, 1, "1+2+".toList⟩, ⟨.TK_RESERVED, 0, "+2+".toList⟩,
      ⟨.TK_NUM, 2, "2+".toList⟩, ⟨.TK_RESERVED, 0, "+".toList⟩, ⟨.TK_EOF, 0, []⟩]
    (by rfl) (by rfl)
  have h0 := C14_output_on_failure "+"
    [⟨.TK_RESERVED, 0, "+".toList⟩, ⟨.TK_EOF, 0, []⟩] (by rfl) (by rfl)
  ⟨by rfl, h.1,
    (h.2.2.1 "1+2"
      [⟨.TK_NUM, 1, "1+2".toList⟩, ⟨.TK_RESERVED, 0, "+2".toList⟩,
        ⟨.TK_NUM, 2, "2".toList⟩, ⟨.TK_EOF, 0, []⟩]
      (by rfl) (by rfl) (by decide)).2,
    h0.2.1 (by rfl)⟩

/-! ## Lexing comes first -/

/-- C15: when the input holds a character the lexer does not accept, whatever
stands before and after it, nothing is written to standard output, not even
the prologue, and the error stream holds `invalid token` and its newline, not
the diagnostic `expected a number`, also when the text before the character is
a valid prefix of terms or already breaks the grammar. -/
theorem C15_lexing_first (pre post : List Char) (c : Char) (hc : lexchar c = false) :
    (compile ⟨pre ++ c :: post⟩).out = [] ∧
      (compile ⟨pre ++ c :: post⟩).err = "invalid token\n".toList ∧
      (compile ⟨pre ++ c :: post⟩).status = some 1 ∧
      ¬ number_expected_message (pre ++ c :: post) (compile ⟨pre ++ c :: post⟩).err := by
  have hnone : tokens_of (pre ++ c :: post) = none := by
    rw [tokens_of_eq_none_iff]
    exact ⟨c, by simp, hc⟩
  have hm := main_lex_error "9cc".toList (pre ++ c :: post) hnone
  have hcm : compile ⟨pre ++ c :: post⟩ = main ["9cc".toList, pre ++ c :: post] := rfl
  rw [hcm, hm]
  refine ⟨rfl, rfl, rfl, ?_⟩
  rintro ⟨k, hk⟩
  have hl := congrArg List.length hk
  have h1 : (Outcome.exit 1 ⟨[], pre ++ c :: post, [], "invalid token\n".toList⟩ :
      Outcome Int).err.length = 14 := rfl
  have h2 : "^ expected a number\n".toList.length = 20 := rfl
  rw [h1] at hl
  simp only [List.length_append, h2] at hl
  omega

/-- The claim C15 at the inputs `1+2a` and `+a`. -/
theorem C15_lexing_first_witness :
    ((compile "1+2a").out = [] ∧ (compile "1+2a").err = "invalid token\n".toList ∧
        (compile "1+2a").status = some 1 ∧
        ¬ number_expected_message "1+2a".toList (compile "1+2a").err) ∧
      ((compile "+a").out = [] ∧ (compile "+a").err = "invalid token\n".toList ∧
        (compile "+a").status = some 1 ∧
        ¬ number_expected_message "+a".toList (compile "+a").err) ∧
      (compile "+").err = "+\n ^ expected a number\n".toList :=
  ⟨C15_lexing_first "1+2".toList [] 'a' (by decide),
    C15_lexing_first "+".toList [] 'a' (by decide), by rfl⟩

/-! ## Safety of the cursor -/

theorem cursor_ok_advance (p : List Char) (ts pre rest : List Token) (t : Token)
    (hlex : tokens_of p = some ts) (hts : ts = pre ++ t :: rest) (ht : t.kind ≠ .TK_EOF)
    (inp out err : List Char) : cursor_ok ts ⟨rest, inp, out, err⟩ := by
  obtain ⟨front, hf, _⟩ := tokens_of_shape p ts hlex
  cases rest with
  | nil =>
    exfalso
    have h1 : ts.getLast? = some t := by rw [hts]; simp
    have h2 : ts.getLast? = some (new_token .TK_EOF []) := by rw [hf]; simp
    rw [h1] at h2
    simp only [Option.some.injEq] at h2
    rw [h2] at ht
    exact ht rfl
  | cons t1 rest1 =>
    exact ⟨pre ++ [t], t1, rest1, by rw [hts]; simp, rfl⟩

theorem error_step_ok {α : Type} (ts : List Token) (s : State) (fmt : List Char)
    (args : List Arg) (h : ∀ c ∈ fmt, c ≠ '%') :
    step_ok ts s (error fmt args s : Outcome α) := by
  simp only [error, vformat_plain fmt args h, step_ok]

theorem error_at_step_ok {α : Type} (ts : List Token) (s : State) (loc : List Char) :
    step_ok ts s (error_at loc "expected a number".toList [] s : Outcome α) := by
  have hv : vformat "expected a number".toList [] = some "expected a number".toList := by rfl
  simp only [error_at, hv, step_ok]

/-- From a state whose cursor designates a token of the lexed sequence, each of
the four cursor operations keeps the cursor inside the sequence. -/
theorem cursor_ops_ok (p : List Char) (ts : List Token) (hlex : tokens_of p = some ts)
    (s : State) (hs : cursor_ok ts s) :
    step_ok ts s (at_eof s) ∧ (∀ op, step_ok ts s (consume op s)) ∧
      (∀ op, step_ok ts s (expect op s)) ∧ step_ok ts s (expect_number s) := by
  obtain ⟨pre, t, rest, hts, hcur⟩ := hs
  obtain ⟨toks, inp, out, err⟩ := s
  simp only at hcur
  subst hcur
  have hmem : t ∈ ts := by rw [hts]; simp
  have hself : cursor_ok ts ⟨t :: rest, inp, out, err⟩ := ⟨pre, t, rest, hts, rfl⟩
  refine ⟨?_, fun op => ?_, fun op => ?_, ?_⟩
  · rw [at_eof_cons]
    exact ⟨hself, Or.inl rfl⟩
  · by_cases h : t.kind = .TK_RESERVED ∧ str0 t.str = op
    · rw [consume_true _ _ _ _ _ _ h]
      exact ⟨cursor_ok_advance p ts pre rest t hlex hts (by rw [h.1]; decide) inp out err,
        Or.inr rfl⟩
    · rw [consume_false _ _ _ _ _ _ h]
      exact ⟨hself, Or.inl rfl⟩
  · by_cases h : t.kind = .TK_RESERVED ∧ str0 t.str = op
    · rw [expect_ok _ _ _ _ _ _ h]
      exact ⟨cursor_ok_advance p ts pre rest t hlex hts (by rw [h.1]; decide) inp out err,
        Or.inr rfl⟩
    · rw [expect_fail _ _ _ _ _ _ h]
      exact error_step_ok ts _ _ _ (tokens_of_no_percent p ts hlex t hmem)
  · by_cases h : t.kind = .TK_NUM
    · rw [expect_number_ok _ _ _ _ _ h]
      exact ⟨cursor_ok_advance p ts pre rest t hlex hts (by rw [h]; decide) inp out err,
        Or.inr rfl⟩
    · rw [expect_number_fail _ _ _ _ _ h]
      exact error_at_step_ok ts _ _

/-- Where the walk of the loop stops, when the cursor is not null: at a token
of the list it walked. -/
theorem walk_loop_cursor (ts : List Token) :
    (walk_loop ts).stop ≠ .null →
    ∃ pre t rest, ts = pre ++ t :: rest ∧ (walk_loop ts).cursor = t :: rest := by
  apply walk_loop_induction (P := fun ts w => w.stop ≠ Stop.null →
    ∃ (pre : List Token) (t : Token) (rest : List Token),
      ts = pre ++ t :: rest ∧ w.cursor = t :: rest)
  · intro h
    exact absurd rfl h
  · intro t rest _ _
    exact ⟨[], t, rest, rfl, rfl⟩
  · intro t _ h
    exact absurd rfl h
  · intro t n rest _ _ ih h
    obtain ⟨pre, t1, rest1, h1, h2⟩ := ih h
    exact ⟨t :: n :: pre, t1, rest1, by rw [h1]; rfl, h2⟩
  · intro t n rest _ _ ih h
    obtain ⟨pre, t1, rest1, h1, h2⟩ := ih h
    exact ⟨t :: n :: pre, t1, rest1, by rw [h1]; rfl, h2⟩
  · intro t n rest _ _ _
    exact ⟨[t], n, rest, rfl, rfl⟩
  · intro t rest _ _ _
    exact ⟨[], t, rest, rfl, rfl⟩

theorem walk_cursor (ts : List Token) (h : (walk ts).stop ≠ .null) :
    ∃ pre t rest, ts = pre ++ t :: rest ∧ (walk ts).cursor = t :: rest := by
  cases ts with
  | nil => exact absurd rfl h
  | cons t rest =>
    by_cases hn : t.kind = .TK_NUM
    · rw [walk_num t rest hn] at h ⊢
      obtain ⟨pre, t1, rest1, h1, h2⟩ := walk_loop_cursor rest h
      exact ⟨t :: pre, t1, rest1, by rw [h1]; rfl, h2⟩
    · rw [walk_not_num t rest hn]
      exact ⟨[], t, rest, rfl, rfl⟩

/-- The run on a lexed input ends by returning or exiting, in a state whose
cursor is where the walk stopped, at a token of the sequence. -/
theorem main_final (a0 input : List Char) (ts : List Token) (hlex : tokens_of input = some ts) :
    ∃ s, (main [a0, input]).final = some s ∧ s.token = (walk ts).cursor ∧
      cursor_ok ts s := by
  have hok : ∃ pre t rest, ts = pre ++ t :: rest ∧ (walk ts).cursor = t :: rest :=
    walk_cursor ts (walk_not_null ts (tokens_of_has_eof input ts hlex))
  rcases main_cases a0 input with
    ⟨hts, _⟩ | ⟨ts1, hts, _, hm⟩ | ⟨ts1, loc, hts, _, hm⟩ | ⟨ts1, loc, hts, _, hm⟩
  · rw [hlex] at hts
    cases hts
  all_goals
    rw [hlex] at hts
    cases hts
    rw [hm]
    exact ⟨_, rfl, rfl, hok⟩

theorem cursor_at_eof (p : List Char) (ts : List Token) (hlex : tokens_of p = some ts)
    (e : Token) (rest : List Token) (inp out err : List Char)
    (hs : cursor_ok ts ⟨e :: rest, inp, out, err⟩) (he : e.kind = .TK_EOF) :
    at_eof ⟨e :: rest, inp, out, err⟩ = .ret true ⟨e :: rest, inp, out, err⟩ ∧
      (∀ op, consume op ⟨e :: rest, inp, out, err⟩ = .ret false ⟨e :: rest, inp, out, err⟩) ∧
      (∀ op, ∃ s1, expect op ⟨e :: rest, inp, out, err⟩ = .exit 1 s1 ∧ s1.token = e :: rest) ∧
      ∃ s1, expect_number ⟨e :: rest, inp, out, err⟩ = .exit 1 s1 ∧ s1.token = e :: rest := by
  obtain ⟨pre, t, rest1, hts, hcur⟩ := hs
  simp only [List.cons.injEq] at hcur
  obtain ⟨rfl, rfl⟩ := hcur
  have hmem : e ∈ ts := by rw [hts]; simp
  have hres : ¬(e.kind = .TK_RESERVED ∧ str0 e.str = '+') := by rw [he]; simp
  refine ⟨by rw [at_eof_cons, he]; rfl, fun op => ?_, fun op => ?_, ?_⟩
  · exact consume_false _ _ _ _ _ _ (by rw [he]; simp)
  · rw [expect_fail _ _ _ _ _ _ (by rw [he]; simp)]
    simp only [error, vformat_plain _ _ (tokens_of_no_percent p ts hlex e hmem)]
    exact ⟨_, rfl, rfl⟩
  · rw [expect_number_fail _ _ _ _ _ (by rw [he]; decide)]
    have hv : vformat "expected a number".toList [] = some "expected a number".toList := by rfl
    simp only [error_at, hv]
    exact ⟨_, rfl, rfl⟩

/-- C17: on an input that lexes to `ts`, the cursor designates a token of `ts`
when `main` starts walking; from any state in which it does, `at_eof`,
`consume`, `expect` and `expect_number` never find a null cursor, and leave the
cursor where it was or at the immediate successor, again at a token of `ts`;
at the end-of-file token `at_eof` is true, `consume` returns false and `expect`
and `expect_number` exit, so the cursor never passes it; and the run ends by
returning or exiting, never in undefined behaviour, with the cursor at a token
of `ts`. -/
theorem C17_cursor_in_bounds (input : String) (ts : List Token)
    (hlex : tokens_of input.toList = some ts) :
    cursor_ok ts ⟨ts, input.toList, [], []⟩ ∧
      (∀ s, cursor_ok ts s →
        step_ok ts s (at_eof s) ∧ (∀ op, step_ok ts s (consume op s)) ∧
          (∀ op, step_ok ts s (expect op s)) ∧ step_ok ts s (expect_number s)) ∧
      (∀ (e : Token) (rest : List Token) (inp out err : List Char),
        cursor_ok ts ⟨e :: rest, inp, out, err⟩ → e.kind = .TK_EOF →
        at_eof ⟨e :: rest, inp, out, err⟩ = .ret true ⟨e :: rest, inp, out, err⟩ ∧
          (∀ op, consume op ⟨e :: rest, inp, out, err⟩ =
            .ret false ⟨e :: rest, inp, out, err⟩) ∧
          (∀ op, ∃ s1, expect op ⟨e :: rest, inp, out, err⟩ = .exit 1 s1 ∧
            s1.token = e :: rest) ∧
          ∃ s1, expect_number ⟨e :: rest, inp, out, err⟩ = .exit 1 s1 ∧
            s1.token = e :: rest) ∧
      ∃ s, (compile input).final = some s ∧ cursor_ok ts s := by
  refine ⟨?_, fun s hs => cursor_ops_ok _ ts hlex s hs,
    fun e rest inp out err hs he => cursor_at_eof _ ts hlex e rest inp out err hs he, ?_⟩
  · obtain ⟨front, hf, _⟩ := tokens_of_shape _ ts hlex
    cases front with
    | nil => exact ⟨[], new_token .TK_EOF [], [], hf, hf⟩
    | cons t front1 => exact ⟨[], t, front1 ++ [new_token .TK_EOF []], hf, hf⟩
  · obtain ⟨s, h1, _, h3⟩ := main_final "9cc".toList input.toList ts hlex
    exact ⟨s, h1, h3⟩

/-- The claim C17 at the input `1+`: the run ends with the cursor at the
end-of-file token, where `consume` returns false and `expect_number` exits. -/
theorem C17_cursor_in_bounds_witness :
    (compile "1+").final =
        some ⟨[⟨.TK_EOF, 0, []⟩], "1+".toList,
          ".intel_syntax noprefix\n.globl main\nmain:\n  mov rax, 1\n".toList,
          "1+\n  ^ expected a number\n".toList⟩ ∧
      (∃ s, (compile "1+").final = some s ∧
        cursor_ok [⟨.TK_NUM, 1, "1+".toList⟩, ⟨.TK_RESERVED, 0, "+".toList⟩, ⟨.TK_EOF, 0, []⟩]
          s) ∧
      (∀ op, consume op ⟨[⟨.TK_EOF, 0, []⟩], "1+".toList, [], []⟩ =
        .ret false ⟨[⟨.TK_EOF, 0, []⟩], "1+".toList, [], []⟩) :=
  have h := C17_cursor_in_bounds "1+"
    [⟨.TK_NUM, 1, "1+".toList⟩, ⟨.TK_RESERVED, 0, "+".toList⟩, ⟨.TK_EOF, 0, []⟩] (by rfl)
  ⟨by rfl, h.2.2.2,
    (h.2.2.1 ⟨.TK_EOF, 0, []⟩ [] "1+".toList [] []
      ⟨[⟨.TK_NUM, 1, "1+".toList⟩, ⟨.TK_RESERVED, 0, "+".toList⟩], ⟨.TK_EOF, 0, []⟩, [],
        rfl, rfl⟩ rfl).2.1⟩

/-! ## Termination -/

theorem tokens_of_length (p : List Char) (ts : List Token) (h : tokens_of p = some ts) :
    ts.length ≤ p.length + 1 := by
  revert p ts
  apply tokens_of_induction
  · simp
  · intro c rest ts _ _ ih
    simp only [List.length_cons]
    omega
  · intro c rest ts _ _ _ ih
    simp only [List.length_cons]
    omega
  · intro c rest ts _ _ _ _ ih
    have := (List.dropWhile_suffix (l := rest) isdigit).length_le
    simp only [List.length_cons]
    omega

theorem finish_ne_timeout (w : Walk) (s : State) : w.finish s ≠ .timeout := by
  obtain ⟨code, cursor, stop⟩ := w
  cases stop with
  | done => simp [Walk.finish]
  | number_expected loc =>
    simp only [Walk.finish, error_at]
    split <;> simp
  | minus_expected loc =>
    simp only [Walk.finish, error]
    split <;> simp
  | null => simp [Walk.finish]

/-- C18: `tokenize` ends on every input, returning its tokens or exiting, and
gives the same result with any fuel from the length of the input on; the digit
branch moves the scan position forward; the tokens, end-of-file included, are
at most the length of the input plus one; the loop of `main` never runs out of
fuel when it has one unit per token; and the run ends with the cursor `k`
tokens into the sequence, for a `k` of at most the length of the input plus
one. -/
theorem C18_termination (input : String) :
    (∀ s, (∃ ts, tokenize input.toList s = .ret ts s) ∨
      ∃ s1, tokenize input.toList s = .exit 1 s1) ∧
    (∀ s fuel, input.toList.length ≤ fuel →
      tokenize_loop fuel input.toList s = tokenize input.toList s) ∧
    (∀ c rest, isdigit c = true → (strtol (c :: rest)).2.length < (c :: rest).length) ∧
    (∀ (toks : List Token) (fuel : Nat) (inp out err : List Char), toks.length ≤ fuel →
      main_loop fuel ⟨toks, inp, out, err⟩ ≠ .timeout) ∧
    (∀ ts, tokens_of input.toList = some ts →
      ts.length ≤ input.toList.length + 1 ∧
      ∃ s k, (compile input).final = some s ∧ k ≤ input.toList.length + 1 ∧
        s.token = ts.drop k) ∧
    compile input ≠ .timeout := by
  refine ⟨fun s => ?_, fun s fuel h => tokenize_loop_fuel s fuel _ h, fun c rest h => ?_,
    fun toks fuel inp out err h => ?_, fun ts hts => ?_, ?_⟩
  · rcases tokenize_cases input.toList with ⟨ts, h⟩ | h
    · exact Or.inl ⟨ts, h s⟩
    · exact Or.inr ⟨_, h s⟩
  · have := strtol_snd_length_le c rest h
    simp only [List.length_cons]
    omega
  · rw [main_loop_walk toks fuel inp out err h]
    exact finish_ne_timeout _ _
  · have hlen := tokens_of_length _ ts hts
    refine ⟨hlen, ?_⟩
    obtain ⟨s, h1, h2, ⟨pre, t, rest, h3, h4⟩⟩ := main_final "9cc".toList input.toList ts hts
    refine ⟨s, pre.length, h1, ?_, ?_⟩
    · have h5 := congrArg List.length h3
      simp only [List.length_append, List.length_cons] at h5
      omega
    · rw [h4, h3]
      simp
  · unfold compile
    rcases main_cases "9cc".toList input.toList with
      ⟨_, hm⟩ | ⟨_, _, _, hm⟩ | ⟨_, _, _, _, hm⟩ | ⟨_, _, _, _, hm⟩ <;>
    · rw [hm]
      simp

/-- The claim C18 at the input `1+2`: four tokens for three characters, and
the run ends three tokens into the sequence, at end-of-file. -/
theorem C18_termination_witness :
    ([⟨.TK_NUM, 1, "1+2".toList⟩, ⟨.TK_RESERVED, 0, "+2".toList⟩, ⟨.TK_NUM, 2, "2".toList⟩,
        ⟨.TK_EOF, 0, []⟩] : List Token).length ≤ "1+2".toList.length + 1 ∧
      (∃ s k, (compile "1+2").final = some s ∧ k ≤ "1+2".toList.length + 1 ∧
        s.token = ([⟨.TK_NUM, 1, "1+2".toList⟩, ⟨.TK_RESERVED, 0, "+2".toList⟩,
          ⟨.TK_NUM, 2, "2".toList⟩, ⟨.TK_EOF, 0, []⟩] : List Token).drop k) ∧
      (strtol "2".toList).2.length < "2".toList.length ∧
      compile "1+2" ≠ .timeout :=
  have h := C18_termination "1+2"
  have h4 := h.2.2.2.2.1
    [⟨.TK_NUM, 1, "1+2".toList⟩, ⟨.TK_RESERVED, 0, "+2".toList⟩, ⟨.TK_NUM, 2, "2".toList⟩,
      ⟨.TK_EOF, 0, []⟩] (by rfl)
  ⟨h4.1, h4.2, h.2.2.1 '2' [] (by decide), h.2.2.2.2.2⟩

/-! ## Which diagnostic a trailing operator ends in -/

theorem number_follows_pairs_stop (t : Token) (rest : List Token)
    (h : good_pairs (t :: rest) = []) :
    number_follows_pairs (t :: rest) = decide (t.kind = .TK_NUM) := by
  simp only [number_follows_pairs, h, List.flatMap_nil, List.length_nil, List.drop_zero]

theorem number_follows_pairs_pair (o n : Token) (rest : List Token)
    (h : o.kind = .TK_RESERVED ∧ n.kind = .TK_NUM) :
    number_follows_pairs (o :: n :: rest) = number_follows_pairs rest := by
  simp only [number_follows_pairs, good_pairs_cons_cons, if_pos h, List.flatMap_cons,
    List.cons_append, List.nil_append, List.length_cons, List.drop_succ_cons]

/-- The loop stops in `expect('-')` exactly when a Number follows the pairs at
the head of its tokens. -/
theorem walk_loop_minus_iff (ts : List Token) :
    (∀ t ∈ ts, t.kind = .TK_RESERVED → t.is_op) →
    ((∃ loc, (walk_loop ts).stop = .minus_expected loc) ↔ number_follows_pairs ts = true) := by
  apply walk_loop_induction (P := fun ts w =>
    (∀ t ∈ ts, t.kind = TokenKind.TK_RESERVED → t.is_op) →
    ((∃ loc, w.stop = Stop.minus_expected loc) ↔ number_follows_pairs ts = true))
  · intro _
    simp [number_follows_pairs, good_pairs]
  · intro t rest ht _
    rw [number_follows_pairs_stop t rest (good_pairs_not_reserved t rest (by rw [ht]; decide))]
    simp [ht]
  · intro t hop _
    rw [number_follows_pairs_stop t [] rfl]
    simp [hop.1]
  · intro t n rest hop hn ih hk
    rw [number_follows_pairs_pair t n rest ⟨hop.1, hn⟩]
    exact ih fun x hx => hk x (by simp [hx])
  · intro t n rest hop hn ih hk
    rw [number_follows_pairs_pair t n rest ⟨hop.1, hn⟩]
    exact ih fun x hx => hk x (by simp [hx])
  · intro t n rest hop hn _
    rw [number_follows_pairs_stop t (n :: rest)
      (by rw [good_pairs_cons_cons, if_neg (fun hc => hn hc.2)])]
    simp [hop.1]
  · intro t rest h0 hop hk
    have hres : t.kind ≠ .TK_RESERVED := fun hr => hop (hk t (by simp) hr)
    rw [number_follows_pairs_stop t rest (good_pairs_not_reserved t rest hres)]
    have hnum : t.kind = .TK_NUM := by
      cases hkind : t.kind
      · exact absurd hkind hres
      · rfl
      · exact absurd hkind h0
    simp [hnum]

theorem walk_minus_iff (ts : List Token)
    (hk : ∀ t ∈ ts, t.kind = .TK_RESERVED → t.is_op) :
    (∃ loc, (walk ts).stop = .minus_expected loc) ↔ number_in_operator_position ts = true := by
  cases ts with
  | nil => simp [walk_nil, number_in_operator_position]
  | cons t rest =>
    by_cases hn : t.kind = .TK_NUM
    · rw [walk_num t rest hn]
      simp only [number_in_operator_position, hn, decide_True, Bool.true_and]
      exact walk_loop_minus_iff rest fun x hx => hk x (by simp [hx])
    · rw [walk_not_num t rest hn]
      simp [number_in_operator_position, hn]

theorem trailing_tail2 (t n : Token) (rest : List Token) (hn : n.kind = .TK_NUM)
    (h : eof_last (t :: n :: rest) = true)
    (hq : ∃ (front : List Token) (o e : Token), t :: n :: rest = front ++ [o, e] ∧
      o.kind = TokenKind.TK_RESERVED) :
    ∃ (front : List Token) (o e : Token), rest = front ++ [o, e] ∧
      o.kind = TokenKind.TK_RESERVED := by
  obtain ⟨front, o, e, hf, ho⟩ := hq
  match front, hf with
  | [], hf =>
    simp only [List.nil_append, List.cons.injEq] at hf
    obtain ⟨_, rfl, hr⟩ := hf
    cases rest with
    | nil => simp [eof_last, hn] at h
    | cons x r => simp at hr
  | [a], hf =>
    simp only [List.cons_append, List.nil_append, List.cons.injEq] at hf
    obtain ⟨_, rfl, _⟩ := hf
    rw [hn] at ho
    cases ho
  | a :: b :: front1, hf =>
    simp only [List.cons_append, List.cons.injEq] at hf
    exact ⟨front1, o, e, hf.2.2, ho⟩

theorem trailing_tail1 (n : Token) (rest : List Token) (hn : n.kind = .TK_NUM)
    (hq : ∃ (front : List Token) (o e : Token), n :: rest = front ++ [o, e] ∧
      o.kind = TokenKind.TK_RESERVED) :
    ∃ (front : List Token) (o e : Token), rest = front ++ [o, e] ∧
      o.kind = TokenKind.TK_RESERVED := by
  obtain ⟨front, o, e, hf, ho⟩ := hq
  cases front with
  | nil =>
    simp only [List.nil_append, List.cons.injEq] at hf
    obtain ⟨rfl, _⟩ := hf
    rw [hn] at ho
    cases ho
  | cons a front1 =>
    simp only [List.cons_append, List.cons.injEq] at hf
    exact ⟨front1, o, e, hf.2, ho⟩

/-- When the last token before end-of-file is an operator, the loop does not
end well. -/
theorem walk_loop_trailing_not_done (ts : List Token) :
    eof_last ts = true →
    (∃ (front : List Token) (o e : Token), ts = front ++ [o, e] ∧
      o.kind = TokenKind.TK_RESERVED) →
    (walk_loop ts).stop ≠ .done := by
  apply walk_loop_induction (P := fun ts w =>
    eof_last ts = true →
    (∃ (front : List Token) (o e : Token), ts = front ++ [o, e] ∧
      o.kind = TokenKind.TK_RESERVED) →
    w.stop ≠ Stop.done)
  · intro h
    simp [eof_last] at h
  · intro t rest ht h hq
    cases rest with
    | nil =>
      obtain ⟨front, o, e, hf, _⟩ := hq
      have := congrArg List.length hf
      simp at this
    | cons x r => simp [eof_last, ht] at h
  · intro t _ _ _
    simp
  · intro t n rest _ hn ih h hq
    exact ih (eof_last_tail2 t n rest hn h) (trailing_tail2 t n rest hn h hq)
  · intro t n rest _ hn ih h hq
    exact ih (eof_last_tail2 t n rest hn h) (trailing_tail2 t n rest hn h hq)
  · intro t n rest _ _ _ _
    simp
  · intro t rest _ _ _ _
    simp

theorem walk_trailing_not_done (ts : List Token) (h : eof_last ts = true)
    (hq : ∃ (front : List Token) (o e : Token), ts = front ++ [o, e] ∧
      o.kind = TokenKind.TK_RESERVED) :
    (walk ts).stop ≠ .done := by
  cases ts with
  | nil => simp [walk_nil]
  | cons t rest =>
    by_cases hn : t.kind = .TK_NUM
    · rw [walk_num t rest hn]
      exact walk_loop_trailing_not_done rest (eof_last_tail1 t rest hn h)
        (trailing_tail1 t rest hn hq)
    · rw [walk_not_num t rest hn]
      simp

theorem good_pairs_of_form (t : Token) (rest : List Token) (ht : t.kind = .TK_NUM)
    (l : List Token) :
    pairs_form l = true →
      (good_pairs (l ++ t :: rest)).flatMap (fun p => [p.1, p.2]) = l := by
  induction l using length_induction with
  | _ l ih =>
    intro hf
    match l, hf with
    | [], _ =>
      rw [List.nil_append, good_pairs_not_reserved t rest (by rw [ht]; decide)]
      rfl
    | [_], hf => simp [pairs_form] at hf
    | a :: b :: l1, hf =>
      simp only [pairs_form, Bool.and_eq_true, decide_eq_true_eq] at hf
      rw [List.cons_append, List.cons_append, good_pairs_cons_cons, if_pos hf.1]
      simp only [List.flatMap_cons, List.cons_append, List.nil_append]
      rw [ih l1 (by simp; omega) hf.2]

/-- The tokens begin Number (Operator Number)* Number exactly when they split
into a list of that form followed by a Number. -/
theorem number_in_operator_position_iff (ts : List Token) :
    number_in_operator_position ts = true ↔
      ∃ l t rest, ts = l ++ t :: rest ∧ expr_form l = true ∧ t.kind = .TK_NUM := by
  constructor
  · intro h
    cases ts with
    | nil => simp [number_in_operator_position] at h
    | cons n rest =>
      simp only [number_in_operator_position, Bool.and_eq_true, decide_eq_true_eq] at h
      obtain ⟨hn, hf⟩ := h
      obtain ⟨suf, hs⟩ := good_pairs_is_head rest
      have hdrop : ∀ flat : List Token, flat ++ suf = rest → rest.drop flat.length = suf := by
        intro flat hfl
        rw [← hfl]
        simp
      have hd := hdrop _ hs
      simp only [number_follows_pairs, hd] at hf
      cases suf with
      | nil => simp at hf
      | cons t suf1 =>
        simp only [decide_eq_true_eq] at hf
        refine ⟨n :: (good_pairs rest).flatMap (fun p => [p.1, p.2]), t, suf1, ?_, ?_, hf⟩
        · rw [List.cons_append, hs]
        · simp only [expr_form, hn, decide_True, Bool.true_and]
          exact good_pairs_form rest
  · rintro ⟨l, t, rest, rfl, hl, ht⟩
    cases l with
    | nil => simp [expr_form] at hl
    | cons n l1 =>
      simp only [expr_form, Bool.and_eq_true, decide_eq_true_eq] at hl
      simp only [List.cons_append, number_in_operator_position, hl.1, decide_True,
        Bool.true_and, number_follows_pairs, good_pairs_of_form t rest ht l1 hl.2]
      simp [ht]

/-- C6, as amended: when the input lexes and its last character other than
white space is `+` or `-`, the run ends with status 1, and the error stream
holds the positional diagnostic `expected a number` exactly when the tokens do
not begin Number (Operator Number)* Number, that is, unless a Number stands
where the consumer expects an operator before the missing number is reached. -/
theorem C6_trailing_operator (input : String) (ts : List Token)
    (hlex : tokens_of input.toList = some ts)
    (hend : ends_in_operator input.toList) :
    (compile input).status = some 1 ∧
      (number_expected_message input.toList (compile input).err ↔
        number_in_operator_position ts = false) ∧
      (number_in_operator_position ts = true ↔
        ∃ l t rest, ts = l ++ t :: rest ∧ expr_form l = true ∧ t.kind = .TK_NUM) := by
  refine ⟨?_, ?_, number_in_operator_position_iff ts⟩
  all_goals
    obtain ⟨pre, op, ws, hin, hop, hws⟩ := hend
    have hk : ∀ t ∈ ts, t.kind = .TK_RESERVED → t.is_op :=
      fun t ht hr => ⟨hr, (tokens_of_kinds _ ts hlex t ht).1 hr⟩
    have hq : ∃ (front : List Token) (o e : Token), ts = front ++ [o, e] ∧
        o.kind = TokenKind.TK_RESERVED := by
      have hlex1 := hlex
      rw [hin] at hlex1
      obtain ⟨front, hf⟩ := tokens_of_trailing_op op ws hop hws pre ts hlex1
      exact ⟨front, _, _, hf, rfl⟩
    have hnd := walk_trailing_not_done ts (tokens_of_eof_last _ ts hlex) hq
    have hnn := walk_not_null ts (tokens_of_has_eof _ ts hlex)
  · have hs := main_status "9cc".toList input.toList
    rw [hlex] at hs
    simp only [hnd, if_false] at hs
    exact hs
  · cases hs : (walk ts).stop with
    | done => exact absurd hs hnd
    | null => exact absurd hs hnn
    | number_expected loc =>
      have hm := main_number_expected "9cc".toList input.toList ts loc hlex hs
      have hpos : number_in_operator_position ts = false := by
        cases hp : number_in_operator_position ts with
        | false => rfl
        | true =>
          obtain ⟨loc1, h1⟩ := (walk_minus_iff ts hk).2 hp
          rw [hs] at h1
          cases h1
      simp only [compile, hm, hpos, iff_true]
      refine ⟨max (input.toList.length - loc.length) 1, ?_⟩
      simp only [Outcome.err, Outcome.final, fmt_pad_space]
    | minus_expected loc =>
      obtain ⟨t, ht, hl⟩ := walk_loc ts loc (Or.inr hs)
      have hp := tokens_of_no_percent _ ts hlex t ht
      have hsuf := tokens_of_suffix _ ts hlex t ht
      rw [hl] at hp hsuf
      have hm := main_minus_expected "9cc".toList input.toList ts loc hlex hs hp
      have hpos : number_in_operator_position ts = true := (walk_minus_iff ts hk).1 ⟨loc, hs⟩
      simp only [compile, hm, hpos, Bool.true_eq_false, iff_false]
      rintro ⟨k, hk1⟩
      have hlen := congrArg List.length hk1
      have h1 : (Outcome.exit 1 ⟨(walk ts).cursor, input.toList,
          unlines (prologue ++ (walk ts).code.map Instr.line), loc ++ "\n".toList⟩ :
          Outcome Int).err = loc ++ "\n".toList := rfl
      have h2 : "^ expected a number\n".toList.length = 20 := rfl
      have h3 : "\n".toList.length = 1 := rfl
      rw [h1] at hlen
      simp only [List.length_append, h2, h3, List.length_replicate] at hlen
      have := hsuf.length_le
      omega

/-- The claim C6, as amended, at the inputs `1+2+`, `1++2 3+` and `+1 2+`, which
end in `expected a number`, and at `1 2+`, whose tokens begin Number Number and
which does not. -/
theorem C6_trailing_operator_witness :
    ((compile "1+2+").status = some 1 ∧
        number_expected_message "1+2+".toList (compile "1+2+").err) ∧
      ((compile "1++2 3+").status = some 1 ∧
        number_expected_message "1++2 3+".toList (compile "1++2 3+").err) ∧
      ((compile "+1 2+").status = some 1 ∧
        number_expected_message "+1 2+".toList (compile "+1 2+").err) ∧
      ¬ number_expected_message "1 2+".toList (compile "1 2+").err ∧
      (compile "1+2+").err = "1+2+\n    ^ expected a number\n".toList ∧
      (compile "1++2 3+").err = "1++2 3+\n  ^ expected a number\n".toList ∧
      (compile "+1 2+").err = "+1 2+\n ^ expected a number\n".toList :=
  have h1 := C6_trailing_operator "1+2+"
    [⟨.TK_NUM, 1, "1+2+".toList⟩, ⟨.TK_RESERVED, 0, "+2+".toList⟩,
      ⟨.TK_NUM, 2, "2+".toList⟩, ⟨.TK_RESERVED, 0, "+".toList⟩, ⟨.TK_EOF, 0, []⟩]
    (by rfl) ⟨"1+2".toList, '+', [], by rfl, Or.inl rfl, by simp⟩
  have h2 := C6_trailing_operator "1++2 3+"
    [⟨.TK_NUM, 1, "1++2 3+".toList⟩, ⟨.TK_RESERVED, 0, "++2 3+".toList⟩,
      ⟨.TK_RESERVED, 0, "+2 3+".toList⟩, ⟨.TK_NUM, 2, "2 3+".toList⟩,
      ⟨.TK_NUM, 3, "3+".toList⟩, ⟨.TK_RESERVED, 0, "+".toList⟩, ⟨.TK_EOF, 0, []⟩]
    (by rfl) ⟨"1++2 3".toList, '+', [], by rfl, Or.inl rfl, by simp⟩
  have h3 := C6_trailing_operator "+1 2+"
    [⟨.TK_RESERVED, 0, "+1 2+".toList⟩, ⟨.TK_NUM, 1, "1 2+".toList⟩,
      ⟨.TK_NUM, 2, "2+".toList⟩, ⟨.TK_RESERVED, 0, "+".toList⟩, ⟨.TK_EOF, 0, []⟩]
    (by rfl) ⟨"+1 2".toList, '+', [], by rfl, Or.inl rfl, by simp⟩
  have h4 := C6_trailing_operator "1 2+"
    [⟨.TK_NUM, 1, "1 2+".toList⟩, ⟨.TK_NUM, 2, "2+".toList⟩,
      ⟨.TK_RESERVED, 0, "+".toList⟩, ⟨.TK_EOF, 0, []⟩]
    (by rfl) ⟨"1 2".toList, '+', [], by rfl, Or.inl rfl, by simp⟩
  ⟨⟨h1.1, h1.2.1.2 (by rfl)⟩, ⟨h2.1, h2.2.1.2 (by rfl)⟩, ⟨h3.1, h3.2.1.2 (by rfl)⟩,
    fun h => absurd (h4.2.1.1 h) (by decide), by rfl, by rfl, by rfl⟩

end NineCC
